import Mathlib

/-!
# klick: tempo map and Position engine

A shallow embedding of `src/position.cc` (class `Position`), the parts of
`src/tempomap.h` it uses, and `AudioInterface::play` of
`src/src/audio_interface.cc`.

Numbers.  The engine is given twice.  In the first, exact, version `float` and
`double` (`float_frames_t`) are embedded as an arbitrary linearly ordered field
`K` with a floor function: every arithmetic step is exact, no rounding, no NaN,
no overflow; C++ `int` values are `Int` (unbounded).  Concrete runs use `K = ℚ`;
the logarithm of `frame_dist` is a parameter of the numeric environment
(`Host.log`), instantiated with `Real.log` over `ℝ`.  The second version
(section "The arithmetic of the machine", names ending in `64`) rounds every
floating operation to its type and converts to the 32-bit `int`.  In both
versions `nframes_t` is 32 bits wide: the conversion to it reduces modulo
`2^32`.  Indices into the entry vector are `ℕ`.
`numeric_limits<float_frames_t>::max()` is the exact value of the largest
finite double, `numeric_limits<int>::max()` is `2^31 - 1`.

Reads outside a vector (undefined behaviour in C++) yield a default value
(`Entry.zero`, `BEAT_SILENT`, `0`); loops that the source does not bound take
a fuel argument and return `none` when it runs out.
-/

namespace Klick

/-- Accent of a beat, `TempoMap::BeatType`. -/
inductive BeatType where
  | BEAT_EMPHASIS
  | BEAT_NORMAL
  | BEAT_SILENT
  deriving DecidableEq, Repr

/-- One section of a tempo map, `TempoMap::Entry` with the fields that
`position.cc` reads (the header `tempomap.h` names the accent list `accents` and
declares `bars`, `beats`, `denom` unsigned; `position.cc` reads `pattern` and
compares `bars` with `-1`): `bars = -1` plays the entry ad infinitum,
`tempo = 0` means a tempo per beat (`tempi`), `tempo2 = 0` means constant tempo,
an empty `pattern` is the default accent pattern. -/
structure Entry (K : Type) where
  label : String
  bars : Int
  tempo : K
  tempo2 : K
  tempi : List K
  beats : Int
  denom : Int
  pattern : List BeatType
  volume : K

/-- The value an out-of-range entry read yields in this embedding. -/
def Entry.zero {K : Type} [Zero K] : Entry K :=
  { label := "", bars := 0, tempo := 0, tempo2 := 0, tempi := [], beats := 0, denom := 0,
    pattern := [], volume := 0 }

/-- The tempo map, `class TempoMap`: the vector `_entries`. -/
structure TempoMap (K : Type) where
  entries : List (Entry K)

/-- The number of entries, `TempoMap::size`. -/
def TempoMap.size {K : Type} (m : TempoMap K) : ℕ := m.entries.length

/-- The n-th entry, `TempoMap::operator[]`. -/
def TempoMap.get {K : Type} [Zero K] (m : TempoMap K) (n : ℕ) : Entry K :=
  m.entries.getD n Entry.zero

/-- Appends an entry, `TempoMap::add`. -/
def TempoMap.add {K : Type} (m : TempoMap K) (e : Entry K) : TempoMap K :=
  { entries := m.entries ++ [e] }

/-- The loop of `TempoMap::entry(const std::string &)` over the entries. -/
def TempoMap.entry_loop {K : Type} : List (Entry K) → String → Option (Entry K)
  | [], _ => none
  | e :: es, l => if e.label = l then some e else TempoMap.entry_loop es l

/-- The entry with label `l`, `none` (NULL) if there is none,
`TempoMap::entry(const std::string &)`. -/
def TempoMap.entry {K : Type} (m : TempoMap K) (l : String) : Option (Entry K) :=
  if l.isEmpty then none else TempoMap.entry_loop m.entries l

/-- Modelled from the spec: `TempoMap::new_simple`, declared in `tempomap.h` and
defined outside `src/`; the builder of a one-entry constant-tempo map without
label. -/
def TempoMap.new_simple {K : Type} [Zero K] (bars : Int) (tempo : K) (beats denom : Int)
    (pattern : List BeatType) (volume : K) : TempoMap K :=
  { entries := [{ label := "", bars := bars, tempo := tempo, tempo2 := 0, tempi := [],
                  beats := beats, denom := denom, pattern := pattern, volume := volume }] }

/-- The labels that are present (non-empty) in a list of entries. -/
def present_labels {K : Type} (es : List (Entry K)) : List String :=
  (es.map Entry.label).filter (fun l => !l.isEmpty)

/-- Modelled from the spec: `TempoMap::join`, declared in `tempomap.h` and defined
outside `src/`: the entries of `a` followed by those of `b`; fails (`none`) if
`a` ends with `bars = ∞` or a label occurs twice. -/
def TempoMap.join {K : Type} (a b : TempoMap K) : Option (TempoMap K) :=
  if (a.entries.getLast?.map Entry.bars) = some (-1) then none
  else if (present_labels (a.entries ++ b.entries)).Nodup then
    some { entries := a.entries ++ b.entries }
  else none

/-- The numeric environment of `Position`: the global `Audio->samplerate()`
and the `log` of the C library. -/
structure Host (K : Type) where
  samplerate : ℕ
  log : K → K

/-- The constant `Options::PREROLL_2_BEATS`. -/
def PREROLL_2_BEATS : Int := 0

/-- The value of `numeric_limits<float_frames_t>::max()`, the largest finite double. -/
def float_frames_max {K : Type} [Field K] : K := (2 ^ 53 - 1) * 2 ^ 971

/-- The value of `numeric_limits<int>::max()`. -/
def int_max : Int := 2147483647

/-- The conversion `(int)x` of a floating value in exact arithmetic: truncation
toward zero, the range of `int` not limited (`to_int32` is the conversion with
the range of the 32-bit `int`). -/
def to_int {K : Type} [LinearOrderedField K] [FloorRing K] (x : K) : Int :=
  if 0 ≤ x then ⌊x⌋ else ⌈x⌉

/-- The conversion `(nframes_t)x` of a non-negative floating value to the 32-bit
unsigned `nframes_t`: truncation, reduced modulo `2^32` (the value the
conversion yields for `x` at or above `2^32`, where C++ leaves it undefined). -/
def to_nframes {K : Type} [LinearOrderedField K] [FloorRing K] (x : K) : ℕ := ⌊x⌋₊ % 2 ^ 32

/-- A click event, `Position::Tick`. -/
structure Tick (K : Type) where
  frame : ℕ
  type : BeatType
  volume : K

/-- The cursor over a tempo map, `class Position`. -/
structure Position (K : Type) where
  tempomap : TempoMap K
  multiplier : K
  start_frames : List K
  start_bars : List Int
  frame : K
  entry : ℕ
  bar : Int
  beat : Int
  bar_total : Int
  init : Bool
  end_ : Bool

section Engine

variable {K : Type} [LinearOrderedField K] [FloorRing K]

/-- The distance in frames between two beats of an entry, `Position::frame_dist`
(`multiplier` is the member `_multiplier`). -/
def frame_dist (H : Host K) (multiplier : K) (e : Entry K) (start end_ : Int) : K :=
  if start = end_ then 0
  else
    let nbeats : Int := end_ - start
    let secs : K :=
      if (e.tempo ≠ 0 ∧ e.tempo2 = 0) ∨ (e.tempo ≠ 0 ∧ e.tempo = e.tempo2) then
        (nbeats : K) * 240 / (e.tempo * (e.denom : K))
      else if e.tempo ≠ 0 ∧ e.tempo2 ≠ 0 then
        let tdiff : K := e.tempo2 - e.tempo
        let t1 : K := e.tempo + tdiff * ((start : K) / ((e.bars * e.beats : Int) : K))
        let t2 : K := e.tempo + tdiff * ((end_ : K) / ((e.bars * e.beats : Int) : K))
        let avg_tempo : K := (t1 - t2) / (H.log t1 - H.log t2)
        ((nbeats : K) * 240) / (avg_tempo * (e.denom : K))
      else if e.tempo = 0 then
        ((e.tempi.drop start.toNat).take (end_ - start).toNat).foldl
          (fun a t => a + 240 / (t * (e.denom : K))) 0
      else 0
    secs * (H.samplerate : K) / multiplier

/-- The values `f` pushed to `_start_frames` by the loop of the constructor,
entered with the running value `f`, and the final push after the loop. -/
def start_frames_loop (H : Host K) (multiplier : K) : List (Entry K) → K → List K
  | [], f => [f]
  | e :: es, f =>
    f :: start_frames_loop H multiplier es
      (if e.bars ≠ -1 then f + frame_dist H multiplier e 0 (e.bars * e.beats)
       else float_frames_max)

/-- The values `b` pushed to `_start_bars` by the loop of the constructor. -/
def start_bars_loop : List (Entry K) → Int → List Int
  | [], b => [b]
  | e :: es, b => b :: start_bars_loop es (if e.bars ≠ -1 then b + e.bars else int_max)

/-- The cursor at the start of the map, `Position::reset`. -/
def Position.reset (p : Position K) : Position K :=
  { p with frame := 0, entry := 0, bar := 0, beat := 0, bar_total := 0, init := true,
           end_ := false }

/-- The constructor `Position::Position`. -/
def Position.new (H : Host K) (tempomap : TempoMap K) (multiplier : K) : Position K :=
  Position.reset
    { tempomap := tempomap, multiplier := multiplier,
      start_frames := start_frames_loop H multiplier tempomap.entries 0,
      start_bars := start_bars_loop tempomap.entries 0,
      frame := 0, entry := 0, bar := 0, beat := 0, bar_total := 0, init := true,
      end_ := false }

/-- The loop `while (i->label != start_label) ++i` of `set_start_label` and the
copy of the rest; `none` when the iterator runs past the last entry. -/
def skip_to_label : List (Entry K) → String → Option (List (Entry K))
  | [], _ => none
  | e :: es, l => if e.label ≠ l then skip_to_label es l else some (e :: es)

/-- Rebinds the map to the entries from the start label on,
`Position::set_start_label`; `none` when no entry carries the label (the source
then reads past the end of the vector). -/
def Position.set_start_label (p : Position K) (start_label : String) : Option (Position K) :=
  match skip_to_label p.tempomap.entries start_label with
  | none => none
  | some es => some { p with tempomap := { entries := es } }

/-- Puts a preroll in front of the map, `Position::add_preroll`; `none` when
`TempoMap::join` fails. -/
def Position.add_preroll (p : Position K) (nbars : Int) : Option (Position K) :=
  let e := p.tempomap.get 0
  let preroll : TempoMap K :=
    if nbars = PREROLL_2_BEATS then
      TempoMap.new_simple 1 e.tempo 2 e.denom
        (List.replicate e.denom.toNat BeatType.BEAT_NORMAL) (66 / 100)
    else
      TempoMap.new_simple nbars e.tempo e.beats e.denom e.pattern (66 / 100)
  match TempoMap.join preroll p.tempomap with
  | none => none
  | some t => some { p with tempomap := t }

/-- The distance to the next tick, `Position::dist_to_next`. -/
def Position.dist_to_next (H : Host K) (p : Position K) : K :=
  if p.init then 0
  else if p.end_ then float_frames_max
  else
    let e := p.tempomap.get p.entry
    frame_dist H p.multiplier e (p.bar * e.beats + p.beat) (p.bar * e.beats + p.beat + 1)

/-- One step to the next tick, `Position::advance`. -/
def Position.advance (H : Host K) (p : Position K) : Position K :=
  if p.init then { p with init := false }
  else
    let frame := p.frame + p.dist_to_next H
    let e := p.tempomap.get p.entry
    if p.beat + 1 ≥ e.beats then
      if p.bar + 1 ≥ e.bars ∧ e.bars ≠ -1 then
        if p.entry + 1 ≥ p.tempomap.size then
          { p with frame := frame, beat := 0, bar := 0, entry := p.entry + 1 - 1, end_ := true,
                   bar_total := p.bar_total + 1 }
        else
          { p with frame := frame, beat := 0, bar := 0, entry := p.entry + 1,
                   bar_total := p.bar_total + 1 }
      else
        { p with frame := frame, beat := 0, bar := p.bar + 1, bar_total := p.bar_total + 1 }
    else
      { p with frame := frame, beat := p.beat + 1 }

/-- The current tick, `Position::tick`. -/
def Position.tick (p : Position K) : Tick K :=
  if p.end_ then { frame := to_nframes p.frame, type := BeatType.BEAT_SILENT, volume := 0 }
  else
    let e := p.tempomap.get p.entry
    let t : BeatType :=
      if e.pattern.isEmpty then
        (if p.beat = 0 then BeatType.BEAT_EMPHASIS else BeatType.BEAT_NORMAL)
      else e.pattern.getD p.beat.toNat BeatType.BEAT_SILENT
    { frame := to_nframes p.frame, type := t, volume := e.volume }

/-- The contract of `std::upper_bound` on a sorted range: the index of the first
element greater than `f`, the length if there is none. -/
def upper_bound (xs : List K) (f : K) : ℕ := xs.findIdx (fun x => decide (f < x))

/-- The binary search of `locate` for a gradual tempo change: `d` is
`frame_dist(e, 0, ·)`, the result is `nbeats`; `none` when the fuel runs out. -/
def ramp_search (d : Int → K) (v : K) : ℕ → Int → Int → Option Int
  | 0, _, _ => none
  | fuel + 1, low, high =>
    if low ≤ high then
      let mid : Int := (low + high).tdiv 2
      if d mid > v then ramp_search d v fuel low (mid - 1)
      else if d mid ≤ v then
        if d (mid + 1) < v then ramp_search d v fuel (mid + 1) high
        else some mid
      else ramp_search d v fuel low high
    else some 0

/-- The loop `while (_frame + dist_to_next() <= f && !_end) advance()` of
`locate` for a tempo per beat; `none` when the fuel runs out. -/
def locate_loop (H : Host K) (f : K) : ℕ → Position K → Option (Position K)
  | 0, _ => none
  | fuel + 1, p =>
    if p.frame + p.dist_to_next H ≤ f ∧ p.end_ = false then
      locate_loop H f fuel (p.advance H)
    else some p

/-- The branch of `locate` for a constant tempo, run on the cursor whose `entry`
is set: the beat count by division, then bar, beat, frame and total bar. -/
def locate_const (H : Host K) (p : Position K) (f : ℕ) : Position K :=
  let e := p.tempomap.get p.entry
  let diff : K := (f : K) - p.start_frames.getD p.entry 0
  let secs : K := diff / (H.samplerate : K) * p.multiplier
  let nbeats : Int := to_int (secs / 240 * e.tempo * (e.denom : K))
  let bar := nbeats.tdiv e.beats
  let beat := nbeats.tmod e.beats
  { p with bar := bar, beat := beat,
           frame := p.start_frames.getD p.entry 0
                    + frame_dist H p.multiplier e 0 (bar * e.beats + beat),
           bar_total := p.start_bars.getD p.entry 0 + bar }

/-- The branch of `locate` for a gradual tempo change: the beat count by binary
search, then bar, beat, frame and total bar. -/
def locate_ramp (H : Host K) (fuel : ℕ) (p : Position K) (f : ℕ) : Option (Position K) :=
  let e := p.tempomap.get p.entry
  let v : K := (f : K) - p.start_frames.getD p.entry 0
  match ramp_search (frame_dist H p.multiplier e 0) v fuel 0 (e.bars * e.beats) with
  | none => none
  | some nbeats =>
    let bar := nbeats.tdiv e.beats
    let beat := nbeats.tmod e.beats
    some { p with bar := bar, beat := beat,
                  frame := p.start_frames.getD p.entry 0
                           + frame_dist H p.multiplier e 0 (bar * e.beats + beat),
                  bar_total := p.start_bars.getD p.entry 0 + bar }

/-- The branch of `locate` for a tempo per beat: from the start of the entry,
`advance` while the next tick is not after `f`. -/
def locate_per_beat (H : Host K) (fuel : ℕ) (p : Position K) (f : ℕ) : Option (Position K) :=
  locate_loop H (f : K) fuel
    { p with bar := 0, beat := 0, frame := p.start_frames.getD p.entry 0,
             bar_total := p.start_bars.getD p.entry 0 }

/-- Moves the cursor to frame `f`, `Position::locate`; `fuel` bounds the
iterations of its loops, `none` when it runs out. -/
def Position.locate (H : Host K) (fuel : ℕ) (p0 : Position K) (f : ℕ) : Option (Position K) :=
  let p := p0.reset
  if f = 0 then some p
  else
    let p := { p with entry := upper_bound p.start_frames (f : K) - 1 }
    if p.entry = p.tempomap.size then some { p with end_ := true }
    else
      let e := p.tempomap.get p.entry
      let r : Option (Position K) :=
        if e.tempo ≠ 0 ∧ e.tempo2 = 0 then some (locate_const H p f)
        else if e.tempo ≠ 0 ∧ e.tempo2 ≠ 0 then locate_ramp H fuel p f
        else if e.tempo = 0 then locate_per_beat H fuel p f
        else some p
      match r with
      | none => none
      | some q => some { q with init := decide (q.frame = (f : K)) }

end Engine

/-- One slot of the voice ring of `AudioInterface` (`_chunks[i]`); `chunk` is
`none` for a released slot. -/
structure Voice (C V : Type) where
  chunk : Option C
  offset : ℕ
  pos : ℕ
  volume : V

/-- The part of `AudioInterface` that `play` touches: `_chunks`, `_next_chunk`. -/
structure AudioInterface (C V : Type) where
  chunks : List (Voice C V)
  next_chunk : ℕ

/-- Starts a voice in the next slot of the ring, `AudioInterface::play`. -/
def AudioInterface.play {C V : Type} (a : AudioInterface C V) (chunk : C) (offset : ℕ)
    (volume : V) : AudioInterface C V :=
  { chunks := a.chunks.set a.next_chunk
      { chunk := some chunk, offset := offset, pos := 0, volume := volume },
    next_chunk := (a.next_chunk + 1) % a.chunks.length }

/-! ## Validity of a map and of a cursor -/

section Validity

variable {K : Type} [LinearOrderedField K] [FloorRing K]

/-- Constant tempo: `tempo = T`, `tempo2 = 0` (or equal to `T`). -/
def Entry.is_const (e : Entry K) : Prop := 0 < e.tempo ∧ (e.tempo2 = 0 ∨ e.tempo2 = e.tempo)

/-- Linear change of tempo: both tempi positive and different, finitely many bars. -/
def Entry.is_ramp (e : Entry K) : Prop :=
  0 < e.tempo ∧ 0 < e.tempo2 ∧ e.tempo ≠ e.tempo2 ∧ e.bars ≠ -1

/-- A tempo per beat: `tempo = 0` and one positive tempo for each of the `bars * beats` beats. -/
def Entry.is_per_beat (e : Entry K) : Prop :=
  e.tempo = 0 ∧ e.bars ≠ -1 ∧ e.tempi.length = (e.bars * e.beats).toNat ∧ ∀ t ∈ e.tempi, 0 < t

/-- The ranges of the data model for one entry. -/
def Entry.valid (e : Entry K) : Prop :=
  1 ≤ e.beats ∧ 1 ≤ e.denom ∧ (1 ≤ e.bars ∨ e.bars = -1) ∧
  (e.is_const ∨ e.is_ramp ∨ e.is_per_beat) ∧
  (e.pattern = [] ∨ e.pattern.length = e.beats.toNat) ∧ 0 ≤ e.volume ∧ e.volume ≤ 1

/-- The invariants of the data model for a map: at least one entry, every entry
in range, only the last entry may have `bars = ∞`, labels that are present are
unique. -/
def TempoMap.valid (m : TempoMap K) : Prop :=
  m.entries ≠ [] ∧ (∀ e ∈ m.entries, e.valid) ∧
  (∀ i, i + 1 < m.size → (m.get i).bars ≠ -1) ∧
  (present_labels m.entries).Nodup

/-- The index of the current beat within the current entry, `_bar * e.beats + _beat`. -/
def Position.beat_index (p : Position K) : Int :=
  p.bar * (p.tempomap.get p.entry).beats + p.beat

/-- The indices of the cursor are in range: an entry of the map, a beat of the
bar, a bar of the entry. -/
def Position.in_range (p : Position K) : Prop :=
  p.entry < p.tempomap.size ∧ 0 ≤ p.beat ∧ p.beat < (p.tempomap.get p.entry).beats ∧
  0 ≤ p.bar ∧ ((p.tempomap.get p.entry).bars = -1 ∨ p.bar < (p.tempomap.get p.entry).bars)

/-- The cursor is on the beat that `locate(f)` looks for: a beat of an entry,
the frame is the frame of that beat and not after `f`, the next beat is not
before `f`, and after `f` unless the entry went through the binary search. -/
def Position.on_beat (H : Host K) (q : Position K) (f : ℕ) : Prop :=
  q.end_ = false ∧ q.in_range ∧
  q.frame = q.start_frames.getD q.entry 0
    + frame_dist H q.multiplier (q.tempomap.get q.entry) 0 q.beat_index ∧
  q.frame ≤ (f : K) ∧
  (f : K) ≤ q.frame
    + frame_dist H q.multiplier (q.tempomap.get q.entry) q.beat_index (q.beat_index + 1) ∧
  (¬ ((q.tempomap.get q.entry).tempo ≠ 0 ∧ (q.tempomap.get q.entry).tempo2 ≠ 0) →
    (f : K) < q.frame
      + frame_dist H q.multiplier (q.tempomap.get q.entry) q.beat_index (q.beat_index + 1))

/-- The cursor `p` seen under another multiplier `M` (or samplerate): the same
map and beat, the frame scaled by `c`, the tables `sf` and `sb`. -/
def Position.rescale (p : Position K) (M c : K) (sf : List K) (sb : List Int) : Position K :=
  { p with multiplier := M, frame := c * p.frame, start_frames := sf, start_bars := sb }

/-- The seconds of a list of per-beat tempi, the sum that `frame_dist` accumulates. -/
def beat_secs (denom : Int) (l : List K) : K := (l.map (fun t => 240 / (t * (denom : K)))).sum

/-- The running distance from the start of an entry up to a constant: the
function whose differences `frame_dist` returns. -/
def cum (H : Host K) (multiplier : K) (e : Entry K) (x : Int) : K :=
  (if (e.tempo ≠ 0 ∧ e.tempo2 = 0) ∨ (e.tempo ≠ 0 ∧ e.tempo = e.tempo2) then
      (x : K) * 240 / (e.tempo * (e.denom : K))
    else if e.tempo ≠ 0 ∧ e.tempo2 ≠ 0 then
      240 * ((e.bars * e.beats : Int) : K)
        * H.log (e.tempo + (e.tempo2 - e.tempo) * ((x : K) / ((e.bars * e.beats : Int) : K)))
        / ((e.tempo2 - e.tempo) * (e.denom : K))
    else beat_secs e.denom (e.tempi.take x.toNat)) * (H.samplerate : K) / multiplier

end Validity

/-! ## The maps of the scenarios -/

/-- An entry of constant tempo with the default pattern and volume 1. -/
def const_entry {K : Type} [Field K] (label : String) (bars : Int) (tempo : K)
    (beats denom : Int) : Entry K :=
  { label := label, bars := bars, tempo := tempo, tempo2 := 0, tempi := [], beats := beats,
    denom := denom, pattern := [], volume := 1 }

/-- The environment of the scenarios: samplerate 48000. The maps of the
scenarios have constant tempo and never read the logarithm. -/
def host48k : Host ℚ := { samplerate := 48000, log := fun _ => 0 }

/-- The map `4 4/4 60` followed by `4 4/4 120`. -/
def map_60_120 {K : Type} [Field K] : TempoMap K :=
  { entries := [const_entry "" 4 60 4 4, const_entry "" 4 120 4 4] }

/-- The map `* 120`, that is `* 4/4 120`. -/
def map_inf_120 {K : Type} [Field K] : TempoMap K :=
  { entries := [const_entry "" (-1) 120 4 4] }

/-- The map `* 4/4 108`. -/
def map_inf_108 {K : Type} [Field K] : TempoMap K :=
  { entries := [const_entry "" (-1) 108 4 4] }

/-- The map `* 4/4 120-120`: constant tempo written with `tempo2` equal to `tempo`. -/
def map_inf_120_120 {K : Type} [Field K] : TempoMap K :=
  { entries := [{ label := "", bars := -1, tempo := 120, tempo2 := 120, tempi := [],
                  beats := 4, denom := 4, pattern := [], volume := 1 }] }

/-- The map `intro: 1 4/4 100` followed by `main: * 4/4 120`. -/
def map_intro_main {K : Type} [Field K] : TempoMap K :=
  { entries := [const_entry "intro" 1 100 4 4, const_entry "main" (-1) 120 4 4] }

/-- The entry `2 4/4 60-120`, a linear ramp. -/
def ramp_60_120 {K : Type} [Field K] : Entry K :=
  { label := "", bars := 2, tempo := 60, tempo2 := 120, tempi := [], beats := 4,
    denom := 4, pattern := [], volume := 1 }

/-- The cursor of the map `* 120` on its `k`-th tick, off the initial state. -/
def tick_state (k : ℕ) : Position ℚ :=
  { tempomap := map_inf_120, multiplier := 1,
    start_frames := [0, float_frames_max], start_bars := [0, int_max],
    frame := 24000 * (k : ℚ), entry := 0, bar := (k : Int) / 4, beat := (k : Int) % 4,
    bar_total := (k : Int) / 4, init := false, end_ := false }

end Klick

namespace Klick

/-- The state that the constructor `AudioInterface::AudioInterface` leaves:
`_next_chunk(0)`, over the ring of the given slots. -/
def AudioInterface.new {C V : Type} (chunks : List (Voice C V)) : AudioInterface C V :=
  { chunks := chunks, next_chunk := 0 }

/-- A sequence of calls of `AudioInterface::play`, one for each request
(chunk, offset, volume), in order. -/
def AudioInterface.play_all {C V : Type} (a : AudioInterface C V) (rs : List (C × ℕ × V)) :
    AudioInterface C V :=
  rs.foldl (fun s r => s.play r.1 r.2.1 r.2.2) a

/-- A ring of two released voice slots. -/
def ring2 : List (Voice ℕ ℚ) :=
  [{ chunk := none, offset := 0, pos := 0, volume := 0 },
   { chunk := none, offset := 0, pos := 0, volume := 0 }]

/-- Three requests to `play`: chunk (by number), offset, volume. -/
def plays3 : List (ℕ × ℕ × ℚ) := [(1, 0, 1), (2, 5, 1), (1, 7, 1 / 2)]

/-- The entry that `add_preroll(PREROLL_2_BEATS)` builds from the entry `* 4/4 120`. -/
def two_beat_preroll {K : Type} [Field K] : Entry K :=
  { label := "", bars := 1, tempo := 120, tempo2 := 0, tempi := [], beats := 2, denom := 4,
    pattern := [BeatType.BEAT_NORMAL, BeatType.BEAT_NORMAL, BeatType.BEAT_NORMAL,
                BeatType.BEAT_NORMAL],
    volume := 66 / 100 }

/-- The map `1 4/4 60-60`: one bar of constant tempo written with `tempo2`
equal to `tempo`, which `locate` treats as a gradual tempo change. -/
def map_60_60 {K : Type} [Field K] : TempoMap K :=
  { entries := [{ label := "", bars := 1, tempo := 60, tempo2 := 60, tempi := [],
                  beats := 4, denom := 4, pattern := [], volume := 1 }] }

/-- The entry `1 4/4 60-120`, a linear ramp over four beats. -/
def ramp_bar {K : Type} [Field K] : Entry K :=
  { label := "", bars := 1, tempo := 60, tempo2 := 120, tempi := [], beats := 4,
    denom := 4, pattern := [], volume := 1 }

/-- The map `1 4/4 60-120`. -/
def map_ramp_bar {K : Type} [Field K] : TempoMap K := { entries := [ramp_bar] }

/-- The entry that `add_preroll(nbars)`, `nbars ≠ PREROLL_2_BEATS`, builds from
the first entry `e` of the map. -/
def preroll_entry {K : Type} [Field K] (e : Entry K) (nbars : Int) : Entry K :=
  { label := "", bars := nbars, tempo := e.tempo, tempo2 := 0, tempi := [], beats := e.beats,
    denom := e.denom, pattern := e.pattern, volume := 66 / 100 }

/-- The cursor `p` of a map seen in the map `t` that has one more entry in
front, `d` frames and `n` bars long: the same bar and beat one entry further. -/
def Position.shift_entry {K : Type} [Field K] (p : Position K) (t : TempoMap K) (d : K)
    (n : Int) (sf : List K) (sb : List Int) : Position K :=
  { p with tempomap := t, entry := p.entry + 1, frame := p.frame + d,
           bar_total := p.bar_total + n, start_frames := sf, start_bars := sb }

/-- The frame invariant of the cursor: unless `end` is set, the frame is the
start of the current entry plus the distance of the current beat from it. -/
def Position.frame_inv {K : Type} [LinearOrderedField K] [FloorRing K] (H : Host K)
    (p : Position K) : Prop :=
  p.end_ = false →
    p.frame = p.start_frames.getD p.entry 0
      + frame_dist H p.multiplier (p.tempomap.get p.entry) 0 p.beat_index

end Klick

namespace Klick

/-! ## The arithmetic of the machine

The same functions of `position.cc` once more, with the arithmetic the compiled
program performs: every floating operation returns its exact result rounded to
the nearest value of its type (`float`: 24 bits of precision, `double`: 53
bits, ties to the even value). Values are rationals; the exponent range is not
bounded, so there is no overflow to infinity and no subnormal number, and a
division by zero yields 0 (entries of a valid map and a positive multiplier
never divide by zero). `float_frames_t` is `double`. -/

/-- The integer nearest to `s`, the even one of the two when `s` lies half way. -/
def round_even (s : ℚ) : Int :=
  if s - (⌊s⌋ : ℚ) < 1 / 2 then ⌊s⌋
  else if 1 / 2 < s - (⌊s⌋ : ℚ) then ⌊s⌋ + 1
  else if ⌊s⌋ % 2 = 0 then ⌊s⌋ else ⌊s⌋ + 1

/-- The value of the binary floating-point format with `p` bits of precision
that is nearest to `q`, ties to even: what one IEEE 754 operation with the exact
result `q` returns. -/
def rnd (p : ℕ) (q : ℚ) : ℚ :=
  if q = 0 then 0
  else
    (round_even (q / (2 : ℚ) ^ (Int.log 2 |q| - ((p : Int) - 1))) : ℚ)
      * (2 : ℚ) ^ (Int.log 2 |q| - ((p : Int) - 1))

/-- The result of an operation on `double`. -/
def rnd64 (q : ℚ) : ℚ := rnd 53 q

/-- The result of an operation on `float`. -/
def rnd32 (q : ℚ) : ℚ := rnd 24 q

/-- The conversion `(int)x` of a `double` to the 32-bit `int`: truncation toward
zero; outside the range of `int`, where C++ leaves it undefined, the value
`-2^31` that the conversion instruction of x86-64 yields. -/
def to_int32 (x : ℚ) : Int :=
  if -(2 : ℚ) ^ 31 - 1 < x ∧ x < (2 : ℚ) ^ 31 then to_int x else -2 ^ 31

/-- The distance in frames between two beats of an entry, `Position::frame_dist`,
in machine arithmetic: `e.tempo * e.denom` and `e.tempo2 - e.tempo` are `float`
operations, all others `double`. -/
def frame_dist64 (H : Host ℚ) (multiplier : ℚ) (e : Entry ℚ) (start end_ : Int) : ℚ :=
  if start = end_ then 0
  else
    let nbeats : Int := end_ - start
    let secs : ℚ :=
      if (e.tempo ≠ 0 ∧ e.tempo2 = 0) ∨ (e.tempo ≠ 0 ∧ e.tempo = e.tempo2) then
        rnd64 (rnd64 ((nbeats : ℚ) * 240) / rnd32 (e.tempo * (e.denom : ℚ)))
      else if e.tempo ≠ 0 ∧ e.tempo2 ≠ 0 then
        let tdiff : ℚ := rnd32 (e.tempo2 - e.tempo)
        let t1 : ℚ :=
          rnd64 (e.tempo + rnd64 (tdiff * rnd64 ((start : ℚ) / ((e.bars * e.beats : Int) : ℚ))))
        let t2 : ℚ :=
          rnd64 (e.tempo + rnd64 (tdiff * rnd64 ((end_ : ℚ) / ((e.bars * e.beats : Int) : ℚ))))
        let avg_tempo : ℚ := rnd64 (rnd64 (t1 - t2) / rnd64 (H.log t1 - H.log t2))
        rnd64 (rnd64 ((nbeats : ℚ) * 240) / rnd64 (avg_tempo * (e.denom : ℚ)))
      else if e.tempo = 0 then
        ((e.tempi.drop start.toNat).take (end_ - start).toNat).foldl
          (fun a t => rnd64 (a + rnd64 (240 / rnd32 (t * (e.denom : ℚ))))) 0
      else 0
    rnd64 (rnd64 (secs * (H.samplerate : ℚ)) / multiplier)

/-- The values pushed to `_start_frames` by the loop of the constructor and
after it, in machine arithmetic. -/
def start_frames_loop64 (H : Host ℚ) (multiplier : ℚ) : List (Entry ℚ) → ℚ → List ℚ
  | [], f => [f]
  | e :: es, f =>
    f :: start_frames_loop64 H multiplier es
      (if e.bars ≠ -1 then rnd64 (f + frame_dist64 H multiplier e 0 (e.bars * e.beats))
       else float_frames_max)

/-- The constructor `Position::Position` in machine arithmetic. -/
def Position.new64 (H : Host ℚ) (tempomap : TempoMap ℚ) (multiplier : ℚ) : Position ℚ :=
  Position.reset
    { tempomap := tempomap, multiplier := multiplier,
      start_frames := start_frames_loop64 H multiplier tempomap.entries 0,
      start_bars := start_bars_loop tempomap.entries 0,
      frame := 0, entry := 0, bar := 0, beat := 0, bar_total := 0, init := true,
      end_ := false }

/-- The distance to the next tick, `Position::dist_to_next`, in machine arithmetic. -/
def Position.dist_to_next64 (H : Host ℚ) (p : Position ℚ) : ℚ :=
  if p.init then 0
  else if p.end_ then float_frames_max
  else
    let e := p.tempomap.get p.entry
    frame_dist64 H p.multiplier e (p.bar * e.beats + p.beat) (p.bar * e.beats + p.beat + 1)

/-- One step to the next tick, `Position::advance`, in machine arithmetic:
`_frame += dist_to_next()` is one `double` addition. -/
def Position.advance64 (H : Host ℚ) (p : Position ℚ) : Position ℚ :=
  if p.init then { p with init := false }
  else
    let frame := rnd64 (p.frame + p.dist_to_next64 H)
    let e := p.tempomap.get p.entry
    if p.beat + 1 ≥ e.beats then
      if p.bar + 1 ≥ e.bars ∧ e.bars ≠ -1 then
        if p.entry + 1 ≥ p.tempomap.size then
          { p with frame := frame, beat := 0, bar := 0, entry := p.entry + 1 - 1, end_ := true,
                   bar_total := p.bar_total + 1 }
        else
          { p with frame := frame, beat := 0, bar := 0, entry := p.entry + 1,
                   bar_total := p.bar_total + 1 }
      else
        { p with frame := frame, beat := 0, bar := p.bar + 1, bar_total := p.bar_total + 1 }
    else
      { p with frame := frame, beat := p.beat + 1 }

/-- The loop `while (_frame + dist_to_next() <= f && !_end) advance()` of
`locate` in machine arithmetic; `none` when the fuel runs out. -/
def locate_loop64 (H : Host ℚ) (f : ℚ) : ℕ → Position ℚ → Option (Position ℚ)
  | 0, _ => none
  | fuel + 1, p =>
    if rnd64 (p.frame + p.dist_to_next64 H) ≤ f ∧ p.end_ = false then
      locate_loop64 H f fuel (p.advance64 H)
    else some p

/-- The branch of `locate` for a constant tempo in machine arithmetic. -/
def locate_const64 (H : Host ℚ) (p : Position ℚ) (f : ℕ) : Position ℚ :=
  let e := p.tempomap.get p.entry
  let diff : ℚ := rnd64 ((f : ℚ) - p.start_frames.getD p.entry 0)
  let secs : ℚ := rnd64 (rnd64 (diff / (H.samplerate : ℚ)) * p.multiplier)
  let nbeats : Int := to_int32 (rnd64 (rnd64 (rnd64 (secs / 240) * e.tempo) * (e.denom : ℚ)))
  let bar := nbeats.tdiv e.beats
  let beat := nbeats.tmod e.beats
  { p with bar := bar, beat := beat,
           frame := rnd64 (p.start_frames.getD p.entry 0
                    + frame_dist64 H p.multiplier e 0 (bar * e.beats + beat)),
           bar_total := p.start_bars.getD p.entry 0 + bar }

/-- The branch of `locate` for a gradual tempo change in machine arithmetic. -/
def locate_ramp64 (H : Host ℚ) (fuel : ℕ) (p : Position ℚ) (f : ℕ) : Option (Position ℚ) :=
  let e := p.tempomap.get p.entry
  let v : ℚ := rnd64 ((f : ℚ) - p.start_frames.getD p.entry 0)
  match ramp_search (frame_dist64 H p.multiplier e 0) v fuel 0 (e.bars * e.beats) with
  | none => none
  | some nbeats =>
    let bar := nbeats.tdiv e.beats
    let beat := nbeats.tmod e.beats
    some { p with bar := bar, beat := beat,
                  frame := rnd64 (p.start_frames.getD p.entry 0
                           + frame_dist64 H p.multiplier e 0 (bar * e.beats + beat)),
                  bar_total := p.start_bars.getD p.entry 0 + bar }

/-- The branch of `locate` for a tempo per beat in machine arithmetic. -/
def locate_per_beat64 (H : Host ℚ) (fuel : ℕ) (p : Position ℚ) (f : ℕ) :
    Option (Position ℚ) :=
  locate_loop64 H (f : ℚ) fuel
    { p with bar := 0, beat := 0, frame := p.start_frames.getD p.entry 0,
             bar_total := p.start_bars.getD p.entry 0 }

/-- Moves the cursor to frame `f`, `Position::locate`, in machine arithmetic; `f`
is an `nframes_t`, below `2^32`. -/
def Position.locate64 (H : Host ℚ) (fuel : ℕ) (p0 : Position ℚ) (f : ℕ) :
    Option (Position ℚ) :=
  let p := p0.reset
  if f = 0 then some p
  else
    let p := { p with entry := upper_bound p.start_frames (f : ℚ) - 1 }
    if p.entry = p.tempomap.size then some { p with end_ := true }
    else
      let e := p.tempomap.get p.entry
      let r : Option (Position ℚ) :=
        if e.tempo ≠ 0 ∧ e.tempo2 = 0 then some (locate_const64 H p f)
        else if e.tempo ≠ 0 ∧ e.tempo2 ≠ 0 then locate_ramp64 H fuel p f
        else if e.tempo = 0 then locate_per_beat64 H fuel p f
        else some p
      match r with
      | none => none
      | some q => some { q with init := decide (q.frame = (f : ℚ)) }

/-- The frame after `k` more beats of the same length `d`, from the frame `x`:
`_frame += d` repeated, each a `double` addition. -/
def acc64 (d x : ℚ) : ℕ → ℚ
  | 0 => x
  | k + 1 => rnd64 (acc64 d x k + d)

/-- The members of the cursor that do not hold frames: all but the frame and the
table of start frames. `advance` computes them without floating arithmetic. -/
def Position.discrete (p : Position ℚ) : Position ℚ :=
  { p with frame := 0, start_frames := [] }

end Klick

/-! ## Theorems -/

set_option linter.unusedSectionVars false

namespace Klick
section FrameDist
variable {K : Type} [LinearOrderedField K] [FloorRing K]

theorem foldl_beat_secs (denom : Int) (l : List K) (a0 : K) :
    l.foldl (fun a t => a + 240 / (t * (denom : K))) a0 = a0 + beat_secs denom l := by
  induction l generalizing a0 with
  | nil => simp [beat_secs]
  | cons t ts ih =>
    simp only [List.foldl_cons, ih, beat_secs, List.map_cons, List.sum_cons]
    ring

theorem beat_secs_append (denom : Int) (l1 l2 : List K) :
    beat_secs denom (l1 ++ l2) = beat_secs denom l1 + beat_secs denom l2 := by
  simp [beat_secs]

theorem beat_secs_take_drop (denom : Int) (l : List K) (a n : ℕ) :
    beat_secs denom ((l.drop a).take n)
      = beat_secs denom (l.take (a + n)) - beat_secs denom (l.take a) := by
  have h : l.take (a + n) = l.take a ++ (l.drop a).take n := by
    rw [List.take_add]
  rw [h, beat_secs_append]
  ring

theorem frame_dist_eq_cum (H : Host K) (M : K) (e : Entry K) (a b : Int)
    (ha : 0 ≤ a) (hab : a ≤ b) (hN : e.bars * e.beats ≠ 0) :
    frame_dist H M e a b = cum H M e b - cum H M e a := by
  unfold frame_dist cum
  by_cases hEq : a = b
  · subst hEq; simp
  rw [if_neg hEq]
  by_cases h1 : (e.tempo ≠ 0 ∧ e.tempo2 = 0) ∨ (e.tempo ≠ 0 ∧ e.tempo = e.tempo2)
  · simp only [if_pos h1]
    push_cast
    ring
  simp only [if_neg h1]
  by_cases h2 : e.tempo ≠ 0 ∧ e.tempo2 ≠ 0
  · simp only [if_pos h2]
    have hne : e.tempo ≠ e.tempo2 := fun h => h1 (Or.inr ⟨h2.1, h⟩)
    have htd : e.tempo2 - e.tempo ≠ 0 := sub_ne_zero.mpr (Ne.symm hne)
    have hNK : ((e.bars * e.beats : Int) : K) ≠ 0 := by exact_mod_cast hN
    have habK : (a : K) - (b : K) ≠ 0 := by
      intro h
      apply hEq
      have : (a : K) = (b : K) := sub_eq_zero.mp h
      exact_mod_cast this
    set N : K := ((e.bars * e.beats : Int) : K) with hNdef
    set la := H.log (e.tempo + (e.tempo2 - e.tempo) * ((a : K) / N))
    set lb := H.log (e.tempo + (e.tempo2 - e.tempo) * ((b : K) / N))
    have ht : e.tempo + (e.tempo2 - e.tempo) * ((a : K) / N)
        - (e.tempo + (e.tempo2 - e.tempo) * ((b : K) / N))
        = (e.tempo2 - e.tempo) * ((a : K) - (b : K)) / N := by
      field_simp
      ring
    rw [ht]
    by_cases hl : la - lb = 0
    · have : lb = la := (sub_eq_zero.mp hl).symm
      simp [hl, this]
    · by_cases hD : (e.denom : K) = 0
      · simp [hD]
      · by_cases hM : M = 0
        · simp [hM]
        · push_cast
          field_simp
          ring
  · simp only [if_neg h2]
    have h0 : e.tempo = 0 := by
      by_contra h
      by_cases h' : e.tempo2 = 0
      · exact h1 (Or.inl ⟨h, h'⟩)
      · exact h2 ⟨h, h'⟩
    simp only [if_pos h0]
    rw [foldl_beat_secs, beat_secs_take_drop]
    have e1 : a.toNat + (b - a).toNat = b.toNat := by omega
    rw [e1]
    ring

/-- The beats of a valid entry are not zero in number. -/
theorem Entry.valid.beats_ne (e : Entry K) (he : e.valid) : e.bars * e.beats ≠ 0 := by
  obtain ⟨hb, _, hbars, _⟩ := he
  have h1 : e.beats ≠ 0 := by omega
  have h2 : e.bars ≠ 0 := by omega
  exact mul_ne_zero h2 h1

theorem beat_secs_pos_of_take (denom : Int) (hd : 1 ≤ denom) (l : List K)
    (hl : ∀ t ∈ l, 0 < t) (a b : ℕ) (hab : a < b) (hb : b ≤ l.length) :
    beat_secs denom (l.take a) < beat_secs denom (l.take b) := by
  have hdK : (0 : K) < (denom : K) := by exact_mod_cast (by omega : (0 : Int) < denom)
  have h : l.take b = l.take a ++ (l.drop a).take (b - a) := by
    have : b = a + (b - a) := by omega
    conv_lhs => rw [this]
    rw [List.take_add]
  rw [h, beat_secs_append]
  have hpos : 0 < beat_secs denom ((l.drop a).take (b - a)) := by
    unfold beat_secs
    apply List.sum_pos
    · intro x hx
      simp only [List.mem_map] at hx
      obtain ⟨t, ht, rfl⟩ := hx
      have htl : t ∈ l := List.mem_of_mem_drop (List.mem_of_mem_take ht)
      have := hl t htl
      positivity
    · intro hnil
      have hlen : ((l.drop a).take (b - a)).length = b - a := by
        simp [List.length_take, List.length_drop]
        omega
      simp at hnil
      omega
  linarith

/-- The tempo of a ramp at a beat of the entry is positive. -/
theorem ramp_tempo_pos (e : Entry K) (hr : e.is_ramp) (N : Int) (hN : 0 < N) (x : Int)
    (hx0 : 0 ≤ x) (hxN : x ≤ N) :
    0 < e.tempo + (e.tempo2 - e.tempo) * ((x : K) / (N : K)) := by
  obtain ⟨h1, h2, _, _⟩ := hr
  have hNK : (0 : K) < (N : K) := by exact_mod_cast hN
  have hx0K : (0 : K) ≤ (x : K) := by exact_mod_cast hx0
  have hxNK : (x : K) ≤ (N : K) := by exact_mod_cast hxN
  have hq0 : 0 ≤ (x : K) / (N : K) := div_nonneg hx0K hNK.le
  have hq1 : (x : K) / (N : K) ≤ 1 := (div_le_one hNK).mpr hxNK
  have : e.tempo + (e.tempo2 - e.tempo) * ((x : K) / (N : K))
      = e.tempo * (1 - (x : K) / (N : K)) + e.tempo2 * ((x : K) / (N : K)) := by ring
  rw [this]
  by_cases hq : (x : K) / (N : K) = 1
  · rw [hq]; simpa using h2
  · have : 0 < 1 - (x : K) / (N : K) := by
      have := lt_of_le_of_ne hq1 hq
      linarith
    have h3 : 0 < e.tempo * (1 - (x : K) / (N : K)) := mul_pos h1 this
    have h4 : 0 ≤ e.tempo2 * ((x : K) / (N : K)) := mul_nonneg h2.le hq0
    linarith

/-- The running distance of a valid entry increases strictly with the beat index. -/
theorem cum_strict (H : Host K) (M : K) (e : Entry K) (he : e.valid) (hM : 0 < M)
    (hS : 0 < H.samplerate) (hlog : StrictMonoOn H.log (Set.Ioi 0)) (a b : Int)
    (ha : 0 ≤ a) (hab : a < b) (hb : e.bars = -1 ∨ b ≤ e.bars * e.beats) :
    cum H M e a < cum H M e b := by
  obtain ⟨hbeats, hdenom, hbars, hkind, _⟩ := he
  have hdK : (0 : K) < (e.denom : K) := by exact_mod_cast (by omega : (0 : Int) < e.denom)
  have hSK : (0 : K) < (H.samplerate : K) := by exact_mod_cast hS
  have habK : (a : K) < (b : K) := by exact_mod_cast hab
  have key : ∀ u v : K, u < v → u * (H.samplerate : K) / M < v * (H.samplerate : K) / M := by
    intro u v huv
    apply div_lt_div_of_pos_right _ hM
    exact mul_lt_mul_of_pos_right huv hSK
  unfold cum
  apply key
  rcases hkind with hc | hr | hp
  · obtain ⟨ht, ht2⟩ := hc
    have h1 : (e.tempo ≠ 0 ∧ e.tempo2 = 0) ∨ (e.tempo ≠ 0 ∧ e.tempo = e.tempo2) := by
      rcases ht2 with h | h
      · exact Or.inl ⟨ht.ne', h⟩
      · exact Or.inr ⟨ht.ne', h.symm⟩
    simp only [if_pos h1]
    apply div_lt_div_of_pos_right _ (mul_pos ht hdK)
    linarith
  · have hr' := hr
    obtain ⟨ht, ht2, hne, hfin⟩ := hr
    have h1 : ¬((e.tempo ≠ 0 ∧ e.tempo2 = 0) ∨ (e.tempo ≠ 0 ∧ e.tempo = e.tempo2)) := by
      rintro (h | h)
      · exact ht2.ne' h.2
      · exact hne h.2
    have h2 : e.tempo ≠ 0 ∧ e.tempo2 ≠ 0 := ⟨ht.ne', ht2.ne'⟩
    simp only [if_neg h1, if_pos h2]
    have hbN : b ≤ e.bars * e.beats := by
      rcases hb with h | h
      · exact absurd h hfin
      · exact h
    have hNpos : 0 < e.bars * e.beats := by omega
    have hNK : (0 : K) < ((e.bars * e.beats : Int) : K) := by exact_mod_cast hNpos
    have hta := ramp_tempo_pos e hr' (e.bars * e.beats) hNpos a ha (by omega)
    have htb := ramp_tempo_pos e hr' (e.bars * e.beats) hNpos b (by omega) hbN
    set N : K := ((e.bars * e.beats : Int) : K)
    have hq : (a : K) / N < (b : K) / N := div_lt_div_of_pos_right habK hNK
    rcases lt_or_gt_of_ne hne with hlt | hgt
    · have htd : 0 < e.tempo2 - e.tempo := by linarith
      have hmono : e.tempo + (e.tempo2 - e.tempo) * ((a : K) / N)
          < e.tempo + (e.tempo2 - e.tempo) * ((b : K) / N) := by
        have := mul_lt_mul_of_pos_left hq htd
        linarith
      have hl := hlog hta htb hmono
      apply div_lt_div_of_pos_right _ (mul_pos htd hdK)
      have : (0 : K) < 240 * N := by positivity
      exact mul_lt_mul_of_pos_left hl this
    · have htd : e.tempo2 - e.tempo < 0 := by linarith
      have hmono : e.tempo + (e.tempo2 - e.tempo) * ((b : K) / N)
          < e.tempo + (e.tempo2 - e.tempo) * ((a : K) / N) := by
        have := mul_lt_mul_of_neg_left hq htd
        linarith
      have hl := hlog htb hta hmono
      have hden : (e.tempo2 - e.tempo) * (e.denom : K) < 0 := mul_neg_of_neg_of_pos htd hdK
      apply div_lt_div_of_neg_of_lt hden
      have : (0 : K) < 240 * N := by positivity
      exact mul_lt_mul_of_pos_left hl this
  · obtain ⟨ht, hfin, hlen, hall⟩ := hp
    have h1 : ¬((e.tempo ≠ 0 ∧ e.tempo2 = 0) ∨ (e.tempo ≠ 0 ∧ e.tempo = e.tempo2)) := by
      rintro (h | h)
      · exact h.1 ht
      · exact h.1 ht
    have h2 : ¬(e.tempo ≠ 0 ∧ e.tempo2 ≠ 0) := fun h => h.1 ht
    simp only [if_neg h1, if_neg h2]
    have hbN : b ≤ e.bars * e.beats := by
      rcases hb with h | h
      · exact absurd h hfin
      · exact h
    apply beat_secs_pos_of_take e.denom hdenom e.tempi hall
    · omega
    · omega

/-- The distance between two different beats of a valid entry is positive. -/
theorem frame_dist_pos (H : Host K) (M : K) (e : Entry K) (he : e.valid) (hM : 0 < M)
    (hS : 0 < H.samplerate) (hlog : StrictMonoOn H.log (Set.Ioi 0)) (a b : Int)
    (ha : 0 ≤ a) (hab : a < b) (hb : e.bars = -1 ∨ b ≤ e.bars * e.beats) :
    0 < frame_dist H M e a b := by
  rw [frame_dist_eq_cum H M e a b ha hab.le (Entry.valid.beats_ne e he)]
  have := cum_strict H M e he hM hS hlog a b ha hab hb
  linarith

end FrameDist
end Klick

namespace Klick
section Advance
variable {K : Type} [LinearOrderedField K] [FloorRing K]

theorem TempoMap.get_mem (m : TempoMap K) (i : ℕ) (hi : i < m.size) : m.get i ∈ m.entries := by
  unfold TempoMap.get TempoMap.size at *
  rw [List.getD_eq_getElem _ _ hi]
  exact List.getElem_mem hi

theorem TempoMap.valid.get (m : TempoMap K) (hm : m.valid) (i : ℕ) (hi : i < m.size) :
    (m.get i).valid := hm.2.1 _ (TempoMap.get_mem m i hi)

theorem advance_of_init (H : Host K) (p : Position K) (hi : p.init = true) :
    p.advance H = { p with init := false } := by
  simp [Position.advance, hi]

theorem advance_beat (H : Host K) (p : Position K) (hi : p.init = false)
    (h1 : ¬ (p.beat + 1 ≥ (p.tempomap.get p.entry).beats)) :
    p.advance H = { p with frame := p.frame + p.dist_to_next H, beat := p.beat + 1 } := by
  simp only [Position.advance, hi, h1]
  simp

theorem advance_bar (H : Host K) (p : Position K) (hi : p.init = false)
    (h1 : p.beat + 1 ≥ (p.tempomap.get p.entry).beats)
    (h2 : ¬ (p.bar + 1 ≥ (p.tempomap.get p.entry).bars ∧ (p.tempomap.get p.entry).bars ≠ -1)) :
    p.advance H = { p with frame := p.frame + p.dist_to_next H, beat := 0, bar := p.bar + 1,
                           bar_total := p.bar_total + 1 } := by
  simp only [Position.advance, hi, h1, h2]
  simp

theorem advance_entry (H : Host K) (p : Position K) (hi : p.init = false)
    (h1 : p.beat + 1 ≥ (p.tempomap.get p.entry).beats)
    (h2 : p.bar + 1 ≥ (p.tempomap.get p.entry).bars ∧ (p.tempomap.get p.entry).bars ≠ -1)
    (h3 : ¬ (p.entry + 1 ≥ p.tempomap.size)) :
    p.advance H = { p with frame := p.frame + p.dist_to_next H, beat := 0, bar := 0,
                           entry := p.entry + 1, bar_total := p.bar_total + 1 } := by
  have h2a := h2.1
  have h2b := h2.2
  simp only [Position.advance, hi, h1, h3]
  simp [h2a, h2b]

theorem advance_end (H : Host K) (p : Position K) (hi : p.init = false)
    (h1 : p.beat + 1 ≥ (p.tempomap.get p.entry).beats)
    (h2 : p.bar + 1 ≥ (p.tempomap.get p.entry).bars ∧ (p.tempomap.get p.entry).bars ≠ -1)
    (h3 : p.entry + 1 ≥ p.tempomap.size) :
    p.advance H = { p with frame := p.frame + p.dist_to_next H, beat := 0, bar := 0,
                           entry := p.entry, end_ := true, bar_total := p.bar_total + 1 } := by
  have h2a := h2.1
  have h2b := h2.2
  simp only [Position.advance, hi, h1, h3]
  simp [h2a, h2b]

theorem advance_init (H : Host K) (p : Position K) : (p.advance H).init = false := by
  simp only [Position.advance]
  split_ifs <;> simp_all

theorem advance_tempomap (H : Host K) (p : Position K) :
    (p.advance H).tempomap = p.tempomap := by
  simp only [Position.advance]
  split_ifs <;> rfl

theorem advance_multiplier (H : Host K) (p : Position K) :
    (p.advance H).multiplier = p.multiplier := by
  simp only [Position.advance]
  split_ifs <;> rfl

theorem advance_start_frames (H : Host K) (p : Position K) :
    (p.advance H).start_frames = p.start_frames := by
  simp only [Position.advance]
  split_ifs <;> rfl

theorem advance_frame (H : Host K) (p : Position K) (hi : p.init = false) :
    (p.advance H).frame = p.frame + p.dist_to_next H := by
  simp only [Position.advance, hi]
  split_ifs <;> simp_all

/-- The index invariant is kept by `advance`. -/
theorem advance_in_range (H : Host K) (p : Position K) (hm : p.tempomap.valid)
    (hp : p.in_range) : (p.advance H).in_range := by
  obtain ⟨hent, hb0, hb1, hbar0, hbar1⟩ := hp
  have hv := TempoMap.valid.get p.tempomap hm p.entry hent
  obtain ⟨hbeats, _, hbars, _⟩ := hv
  by_cases hi : p.init = true
  · rw [advance_of_init H p hi]
    exact ⟨hent, hb0, hb1, hbar0, hbar1⟩
  have hi : p.init = false := by simpa using hi
  by_cases h1 : p.beat + 1 ≥ (p.tempomap.get p.entry).beats
  · by_cases h2 : p.bar + 1 ≥ (p.tempomap.get p.entry).bars ∧ (p.tempomap.get p.entry).bars ≠ -1
    · by_cases h3 : p.entry + 1 ≥ p.tempomap.size
      · rw [advance_end H p hi h1 h2 h3]
        refine ⟨hent, le_refl _, ?_, le_refl _, ?_⟩
        · show (0 : Int) < (p.tempomap.get p.entry).beats
          omega
        · show (p.tempomap.get p.entry).bars = -1 ∨ (0 : Int) < (p.tempomap.get p.entry).bars
          omega
      · rw [advance_entry H p hi h1 h2 h3]
        have hent' : p.entry + 1 < p.tempomap.size := by omega
        have hv' := TempoMap.valid.get p.tempomap hm (p.entry + 1) hent'
        obtain ⟨hbeats', _, hbars', _⟩ := hv'
        refine ⟨hent', le_refl _, ?_, le_refl _, ?_⟩
        · show (0 : Int) < (p.tempomap.get (p.entry + 1)).beats
          omega
        · show (p.tempomap.get (p.entry + 1)).bars = -1
            ∨ (0 : Int) < (p.tempomap.get (p.entry + 1)).bars
          omega
    · rw [advance_bar H p hi h1 h2]
      refine ⟨hent, le_refl _, ?_, ?_, ?_⟩
      · show (0 : Int) < (p.tempomap.get p.entry).beats
        omega
      · show (0 : Int) ≤ p.bar + 1
        omega
      · show (p.tempomap.get p.entry).bars = -1 ∨ p.bar + 1 < (p.tempomap.get p.entry).bars
        by_cases h4 : (p.tempomap.get p.entry).bars = -1
        · left; exact h4
        · right
          have : ¬ (p.bar + 1 ≥ (p.tempomap.get p.entry).bars) := fun h => h2 ⟨h, h4⟩
          omega
  · rw [advance_beat H p hi h1]
    refine ⟨hent, ?_, ?_, hbar0, hbar1⟩
    · show (0 : Int) ≤ p.beat + 1
      omega
    · show p.beat + 1 < (p.tempomap.get p.entry).beats
      omega

/-- The beat index of a cursor in range is a beat of its entry. -/
theorem beat_index_range (p : Position K) (hp : p.in_range) :
    0 ≤ p.beat_index ∧
    ((p.tempomap.get p.entry).bars = -1 ∨
      p.beat_index + 1 ≤ (p.tempomap.get p.entry).bars * (p.tempomap.get p.entry).beats) := by
  obtain ⟨hent, hb0, hb1, hbar0, hbar1⟩ := hp
  unfold Position.beat_index
  constructor
  · have : 0 ≤ p.bar * (p.tempomap.get p.entry).beats := mul_nonneg hbar0 (by omega)
    omega
  · rcases hbar1 with h | h
    · left; exact h
    · right
      have h1 : (p.bar + 1) * (p.tempomap.get p.entry).beats
          ≤ (p.tempomap.get p.entry).bars * (p.tempomap.get p.entry).beats :=
        mul_le_mul_of_nonneg_right (by omega) (by omega)
      have h2 : (p.bar + 1) * (p.tempomap.get p.entry).beats
          = p.bar * (p.tempomap.get p.entry).beats + (p.tempomap.get p.entry).beats := by ring
      omega

/-- Off the initial and the final state the distance to the next tick is the
distance of one beat of the current entry. -/
theorem dist_to_next_eq (H : Host K) (p : Position K) (hi : p.init = false)
    (he : p.end_ = false) :
    p.dist_to_next H
      = frame_dist H p.multiplier (p.tempomap.get p.entry) p.beat_index (p.beat_index + 1) := by
  unfold Position.dist_to_next Position.beat_index
  simp [hi, he]

theorem iterate_advance_tempomap (H : Host K) (p : Position K) (k : ℕ) :
    ((Position.advance H)^[k] p).tempomap = p.tempomap := by
  induction k with
  | zero => rfl
  | succ n ih => rw [Function.iterate_succ_apply', advance_tempomap, ih]

theorem iterate_advance_multiplier (H : Host K) (p : Position K) (k : ℕ) :
    ((Position.advance H)^[k] p).multiplier = p.multiplier := by
  induction k with
  | zero => rfl
  | succ n ih => rw [Function.iterate_succ_apply', advance_multiplier, ih]

/-- The cursor that the constructor leaves is in range on a valid map. -/
theorem new_in_range (H : Host K) (m : TempoMap K) (M : K) (hm : m.valid) :
    (Position.new H m M).in_range := by
  have hsize : 0 < m.size := by
    unfold TempoMap.size
    exact List.length_pos.mpr hm.1
  have hv := TempoMap.valid.get m hm 0 hsize
  obtain ⟨hbeats, _, hbars, _⟩ := hv
  refine ⟨hsize, le_refl _, ?_, le_refl _, ?_⟩
  · show (0 : Int) < (m.get 0).beats
    omega
  · show (m.get 0).bars = -1 ∨ (0 : Int) < (m.get 0).bars
    omega

theorem to_nframes_le_floor (x : K) : to_nframes x ≤ ⌊x⌋₊ := Nat.mod_le _ _

theorem tick_frame (p : Position K) : p.tick.frame = to_nframes p.frame := by
  unfold Position.tick
  split_ifs <;> rfl

end Advance
end Klick

namespace Klick
section Tables
variable {K : Type} [LinearOrderedField K] [FloorRing K]

theorem start_frames_loop_length (H : Host K) (M : K) (es : List (Entry K)) (f : K) :
    (start_frames_loop H M es f).length = es.length + 1 := by
  induction es generalizing f with
  | nil => rfl
  | cons e es ih => simp [start_frames_loop, ih]

theorem start_bars_loop_length (es : List (Entry K)) (b : Int) :
    (start_bars_loop es b).length = es.length + 1 := by
  induction es generalizing b with
  | nil => rfl
  | cons e es ih => simp [start_bars_loop, ih]

theorem start_frames_loop_zero (H : Host K) (M : K) (es : List (Entry K)) (f : K) :
    (start_frames_loop H M es f).getD 0 0 = f := by
  cases es <;> simp [start_frames_loop]

theorem start_bars_loop_zero (es : List (Entry K)) (b : Int) :
    (start_bars_loop es b).getD 0 0 = b := by
  cases es <;> simp [start_bars_loop]

theorem start_frames_loop_succ (H : Host K) (M : K) (es : List (Entry K)) (f : K) (i : ℕ)
    (hi : i < es.length) :
    (start_frames_loop H M es f).getD (i + 1) 0 =
      if (es.getD i Entry.zero).bars ≠ -1 then
        (start_frames_loop H M es f).getD i 0
          + frame_dist H M (es.getD i Entry.zero) 0
              ((es.getD i Entry.zero).bars * (es.getD i Entry.zero).beats)
      else float_frames_max := by
  induction es generalizing f i with
  | nil => simp at hi
  | cons e es ih =>
    cases i with
    | zero =>
      simp only [start_frames_loop, List.getD_cons_succ, List.getD_cons_zero,
        start_frames_loop_zero]
    | succ j =>
      have hj : j < es.length := by simpa using hi
      simp only [start_frames_loop, List.getD_cons_succ]
      exact ih _ j hj

theorem start_bars_loop_succ (es : List (Entry K)) (b : Int) (i : ℕ) (hi : i < es.length) :
    (start_bars_loop es b).getD (i + 1) 0 =
      if (es.getD i Entry.zero).bars ≠ -1 then
        (start_bars_loop es b).getD i 0 + (es.getD i Entry.zero).bars
      else int_max := by
  induction es generalizing b i with
  | nil => simp at hi
  | cons e es ih =>
    cases i with
    | zero =>
      simp only [start_bars_loop, List.getD_cons_succ, List.getD_cons_zero,
        start_bars_loop_zero]
    | succ j =>
      have hj : j < es.length := by simpa using hi
      simp only [start_bars_loop, List.getD_cons_succ]
      exact ih _ j hj

/-- What `upper_bound(...) - 1` finds when `f` lies between the first and the
last value of the table. -/
theorem upper_bound_spec (xs : List K) (f : K) (hne : xs ≠ []) (h0 : xs.getD 0 0 ≤ f)
    (hlast : f < xs.getD (xs.length - 1) 0) :
    1 ≤ upper_bound xs f ∧ upper_bound xs f < xs.length ∧
      xs.getD (upper_bound xs f - 1) 0 ≤ f ∧ f < xs.getD (upper_bound xs f) 0 := by
  have hlen : 0 < xs.length := List.length_pos.mpr hne
  have hlt : upper_bound xs f < xs.length := by
    unfold upper_bound
    apply List.findIdx_lt_length_of_exists
    refine ⟨xs.getD (xs.length - 1) 0, ?_, by simpa using hlast⟩
    rw [List.getD_eq_getElem _ _ (by omega)]
    exact List.getElem_mem _
  have hat : f < xs.getD (upper_bound xs f) 0 := by
    rw [List.getD_eq_getElem _ _ hlt]
    have := @List.findIdx_getElem _ (fun x => decide (f < x)) xs hlt
    simpa [upper_bound] using this
  have h1 : 1 ≤ upper_bound xs f := by
    by_contra h
    have hz : upper_bound xs f = 0 := by omega
    rw [hz] at hat
    exact absurd hat (not_lt.mpr h0)
  refine ⟨h1, hlt, ?_, hat⟩
  have hlt' : upper_bound xs f - 1 < List.findIdx (fun x => decide (f < x)) xs := by
    unfold upper_bound at h1 ⊢
    omega
  have := List.not_of_lt_findIdx hlt'
  rw [List.getD_eq_getElem _ _ (by omega)]
  simpa using this

/-- The binary search of `locate` ends with a beat `m` between the bounds
whose distance is at most `v` and whose successor is not before `v`. -/
theorem ramp_search_spec (d : Int → K) (v : K) (N : Int) (hN : v < d N) :
    ∀ (fuel : ℕ) (low high : Int), 0 ≤ low → low ≤ high → high ≤ N → d low ≤ v →
      (v < d (high + 1) ∨ high = N) → (high - low + 1).toNat ≤ fuel →
      ∃ m, ramp_search d v fuel low high = some m ∧ low ≤ m ∧ m ≤ high ∧ d m ≤ v ∧
        ¬ (d (m + 1) < v) := by
  intro fuel
  induction fuel with
  | zero =>
    intro low high _ h2 _ _ _ h6
    omega
  | succ n ih =>
    intro low high h1 h2 h3 h4 h5 h6
    have hmid : (low + high).tdiv 2 = (low + high) / 2 :=
      Int.tdiv_eq_ediv (by omega) (by omega)
    simp only [ramp_search, if_pos h2, hmid]
    by_cases hgt : d ((low + high) / 2) > v
    · simp only [if_pos hgt]
      have hne : (low + high) / 2 ≠ low := by
        intro h
        rw [h] at hgt
        exact absurd hgt (not_lt.mpr h4)
      obtain ⟨m, hm, hm1, hm2, hm3, hm4⟩ :=
        ih low ((low + high) / 2 - 1) h1 (by omega) (by omega) h4
          (Or.inl (by simpa using hgt)) (by omega)
      exact ⟨m, hm, hm1, by omega, hm3, hm4⟩
    · have hle : d ((low + high) / 2) ≤ v := not_lt.mp hgt
      simp only [if_neg hgt, if_pos hle]
      by_cases hdd : d ((low + high) / 2 + 1) < v
      · simp only [if_pos hdd]
        have hne : (low + high) / 2 ≠ high := by
          intro h
          rw [h] at hdd hle
          rcases h5 with h5 | h5
          · exact absurd hdd (not_lt.mpr h5.le)
          · rw [h5] at hle
            exact absurd hN (not_lt.mpr hle)
        obtain ⟨m, hm, hm1, hm2, hm3, hm4⟩ :=
          ih ((low + high) / 2 + 1) high (by omega) (by omega) h3 hdd.le h5 (by omega)
        exact ⟨m, hm, by omega, hm2, hm3, hm4⟩
      · simp only [if_neg hdd]
        exact ⟨_, rfl, by omega, by omega, hle, hdd⟩

end Tables
end Klick

namespace Klick
section Locate
variable {K : Type} [LinearOrderedField K] [FloorRing K]

/-- The distances of one entry add up. -/
theorem frame_dist_add (H : Host K) (M : K) (e : Entry K) (hN : e.bars * e.beats ≠ 0)
    (a b c : Int) (ha : 0 ≤ a) (hab : a ≤ b) (hbc : b ≤ c) :
    frame_dist H M e a b + frame_dist H M e b c = frame_dist H M e a c := by
  rw [frame_dist_eq_cum H M e a b ha hab hN, frame_dist_eq_cum H M e b c (by omega) hbc hN,
    frame_dist_eq_cum H M e a c ha (by omega) hN]
  ring

theorem frame_dist_self (H : Host K) (M : K) (e : Entry K) (a : Int) :
    frame_dist H M e a a = 0 := by
  simp [frame_dist]

/-- The distance of a constant tempo is the number of beats times the length of a beat. -/
theorem frame_dist_const (H : Host K) (M : K) (e : Entry K) (hT : e.tempo ≠ 0)
    (hT2 : e.tempo2 = 0 ∨ e.tempo = e.tempo2) (a b : Int) :
    frame_dist H M e a b
      = ((b : K) - (a : K)) * (240 / (e.tempo * (e.denom : K)) * (H.samplerate : K) / M) := by
  have h1 : (e.tempo ≠ 0 ∧ e.tempo2 = 0) ∨ (e.tempo ≠ 0 ∧ e.tempo = e.tempo2) := by
    rcases hT2 with h | h
    · exact Or.inl ⟨hT, h⟩
    · exact Or.inr ⟨hT, h⟩
  unfold frame_dist
  by_cases hab : a = b
  · subst hab; simp
  · simp only [if_neg hab, if_pos h1]
    push_cast
    ring

/-- A step of `advance` that stays inside the entry moves to the next beat index. -/
theorem advance_within (H : Host K) (p : Position K) (hi : p.init = false) (hp : p.in_range)
    (hb : (p.tempomap.get p.entry).bars = -1
      ∨ p.beat_index + 1 < (p.tempomap.get p.entry).bars * (p.tempomap.get p.entry).beats) :
    (p.advance H).entry = p.entry ∧ (p.advance H).end_ = p.end_ ∧
      (p.advance H).beat_index = p.beat_index + 1 ∧ (p.advance H).in_range ∧
      (p.advance H).start_bars = p.start_bars := by
  obtain ⟨hent, hb0, hb1, hbar0, hbar1⟩ := hp
  unfold Position.beat_index at hb ⊢
  by_cases h1 : p.beat + 1 ≥ (p.tempomap.get p.entry).beats
  · have h2 : ¬ (p.bar + 1 ≥ (p.tempomap.get p.entry).bars
        ∧ (p.tempomap.get p.entry).bars ≠ -1) := by
      rintro ⟨h2a, h2b⟩
      rcases hb with hb | hb
      · exact h2b hb
      · have h3 : (p.tempomap.get p.entry).bars * (p.tempomap.get p.entry).beats
            ≤ (p.bar + 1) * (p.tempomap.get p.entry).beats :=
          mul_le_mul_of_nonneg_right h2a (by omega)
        have h4 : (p.bar + 1) * (p.tempomap.get p.entry).beats
            = p.bar * (p.tempomap.get p.entry).beats + (p.tempomap.get p.entry).beats := by ring
        omega
    rw [advance_bar H p hi h1 h2]
    refine ⟨rfl, rfl, ?_, ⟨hent, le_refl _, ?_, ?_, ?_⟩, rfl⟩
    · show (p.bar + 1) * (p.tempomap.get p.entry).beats + 0
        = p.bar * (p.tempomap.get p.entry).beats + p.beat + 1
      have h4 : (p.bar + 1) * (p.tempomap.get p.entry).beats
          = p.bar * (p.tempomap.get p.entry).beats + (p.tempomap.get p.entry).beats := by ring
      omega
    · show (0 : Int) < (p.tempomap.get p.entry).beats
      omega
    · show (0 : Int) ≤ p.bar + 1
      omega
    · show (p.tempomap.get p.entry).bars = -1 ∨ p.bar + 1 < (p.tempomap.get p.entry).bars
      by_cases h4 : (p.tempomap.get p.entry).bars = -1
      · left; exact h4
      · right
        have : ¬ (p.bar + 1 ≥ (p.tempomap.get p.entry).bars) := fun h => h2 ⟨h, h4⟩
        omega
  · rw [advance_beat H p hi h1]
    refine ⟨rfl, rfl, ?_, ⟨hent, ?_, ?_, hbar0, hbar1⟩, rfl⟩
    · show p.bar * (p.tempomap.get p.entry).beats + (p.beat + 1)
        = p.bar * (p.tempomap.get p.entry).beats + p.beat + 1
      omega
    · show (0 : Int) ≤ p.beat + 1
      omega
    · show p.beat + 1 < (p.tempomap.get p.entry).beats
      omega

/-- The loop of `locate` for a tempo per beat stops, with enough fuel, at the
last beat of the entry that is not after `f`. -/
theorem locate_loop_spec (H : Host K) (f : K) (B : K) :
    ∀ (fuel : ℕ) (p : Position K), p.init = false → p.end_ = false → p.in_range →
      (p.tempomap.get p.entry).bars ≠ -1 →
      (p.tempomap.get p.entry).bars * (p.tempomap.get p.entry).beats ≠ 0 →
      p.frame = B + frame_dist H p.multiplier (p.tempomap.get p.entry) 0 p.beat_index →
      p.frame ≤ f →
      f < B + frame_dist H p.multiplier (p.tempomap.get p.entry) 0
            ((p.tempomap.get p.entry).bars * (p.tempomap.get p.entry).beats) →
      ((p.tempomap.get p.entry).bars * (p.tempomap.get p.entry).beats - p.beat_index).toNat
        ≤ fuel →
      ∃ q, locate_loop H f fuel p = some q ∧ q.tempomap = p.tempomap ∧
        q.multiplier = p.multiplier ∧ q.start_frames = p.start_frames ∧
        q.start_bars = p.start_bars ∧ q.entry = p.entry ∧
        q.init = false ∧ q.end_ = false ∧ q.in_range ∧
        q.frame = B + frame_dist H q.multiplier (q.tempomap.get q.entry) 0 q.beat_index ∧
        q.frame ≤ f ∧
        f < q.frame + frame_dist H q.multiplier (q.tempomap.get q.entry) q.beat_index
              (q.beat_index + 1) := by
  intro fuel
  induction fuel with
  | zero =>
    intro p hi he hp hfin hN hfr hle hlt hfuel
    obtain ⟨h0, h1⟩ := beat_index_range p hp
    rcases h1 with h1 | h1
    · exact absurd h1 hfin
    · omega
  | succ n ih =>
    intro p hi he hp hfin hN hfr hle hlt hfuel
    obtain ⟨h0, h1⟩ := beat_index_range p hp
    have h1 : p.beat_index + 1
        ≤ (p.tempomap.get p.entry).bars * (p.tempomap.get p.entry).beats := by
      rcases h1 with h1 | h1
      · exact absurd h1 hfin
      · exact h1
    have hadd := frame_dist_add H p.multiplier (p.tempomap.get p.entry) hN 0 p.beat_index
      (p.beat_index + 1) (le_refl _) h0 (by omega)
    have hd := dist_to_next_eq H p hi he
    simp only [locate_loop]
    by_cases hc : p.frame + p.dist_to_next H ≤ f ∧ p.end_ = false
    · rw [if_pos hc]
      have hlt2 : p.beat_index + 1
          < (p.tempomap.get p.entry).bars * (p.tempomap.get p.entry).beats := by
        rcases lt_or_eq_of_le h1 with h | h
        · exact h
        · exfalso
          rw [h] at hadd
          have := hc.1
          rw [hd, h] at this
          linarith
      obtain ⟨a1, a2, a3, a4, a5⟩ := advance_within H p hi hp (Or.inr hlt2)
      have a6 := advance_tempomap H p
      have a7 := advance_multiplier H p
      have a8 := advance_frame H p hi
      have a9 := advance_init H p
      have a10 := advance_start_frames H p
      obtain ⟨q, hq, q1, q2, q3, q4, q5, q6⟩ := ih (p.advance H) a9 (by rw [a2]; exact he) a4
        (by rw [a6, a1]; exact hfin) (by rw [a6, a1]; exact hN)
        (by rw [a6, a1, a7, a3, a8, hd, hfr]; linarith)
        (by rw [a8]; exact hc.1)
        (by rw [a6, a1, a7]; exact hlt)
        (by rw [a6, a1, a3]; omega)
      refine ⟨q, hq, ?_, ?_, ?_, ?_, ?_, q6⟩
      · rw [q1, a6]
      · rw [q2, a7]
      · rw [q3, a10]
      · rw [q4, a5]
      · rw [q5, a1]
    · rw [if_neg hc]
      refine ⟨p, rfl, rfl, rfl, rfl, rfl, rfl, hi, he, hp, hfr, hle, ?_⟩
      rw [← hd]
      by_contra hcon
      exact hc ⟨not_lt.mp hcon, he⟩

/-- Quotient and remainder of a beat count by the beats of a bar. -/
theorem split_beats (n beats : Int) (hn : 0 ≤ n) (hb : 1 ≤ beats) :
    n.tdiv beats * beats + n.tmod beats = n ∧ 0 ≤ n.tmod beats ∧ n.tmod beats < beats ∧
      0 ≤ n.tdiv beats ∧ ∀ bars : Int, n < bars * beats → n.tdiv beats < bars := by
  rw [Int.tdiv_eq_ediv hn (by omega), Int.tmod_eq_emod hn (by omega)]
  have h1 := Int.ediv_add_emod n beats
  have h2 := Int.emod_nonneg n (by omega : beats ≠ 0)
  have h3 := Int.emod_lt_of_pos n (by omega : 0 < beats)
  have h4 : 0 ≤ n / beats := Int.ediv_nonneg hn (by omega)
  refine ⟨by rw [mul_comm]; exact h1, h2, h3, h4, ?_⟩
  intro bars hlt
  exact Int.ediv_lt_of_lt_mul (by omega) hlt

/-- The beat count that `locate` computes for a constant tempo. -/
theorem const_floor (H : Host K) (M : K) (e : Entry K) (hT : 0 < e.tempo) (hD : 1 ≤ e.denom)
    (hM : 0 < M) (hS : 0 < H.samplerate) (v : K) (hv : 0 ≤ v) :
    0 ≤ to_int (v / (H.samplerate : K) * M / 240 * e.tempo * (e.denom : K)) ∧
    ((to_int (v / (H.samplerate : K) * M / 240 * e.tempo * (e.denom : K)) : Int) : K)
        * (240 / (e.tempo * (e.denom : K)) * (H.samplerate : K) / M) ≤ v ∧
    v < (((to_int (v / (H.samplerate : K) * M / 240 * e.tempo * (e.denom : K)) : Int) : K) + 1)
        * (240 / (e.tempo * (e.denom : K)) * (H.samplerate : K) / M) := by
  have hdK : (0 : K) < (e.denom : K) := by exact_mod_cast (by omega : (0 : Int) < e.denom)
  have hSK : (0 : K) < (H.samplerate : K) := by exact_mod_cast hS
  set c : K := 240 / (e.tempo * (e.denom : K)) * (H.samplerate : K) / M with hc
  have hcpos : 0 < c := by positivity
  have hx : v / (H.samplerate : K) * M / 240 * e.tempo * (e.denom : K) = v / c := by
    rw [hc]
    field_simp
    ring
  rw [hx]
  have hx0 : 0 ≤ v / c := div_nonneg hv hcpos.le
  have hfl : to_int (v / c) = ⌊v / c⌋ := by simp [to_int, hx0]
  rw [hfl]
  refine ⟨Int.floor_nonneg.mpr hx0, ?_, ?_⟩
  · have := Int.floor_le (v / c)
    exact (le_div_iff₀ hcpos).mp this
  · have := Int.lt_floor_add_one (v / c)
    exact (div_lt_iff₀ hcpos).mp this

end Locate
end Klick

namespace Klick
section LocateSpec
variable {K : Type} [LinearOrderedField K] [FloorRing K]

theorem new_start_frames (H : Host K) (m : TempoMap K) (M : K) :
    (Position.new H m M).start_frames = start_frames_loop H M m.entries 0 := rfl

theorem new_start_bars (H : Host K) (m : TempoMap K) (M : K) :
    (Position.new H m M).start_bars = start_bars_loop m.entries 0 := rfl

/-- The entry that `locate` picks for a frame inside the map. -/
theorem locate_entry (H : Host K) (m : TempoMap K) (M : K) (f : ℕ)
    (hf : (f : K) < (start_frames_loop H M m.entries 0).getD m.size 0) :
    upper_bound (start_frames_loop H M m.entries 0) (f : K) - 1 < m.size ∧
    (start_frames_loop H M m.entries 0).getD
        (upper_bound (start_frames_loop H M m.entries 0) (f : K) - 1) 0 ≤ (f : K) ∧
    (f : K) < (start_frames_loop H M m.entries 0).getD
        (upper_bound (start_frames_loop H M m.entries 0) (f : K) - 1 + 1) 0 := by
  have hlen := start_frames_loop_length H M m.entries 0
  have hne : start_frames_loop H M m.entries 0 ≠ [] := by
    intro h
    rw [h] at hlen
    simp at hlen
  have h0 : (start_frames_loop H M m.entries 0).getD 0 0 ≤ (f : K) := by
    rw [start_frames_loop_zero]
    exact Nat.cast_nonneg f
  have hlast : (f : K) < (start_frames_loop H M m.entries 0).getD
      ((start_frames_loop H M m.entries 0).length - 1) 0 := by
    rw [hlen]
    simpa [TempoMap.size] using hf
  obtain ⟨h1, h2, h3, h4⟩ := upper_bound_spec _ _ hne h0 hlast
  have hsz : m.size = m.entries.length := rfl
  refine ⟨by omega, h3, ?_⟩
  have : upper_bound (start_frames_loop H M m.entries 0) (f : K) - 1 + 1
      = upper_bound (start_frames_loop H M m.entries 0) (f : K) := by omega
  rw [this]
  exact h4

/-- A valid entry with a tempo has a positive tempo. -/
theorem Entry.valid.tempo_pos (e : Entry K) (he : e.valid) (hT : e.tempo ≠ 0) : 0 < e.tempo := by
  obtain ⟨_, _, _, hkind, _⟩ := he
  rcases hkind with h | h | h
  · exact h.1
  · exact h.1
  · exact absurd h.1 hT

/-- The constant-tempo branch of `locate` puts the cursor on the beat looked for. -/
theorem locate_const_spec (H : Host K) (p : Position K) (f : ℕ)
    (hent : p.entry < p.tempomap.size) (hv : (p.tempomap.get p.entry).valid)
    (hend : p.end_ = false) (hM : 0 < p.multiplier) (hS : 0 < H.samplerate)
    (hT : (p.tempomap.get p.entry).tempo ≠ 0) (hT2 : (p.tempomap.get p.entry).tempo2 = 0)
    (hB : p.start_frames.getD p.entry 0 ≤ (f : K))
    (hlt : (p.tempomap.get p.entry).bars ≠ -1 →
      (f : K) < p.start_frames.getD p.entry 0
        + frame_dist H p.multiplier (p.tempomap.get p.entry) 0
            ((p.tempomap.get p.entry).bars * (p.tempomap.get p.entry).beats)) :
    (locate_const H p f).on_beat H f := by
  have hTpos := Entry.valid.tempo_pos _ hv hT
  obtain ⟨hbeats, hdenom, hbars, _, _⟩ := hv
  obtain ⟨hn0, hn1, hn2⟩ := const_floor H p.multiplier (p.tempomap.get p.entry) hTpos hdenom hM hS
    ((f : K) - p.start_frames.getD p.entry 0) (by linarith)
  set n : Int := to_int (((f : K) - p.start_frames.getD p.entry 0) / (H.samplerate : K)
    * p.multiplier / 240 * (p.tempomap.get p.entry).tempo
    * ((p.tempomap.get p.entry).denom : K)) with hn
  obtain ⟨s1, s2, s3, s4, s5⟩ := split_beats n (p.tempomap.get p.entry).beats hn0 hbeats
  have hfd := frame_dist_const H p.multiplier (p.tempomap.get p.entry) hT (Or.inl hT2)
  have hdK : (0 : K) < ((p.tempomap.get p.entry).denom : K) := by
    exact_mod_cast (by omega : (0 : Int) < (p.tempomap.get p.entry).denom)
  have hSK : (0 : K) < (H.samplerate : K) := by exact_mod_cast hS
  set c : K := 240 / ((p.tempomap.get p.entry).tempo * ((p.tempomap.get p.entry).denom : K))
    * (H.samplerate : K) / p.multiplier with hc
  have hcpos : 0 < c := by positivity
  have hidx : (locate_const H p f).beat_index = n := s1
  have hframe : (locate_const H p f).frame
      = p.start_frames.getD p.entry 0
        + frame_dist H p.multiplier (p.tempomap.get p.entry) 0 n := by
    show p.start_frames.getD p.entry 0
        + frame_dist H p.multiplier (p.tempomap.get p.entry) 0
            (n.tdiv (p.tempomap.get p.entry).beats * (p.tempomap.get p.entry).beats
              + n.tmod (p.tempomap.get p.entry).beats) = _
    rw [s1]
  have hstep : frame_dist H (locate_const H p f).multiplier
      ((locate_const H p f).tempomap.get (locate_const H p f).entry)
      (locate_const H p f).beat_index ((locate_const H p f).beat_index + 1) = c := by
    rw [hidx]
    show frame_dist H p.multiplier (p.tempomap.get p.entry) n (n + 1) = c
    rw [hfd]
    push_cast
    ring
  have hfr2 : (locate_const H p f).frame = p.start_frames.getD p.entry 0 + (n : K) * c := by
    rw [hframe, hfd]
    push_cast
    ring
  have hstrict : (f : K) < (locate_const H p f).frame + c := by
    rw [hfr2]
    linarith
  refine ⟨hend, ⟨hent, s2, s3, s4, ?_⟩, ?_, ?_, ?_, ?_⟩
  · show (p.tempomap.get p.entry).bars = -1
      ∨ n.tdiv (p.tempomap.get p.entry).beats < (p.tempomap.get p.entry).bars
    by_cases hinf : (p.tempomap.get p.entry).bars = -1
    · left; exact hinf
    · right
      apply s5
      have h1 := hlt hinf
      rw [hfd] at h1
      have h2 : (n : K) * c
          < (((p.tempomap.get p.entry).bars * (p.tempomap.get p.entry).beats : Int) : K) * c := by
        have : (((p.tempomap.get p.entry).bars * (p.tempomap.get p.entry).beats : Int) : K) - ((0 : Int) : K)
            = (((p.tempomap.get p.entry).bars * (p.tempomap.get p.entry).beats : Int) : K) := by
          push_cast; ring
        rw [this] at h1
        linarith
      have h3 := lt_of_mul_lt_mul_right h2 hcpos.le
      exact_mod_cast h3
  · rw [hidx]
    exact hframe
  · rw [hfr2]
    linarith
  · rw [hstep]
    exact hstrict.le
  · intro _
    rw [hstep]
    exact hstrict

/-- The gradual-tempo branch of `locate` puts, with enough fuel, the cursor on a
beat not after `f` whose successor is not before `f`. -/
theorem locate_ramp_spec (H : Host K) (p : Position K) (f : ℕ)
    (hent : p.entry < p.tempomap.size) (hv : (p.tempomap.get p.entry).valid)
    (hend : p.end_ = false)
    (hT : (p.tempomap.get p.entry).tempo ≠ 0) (hT2 : (p.tempomap.get p.entry).tempo2 ≠ 0)
    (hfin : (p.tempomap.get p.entry).bars ≠ -1)
    (hB : p.start_frames.getD p.entry 0 ≤ (f : K))
    (hlt : (f : K) < p.start_frames.getD p.entry 0
        + frame_dist H p.multiplier (p.tempomap.get p.entry) 0
            ((p.tempomap.get p.entry).bars * (p.tempomap.get p.entry).beats))
    (fuel : ℕ)
    (hfuel : ((p.tempomap.get p.entry).bars * (p.tempomap.get p.entry).beats).toNat + 1 ≤ fuel) :
    ∃ q, locate_ramp H fuel p f = some q ∧ q.tempomap = p.tempomap ∧
      q.multiplier = p.multiplier ∧ q.start_frames = p.start_frames ∧ q.init = p.init ∧
      q.on_beat H f := by
  have hN := Entry.valid.beats_ne _ hv
  obtain ⟨hbeats, hdenom, hbars, _, _⟩ := hv
  have hbars1 : 1 ≤ (p.tempomap.get p.entry).bars := by omega
  have hNpos : 0 < (p.tempomap.get p.entry).bars * (p.tempomap.get p.entry).beats :=
    mul_pos (by omega) (by omega)
  obtain ⟨n, hsome, hn0, hnN, hdn, hdn1⟩ :=
    ramp_search_spec (frame_dist H p.multiplier (p.tempomap.get p.entry) 0)
      ((f : K) - p.start_frames.getD p.entry 0)
      ((p.tempomap.get p.entry).bars * (p.tempomap.get p.entry).beats) (by linarith)
      fuel 0 ((p.tempomap.get p.entry).bars * (p.tempomap.get p.entry).beats)
      (le_refl _) hNpos.le (le_refl _) (by rw [frame_dist_self]; linarith) (Or.inr rfl)
      (by omega)
  have hnlt : n < (p.tempomap.get p.entry).bars * (p.tempomap.get p.entry).beats := by
    rcases lt_or_eq_of_le hnN with h | h
    · exact h
    · exfalso
      rw [h] at hdn
      linarith
  obtain ⟨s1, s2, s3, s4, s5⟩ := split_beats n (p.tempomap.get p.entry).beats hn0 hbeats
  have hadd := frame_dist_add H p.multiplier (p.tempomap.get p.entry) hN 0 n (n + 1)
    (le_refl _) hn0 (by omega)
  simp only [locate_ramp, hsome]
  refine ⟨_, rfl, rfl, rfl, rfl, rfl, ?_⟩
  refine ⟨hend, ⟨hent, s2, s3, s4, Or.inr (s5 _ hnlt)⟩, ?_, ?_, ?_, ?_⟩
  · rfl
  · show p.start_frames.getD p.entry 0
        + frame_dist H p.multiplier (p.tempomap.get p.entry) 0
            (n.tdiv (p.tempomap.get p.entry).beats * (p.tempomap.get p.entry).beats
              + n.tmod (p.tempomap.get p.entry).beats) ≤ (f : K)
    rw [s1]
    linarith
  · show (f : K) ≤ p.start_frames.getD p.entry 0
        + frame_dist H p.multiplier (p.tempomap.get p.entry) 0
            (n.tdiv (p.tempomap.get p.entry).beats * (p.tempomap.get p.entry).beats
              + n.tmod (p.tempomap.get p.entry).beats)
        + frame_dist H p.multiplier (p.tempomap.get p.entry)
            (n.tdiv (p.tempomap.get p.entry).beats * (p.tempomap.get p.entry).beats
              + n.tmod (p.tempomap.get p.entry).beats)
            (n.tdiv (p.tempomap.get p.entry).beats * (p.tempomap.get p.entry).beats
              + n.tmod (p.tempomap.get p.entry).beats + 1)
    rw [s1, add_assoc, hadd]
    have := not_lt.mp hdn1
    linarith
  · intro hcon
    exact absurd ⟨hT, hT2⟩ hcon

/-- The per-beat branch of `locate` puts, with enough fuel, the cursor on the
beat looked for. -/
theorem locate_per_beat_spec (H : Host K) (p : Position K) (f : ℕ)
    (hent : p.entry < p.tempomap.size) (hv : (p.tempomap.get p.entry).valid)
    (hend : p.end_ = false) (hinit : p.init = true)
    (hT : (p.tempomap.get p.entry).tempo = 0)
    (hB : p.start_frames.getD p.entry 0 ≤ (f : K))
    (hlt : (p.tempomap.get p.entry).bars ≠ -1 →
      (f : K) < p.start_frames.getD p.entry 0
        + frame_dist H p.multiplier (p.tempomap.get p.entry) 0
            ((p.tempomap.get p.entry).bars * (p.tempomap.get p.entry).beats))
    (fuel : ℕ)
    (hfuel : ((p.tempomap.get p.entry).bars * (p.tempomap.get p.entry).beats).toNat + 1 ≤ fuel) :
    ∃ q, locate_per_beat H fuel p f = some q ∧ q.tempomap = p.tempomap ∧
      q.multiplier = p.multiplier ∧ q.start_frames = p.start_frames ∧
      q.on_beat H f := by
  have hN := Entry.valid.beats_ne _ hv
  have hfin : (p.tempomap.get p.entry).bars ≠ -1 := by
    obtain ⟨_, _, _, hkind, _⟩ := hv
    rcases hkind with h | h | h
    · exact absurd hT h.1.ne'
    · exact absurd hT h.1.ne'
    · exact h.2.1
  obtain ⟨hbeats, hdenom, hbars, _, _⟩ := hv
  obtain ⟨k, rfl⟩ : ∃ k, fuel = k + 1 := ⟨fuel - 1, by omega⟩
  have hstep : locate_per_beat H (k + 1) p f
      = locate_loop H (f : K) k
          { p with bar := 0, beat := 0, frame := p.start_frames.getD p.entry 0,
                   bar_total := p.start_bars.getD p.entry 0, init := false } := by
    simp only [locate_per_beat, locate_loop]
    rw [if_pos]
    · exact congrArg _ (advance_of_init H _ (by exact hinit))
    · refine ⟨?_, hend⟩
      simp only [Position.dist_to_next, hinit, if_true, add_zero]
      exact hB
  rw [hstep]
  obtain ⟨q, hq, q1, q2, q3, q4, q5, q6, q7, q8, q9, q10, q11⟩ :=
    locate_loop_spec H (f : K) (p.start_frames.getD p.entry 0) k
      { p with bar := 0, beat := 0, frame := p.start_frames.getD p.entry 0,
               bar_total := p.start_bars.getD p.entry 0, init := false }
      rfl hend
      ⟨hent, le_refl _, by show (0 : Int) < (p.tempomap.get p.entry).beats; omega, le_refl _,
        Or.inr (by show (0 : Int) < (p.tempomap.get p.entry).bars; omega)⟩
      hfin hN
      (by
        show p.start_frames.getD p.entry 0 = p.start_frames.getD p.entry 0
          + frame_dist H p.multiplier (p.tempomap.get p.entry) 0
              (0 * (p.tempomap.get p.entry).beats + 0)
        simp [frame_dist_self])
      hB (hlt hfin)
      (by
        show ((p.tempomap.get p.entry).bars * (p.tempomap.get p.entry).beats
          - (0 * (p.tempomap.get p.entry).beats + 0)).toNat ≤ k
        simp only [zero_mul, add_zero, sub_zero]
        omega)
  refine ⟨q, hq, q1, q2, q3, ?_⟩
  refine ⟨q7, q8, ?_, q10, q11.le, fun _ => q11⟩
  rw [q9, q3, q5]

end LocateSpec
end Klick

namespace Klick
section LocateAll
variable {K : Type} [LinearOrderedField K] [FloorRing K]

/-- The cursor on which the branches of `locate` run: reset, with `entry` set. -/
theorem locate_unfold (H : Host K) (fuel : ℕ) (p0 : Position K) (f : ℕ) (hf0 : f ≠ 0)
    (hne : upper_bound p0.start_frames (f : K) - 1 ≠ p0.tempomap.size) :
    p0.locate H fuel f =
      match (if (p0.tempomap.get (upper_bound p0.start_frames (f : K) - 1)).tempo ≠ 0
                ∧ (p0.tempomap.get (upper_bound p0.start_frames (f : K) - 1)).tempo2 = 0 then
              some (locate_const H
                { p0.reset with entry := upper_bound p0.start_frames (f : K) - 1 } f)
            else if (p0.tempomap.get (upper_bound p0.start_frames (f : K) - 1)).tempo ≠ 0
                ∧ (p0.tempomap.get (upper_bound p0.start_frames (f : K) - 1)).tempo2 ≠ 0 then
              locate_ramp H fuel
                { p0.reset with entry := upper_bound p0.start_frames (f : K) - 1 } f
            else if (p0.tempomap.get (upper_bound p0.start_frames (f : K) - 1)).tempo = 0 then
              locate_per_beat H fuel
                { p0.reset with entry := upper_bound p0.start_frames (f : K) - 1 } f
            else some { p0.reset with entry := upper_bound p0.start_frames (f : K) - 1 }) with
      | none => none
      | some q => some { q with init := decide (q.frame = (f : K)) } := by
  simp only [Position.locate, if_neg hf0]
  rw [if_neg]
  · rfl
  · exact hne

theorem on_beat_set_init (H : Host K) (q : Position K) (f : ℕ) (b : Bool)
    (h : q.on_beat H f) : ({ q with init := b } : Position K).on_beat H f := h

/-- The gradual-tempo branch of `locate` on an entry played ad infinitum: the
search has nothing to search and the cursor stays on the first beat. -/
theorem locate_ramp_inf (H : Host K) (p : Position K) (f : ℕ)
    (hent : p.entry < p.tempomap.size) (hv : (p.tempomap.get p.entry).valid)
    (hinf : (p.tempomap.get p.entry).bars = -1)
    (hB : p.start_frames.getD p.entry 0 ≤ (f : K)) (fuel : ℕ) (hfuel : 1 ≤ fuel) :
    ∃ q, locate_ramp H fuel p f = some q ∧ q.tempomap = p.tempomap ∧
      q.multiplier = p.multiplier ∧ q.start_frames = p.start_frames ∧ q.end_ = p.end_ ∧
      q.in_range ∧ q.frame ≤ (f : K) ∧ q.entry = p.entry := by
  obtain ⟨hbeats, _, _, _, _⟩ := hv
  obtain ⟨k, rfl⟩ : ∃ k, fuel = k + 1 := ⟨fuel - 1, by omega⟩
  have hneg : ¬ ((0 : Int) ≤ (p.tempomap.get p.entry).bars * (p.tempomap.get p.entry).beats) := by
    rw [hinf]
    omega
  have hs : ramp_search (frame_dist H p.multiplier (p.tempomap.get p.entry) 0)
      ((f : K) - p.start_frames.getD p.entry 0) (k + 1) 0
      ((p.tempomap.get p.entry).bars * (p.tempomap.get p.entry).beats) = some 0 := by
    simp only [ramp_search, if_neg hneg]
  obtain ⟨s1, s2, s3, s4, _⟩ := split_beats 0 (p.tempomap.get p.entry).beats (le_refl _) hbeats
  simp only [locate_ramp, hs]
  refine ⟨_, rfl, rfl, rfl, rfl, rfl, ⟨hent, s2, s3, s4, Or.inl hinf⟩, ?_, rfl⟩
  show p.start_frames.getD p.entry 0
      + frame_dist H p.multiplier (p.tempomap.get p.entry) 0
          (Int.tdiv 0 (p.tempomap.get p.entry).beats * (p.tempomap.get p.entry).beats
            + Int.tmod 0 (p.tempomap.get p.entry).beats) ≤ (f : K)
  rw [s1, frame_dist_self, add_zero]
  exact hB

/-- For a frame inside a valid map, `locate` returns with enough fuel: the
cursor is on a beat of an entry, not after `f`, `init` tells whether it is at
`f`, and it is the beat looked for unless the entry has `tempo` and `tempo2`
both set and is played ad infinitum. -/
theorem locate_spec (H : Host K) (m : TempoMap K) (M : K) (hm : m.valid)
    (hM : 0 < M) (hS : 0 < H.samplerate) (f : ℕ) (hf0 : f ≠ 0)
    (hf : (f : K) < (Position.new H m M).start_frames.getD m.size 0) :
    ∃ n0, ∀ fuel, n0 ≤ fuel → ∃ q, (Position.new H m M).locate H fuel f = some q ∧
      q.tempomap = m ∧ q.multiplier = M ∧
      q.start_frames = (Position.new H m M).start_frames ∧
      q.end_ = false ∧ q.in_range ∧ q.frame ≤ (f : K) ∧
      q.init = decide (q.frame = (f : K)) ∧
      (((m.get q.entry).tempo ≠ 0 → (m.get q.entry).tempo2 ≠ 0 → (m.get q.entry).bars ≠ -1) →
        q.on_beat H f) := by
  rw [new_start_frames] at hf
  obtain ⟨hi, hle, hlt⟩ := locate_entry H m M f hf
  have hv := TempoMap.valid.get m hm _ hi
  have hnext := start_frames_loop_succ H M m.entries 0 _ hi
  rw [hnext] at hlt
  have hlt' : (m.get (upper_bound (start_frames_loop H M m.entries 0) (f : K) - 1)).bars ≠ -1 →
      (f : K) < (start_frames_loop H M m.entries 0).getD
          (upper_bound (start_frames_loop H M m.entries 0) (f : K) - 1) 0
        + frame_dist H M (m.get (upper_bound (start_frames_loop H M m.entries 0) (f : K) - 1)) 0
            ((m.get (upper_bound (start_frames_loop H M m.entries 0) (f : K) - 1)).bars
              * (m.get (upper_bound (start_frames_loop H M m.entries 0) (f : K) - 1)).beats) := by
    intro hb
    have hb' : (m.entries.getD (upper_bound (start_frames_loop H M m.entries 0) (f : K) - 1)
        Entry.zero).bars ≠ -1 := hb
    rw [if_pos hb'] at hlt
    exact hlt
  refine ⟨((m.get (upper_bound (start_frames_loop H M m.entries 0) (f : K) - 1)).bars
      * (m.get (upper_bound (start_frames_loop H M m.entries 0) (f : K) - 1)).beats).toNat + 1,
    ?_⟩
  intro fuel hfuel
  rw [locate_unfold H fuel (Position.new H m M) f hf0 (by
    show upper_bound (start_frames_loop H M m.entries 0) (f : K) - 1 ≠ m.size
    omega)]
  have hc : (Position.new H m M).tempomap.get
        (upper_bound (Position.new H m M).start_frames (f : K) - 1) =
      m.get (upper_bound (start_frames_loop H M m.entries 0) (f : K) - 1) := rfl
  by_cases c1 : (m.get (upper_bound (start_frames_loop H M m.entries 0) (f : K) - 1)).tempo ≠ 0
      ∧ (m.get (upper_bound (start_frames_loop H M m.entries 0) (f : K) - 1)).tempo2 = 0
  · have hs := locate_const_spec H
      { (Position.new H m M).reset with
        entry := upper_bound (Position.new H m M).start_frames (f : K) - 1 } f
      hi hv rfl hM hS c1.1 c1.2 hle hlt'
    simp only [hc, if_pos c1]
    exact ⟨_, rfl, rfl, rfl, rfl, hs.1, hs.2.1, hs.2.2.2.1, rfl,
      fun _ => on_beat_set_init H _ f _ hs⟩
  · by_cases c2 : (m.get (upper_bound (start_frames_loop H M m.entries 0) (f : K) - 1)).tempo ≠ 0
      ∧ (m.get (upper_bound (start_frames_loop H M m.entries 0) (f : K) - 1)).tempo2 ≠ 0
    · by_cases hinf : (m.get (upper_bound (start_frames_loop H M m.entries 0) (f : K) - 1)).bars
          = -1
      · obtain ⟨q, hq, q1, q2, q3, q4, q5, q6, q7⟩ := locate_ramp_inf H
          { (Position.new H m M).reset with
            entry := upper_bound (Position.new H m M).start_frames (f : K) - 1 } f
          hi hv hinf hle fuel (by omega)
        simp only [hc, if_neg c1, if_pos c2, hq]
        refine ⟨_, rfl, q1, q2, q3, q4, q5, q6, rfl, ?_⟩
        intro hcon
        exfalso
        have hcon' : (m.get q.entry).tempo ≠ 0 → (m.get q.entry).tempo2 ≠ 0 →
            (m.get q.entry).bars ≠ -1 := hcon
        rw [q7] at hcon'
        exact hcon' c2.1 c2.2 hinf
      · obtain ⟨q, hq, q1, q2, q3, q4, q5⟩ := locate_ramp_spec H
          { (Position.new H m M).reset with
            entry := upper_bound (Position.new H m M).start_frames (f : K) - 1 } f
          hi hv rfl c2.1 c2.2 hinf hle (hlt' hinf) fuel hfuel
        simp only [hc, if_neg c1, if_pos c2, hq]
        exact ⟨_, rfl, q1, q2, q3, q5.1, q5.2.1, q5.2.2.2.1, rfl,
          fun _ => on_beat_set_init H _ f _ q5⟩
    · have c3 : (m.get (upper_bound (start_frames_loop H M m.entries 0) (f : K) - 1)).tempo = 0 := by
        by_contra h
        by_cases h2 : (m.get (upper_bound (start_frames_loop H M m.entries 0) (f : K) - 1)).tempo2 = 0
        · exact c1 ⟨h, h2⟩
        · exact c2 ⟨h, h2⟩
      obtain ⟨q, hq, q1, q2, q3, q5⟩ := locate_per_beat_spec H
        { (Position.new H m M).reset with
          entry := upper_bound (Position.new H m M).start_frames (f : K) - 1 } f
        hi hv rfl rfl c3 hle hlt' fuel hfuel
      simp only [hc, if_neg c1, if_neg c2, if_pos c3, hq]
      exact ⟨_, rfl, q1, q2, q3, q5.1, q5.2.1, q5.2.2.2.1, rfl,
        fun _ => on_beat_set_init H _ f _ q5⟩

end LocateAll
end Klick

namespace Klick
section Scenario
variable {K : Type} [LinearOrderedField K] [FloorRing K]

theorem const_entry_valid (l : String) (bars : Int) (tempo : K) (beats denom : Int)
    (hbars : 1 ≤ bars ∨ bars = -1) (ht : 0 < tempo) (hb : 1 ≤ beats) (hd : 1 ≤ denom) :
    (const_entry l bars tempo beats denom).valid :=
  ⟨hb, hd, hbars, Or.inl ⟨ht, Or.inl rfl⟩, Or.inl rfl, by simp [const_entry], by simp [const_entry]⟩

theorem map_60_120_valid : (map_60_120 : TempoMap K).valid := by
  refine ⟨by simp [map_60_120], ?_, ?_, by
    simp only [map_60_120, present_labels, const_entry, List.map_cons, List.map_nil]
    decide⟩
  · intro e he
    simp only [map_60_120, List.mem_cons, List.mem_singleton, List.not_mem_nil, or_false] at he
    rcases he with rfl | rfl
    · exact const_entry_valid _ _ _ _ _ (by norm_num) (by norm_num) (by norm_num) (by norm_num)
    · exact const_entry_valid _ _ _ _ _ (by norm_num) (by norm_num) (by norm_num) (by norm_num)
  · intro i hi
    have : i = 0 := by
      simp [TempoMap.size, map_60_120] at hi
      omega
    subst this
    simp [TempoMap.get, map_60_120, const_entry]

theorem map_60_120_frames (H : Host K) (hS : H.samplerate = 48000) :
    (Position.new H (map_60_120 : TempoMap K) 1).start_frames = [0, 768000, 1152000] := by
  simp [Position.new, Position.reset, start_frames_loop, map_60_120, const_entry, frame_dist, hS]
  norm_num

end Scenario
end Klick

namespace Klick
section LocateEval
variable {K : Type} [LinearOrderedField K] [FloorRing K]

theorem to_int_eq (x : K) (n : Int) (h0 : 0 ≤ x) (h1 : (n : K) ≤ x) (h2 : x < (n : K) + 1) :
    to_int x = n := by
  simp only [to_int, if_pos h0]
  exact Int.floor_eq_iff.mpr ⟨h1, h2⟩

theorem upper_bound_two (a b f : K) (h1 : a ≤ f) (h2 : f < b) : upper_bound [a, b] f = 1 := by
  simp [upper_bound, List.findIdx_cons, not_lt.mpr h1, h2]

theorem locate_zero (H : Host K) (fuel : ℕ) (p : Position K) :
    p.locate H fuel 0 = some p.reset := by
  simp [Position.locate]

end LocateEval
end Klick

namespace Klick

/-- The integer within less than a half of `s` is the one `round_even` returns. -/
theorem round_even_of_near (s : ℚ) (n : Int) (h1 : (n : ℚ) - 1 / 2 < s)
    (h2 : s < (n : ℚ) + 1 / 2) : round_even s = n := by
  unfold round_even
  by_cases hs : (n : ℚ) ≤ s
  · have hf : ⌊s⌋ = n := by
      rw [Int.floor_eq_iff]
      constructor
      · exact hs
      · linarith
    rw [hf, if_pos (by linarith)]
  · have hs' : s < (n : ℚ) := not_le.mp hs
    have hf : ⌊s⌋ = n - 1 := by
      rw [Int.floor_eq_iff]
      push_cast
      constructor <;> linarith
    rw [hf]
    push_cast
    rw [if_neg (by linarith), if_pos (by linarith)]
    ring

/-- An integer rounds to itself. -/
theorem round_even_int (n : Int) : round_even (n : ℚ) = n :=
  round_even_of_near _ n (by linarith) (by linarith)

/-- The binary exponent of a rational between two consecutive powers of 2. -/
theorem int_log_eq (q : ℚ) (k : Int) (hlo : (2 : ℚ) ^ k ≤ |q|) (hhi : |q| < (2 : ℚ) ^ (k + 1)) :
    Int.log 2 |q| = k := by
  have hpos : 0 < |q| := lt_of_lt_of_le (zpow_pos (by norm_num) k) hlo
  have h1 : k ≤ Int.log 2 |q| := by
    rw [← Int.zpow_le_iff_le_log (by norm_num) hpos]
    exact_mod_cast hlo
  have h2 : Int.log 2 |q| < k + 1 := by
    rw [← Int.lt_zpow_iff_log_lt (by norm_num) hpos]
    exact_mod_cast hhi
  omega

/-- How a value rounds: `q` lies in the binade of `2^k`, and `v`, a multiple of
the spacing `2^(k - (p - 1))` there, is within less than half the spacing. -/
theorem rnd_eq (p : ℕ) (q v : ℚ) (k n : Int) (hlo : (2 : ℚ) ^ k ≤ |q|)
    (hhi : |q| < (2 : ℚ) ^ (k + 1)) (hv : v = (n : ℚ) * (2 : ℚ) ^ (k - ((p : Int) - 1)))
    (h1 : v - (2 : ℚ) ^ (k - ((p : Int) - 1)) / 2 < q)
    (h2 : q < v + (2 : ℚ) ^ (k - ((p : Int) - 1)) / 2) : rnd p q = v := by
  have hq0 : q ≠ 0 := by
    intro h
    rw [h, abs_zero] at hlo
    exact absurd hlo (not_le.mpr (zpow_pos (by norm_num) k))
  have hu : (0 : ℚ) < (2 : ℚ) ^ (k - ((p : Int) - 1)) := zpow_pos (by norm_num) _
  unfold rnd
  rw [if_neg hq0, int_log_eq q k hlo hhi, hv]
  congr 1
  have : round_even (q / (2 : ℚ) ^ (k - ((p : Int) - 1))) = n := by
    apply round_even_of_near
    · rw [lt_div_iff₀ hu]
      rw [hv] at h1
      linarith
    · rw [div_lt_iff₀ hu]
      rw [hv] at h2
      linarith
  rw [this]

/-- A value of the format (a multiple of the spacing of its binade) rounds to
itself. -/
theorem rnd_exact (p : ℕ) (q : ℚ) (k n : Int) (hlo : (2 : ℚ) ^ k ≤ |q|)
    (hhi : |q| < (2 : ℚ) ^ (k + 1)) (hq : q = (n : ℚ) * (2 : ℚ) ^ (k - ((p : Int) - 1))) :
    rnd p q = q := by
  have hu : (0 : ℚ) < (2 : ℚ) ^ (k - ((p : Int) - 1)) := zpow_pos (by norm_num) _
  exact rnd_eq p q q k n hlo hhi hq (by linarith) (by linarith)

/-- A natural number below `2^p` is a value of the format with `p` bits. -/
theorem rnd_nat (p : ℕ) (hp : 1 ≤ p) (n : ℕ) (hn : n < 2 ^ p) : rnd p (n : ℚ) = n := by
  rcases Nat.eq_zero_or_pos n with h0 | hpos
  · subst h0
    simp [rnd]
  have hL : Nat.log 2 n < p := by
    apply Nat.log_lt_of_lt_pow (by omega) hn
  have hlo : (2 : ℚ) ^ ((Nat.log 2 n : ℕ) : Int) ≤ |(n : ℚ)| := by
    rw [abs_of_nonneg (Nat.cast_nonneg n), zpow_natCast]
    exact_mod_cast Nat.pow_log_le_self 2 (by omega)
  have hhi : |(n : ℚ)| < (2 : ℚ) ^ (((Nat.log 2 n : ℕ) : Int) + 1) := by
    rw [abs_of_nonneg (Nat.cast_nonneg n)]
    have : (n : ℚ) < (2 : ℚ) ^ (Nat.log 2 n + 1) := by
      exact_mod_cast Nat.lt_pow_succ_log_self (by norm_num) n
    rw [show ((Nat.log 2 n : ℕ) : Int) + 1 = ((Nat.log 2 n + 1 : ℕ) : Int) by push_cast; ring,
      zpow_natCast]
    exact this
  obtain ⟨d, hd⟩ : ∃ d : ℕ, p - 1 = Nat.log 2 n + d := ⟨p - 1 - Nat.log 2 n, by omega⟩
  apply rnd_exact p (n : ℚ) (Nat.log 2 n : Int) (((n * 2 ^ d : ℕ) : Int)) hlo hhi
  have he : ((Nat.log 2 n : ℕ) : Int) - ((p : Int) - 1) = -((d : ℕ) : Int) := by omega
  rw [he, zpow_neg, zpow_natCast]
  push_cast
  field_simp

/-- How a positive value rounds. -/
theorem rnd_eq_pos (p : ℕ) (q v : ℚ) (k n : Int) (hlo : (2 : ℚ) ^ k ≤ q)
    (hhi : q < (2 : ℚ) ^ (k + 1)) (hv : v = (n : ℚ) * (2 : ℚ) ^ (k - ((p : Int) - 1)))
    (h1 : v - (2 : ℚ) ^ (k - ((p : Int) - 1)) / 2 < q)
    (h2 : q < v + (2 : ℚ) ^ (k - ((p : Int) - 1)) / 2) : rnd p q = v := by
  have hq : 0 < q := lt_of_lt_of_le (zpow_pos (by norm_num) k) hlo
  exact rnd_eq p q v k n (by rw [abs_of_pos hq]; exact hlo) (by rw [abs_of_pos hq]; exact hhi)
    hv h1 h2

/-- A positive value of the format rounds to itself. -/
theorem rnd_exact_pos (p : ℕ) (q : ℚ) (k n : Int) (hlo : (2 : ℚ) ^ k ≤ q)
    (hhi : q < (2 : ℚ) ^ (k + 1)) (hq : q = (n : ℚ) * (2 : ℚ) ^ (k - ((p : Int) - 1))) :
    rnd p q = q := by
  have hu : (0 : ℚ) < (2 : ℚ) ^ (k - ((p : Int) - 1)) := zpow_pos (by norm_num) _
  exact rnd_eq_pos p q q k n hlo hhi hq (by linarith) (by linarith)

/-- The evaluation of one rounding: `q` has the value `q1`, which lies in the
binade of `2^k` and within less than half the spacing of the value `v` of the
format. -/
theorem rnd_eval (p : ℕ) (q q1 v : ℚ) (k n : Int) (hq : q = q1) (hlo : (2 : ℚ) ^ k ≤ q1)
    (hhi : q1 < (2 : ℚ) ^ (k + 1)) (hv : v = (n : ℚ) * (2 : ℚ) ^ (k - ((p : Int) - 1)))
    (h1 : v - (2 : ℚ) ^ (k - ((p : Int) - 1)) / 2 < q1)
    (h2 : q1 < v + (2 : ℚ) ^ (k - ((p : Int) - 1)) / 2) : rnd p q = v := by
  rw [hq]
  exact rnd_eq_pos p q1 v k n hlo hhi hv h1 h2

end Klick

namespace Klick

/-- The distance of a constant tempo in machine arithmetic: the four `double`
operations and the `float` product of `frame_dist`. -/
theorem frame_dist64_const (H : Host ℚ) (M : ℚ) (e : Entry ℚ) (a b : Int) (hab : a ≠ b)
    (hT : e.tempo ≠ 0) (hT2 : e.tempo2 = 0 ∨ e.tempo = e.tempo2) :
    frame_dist64 H M e a b
      = rnd64 (rnd64 (rnd64 (rnd64 (((b - a : Int) : ℚ) * 240) / rnd32 (e.tempo * (e.denom : ℚ)))
          * (H.samplerate : ℚ)) / M) := by
  have h1 : (e.tempo ≠ 0 ∧ e.tempo2 = 0) ∨ (e.tempo ≠ 0 ∧ e.tempo = e.tempo2) := by
    rcases hT2 with h | h
    · exact Or.inl ⟨hT, h⟩
    · exact Or.inr ⟨hT, h⟩
  simp only [frame_dist64, if_neg hab, if_pos h1]

/-- The value of `frame_dist` for a constant tempo, from the values of its five
operations. -/
theorem frame_dist64_eval (H : Host ℚ) (M : ℚ) (e : Entry ℚ) (a b : Int) (hab : a ≠ b)
    (hT : e.tempo ≠ 0) (hT2 : e.tempo2 = 0 ∨ e.tempo = e.tempo2) (x1 x2 x3 x4 x5 : ℚ)
    (h1 : rnd64 (((b - a : Int) : ℚ) * 240) = x1)
    (h2 : rnd32 (e.tempo * (e.denom : ℚ)) = x2)
    (h3 : rnd64 (x1 / x2) = x3)
    (h4 : rnd64 (x3 * (H.samplerate : ℚ)) = x4)
    (h5 : rnd64 (x4 / M) = x5) :
    frame_dist64 H M e a b = x5 := by
  rw [frame_dist64_const H M e a b hab hT hT2, h1, h2, h3, h4, h5]

theorem frame_dist64_self (H : Host ℚ) (M : ℚ) (e : Entry ℚ) (a : Int) :
    frame_dist64 H M e a a = 0 := by
  simp [frame_dist64]

/-- For a constant tempo the distance depends on the number of beats only. -/
theorem frame_dist64_shift (H : Host ℚ) (M : ℚ) (e : Entry ℚ) (a b c : Int)
    (hT : e.tempo ≠ 0) (hT2 : e.tempo2 = 0 ∨ e.tempo = e.tempo2) :
    frame_dist64 H M e (a + c) (b + c) = frame_dist64 H M e a b := by
  by_cases hab : a = b
  · subst hab
    rw [frame_dist64_self, frame_dist64_self]
  · rw [frame_dist64_const H M e a b hab hT hT2,
      frame_dist64_const H M e (a + c) (b + c) (by omega) hT hT2,
      show b + c - (a + c) = b - a by omega]

theorem advance64_of_init (H : Host ℚ) (p : Position ℚ) (hi : p.init = true) :
    p.advance64 H = { p with init := false } := by
  simp only [Position.advance64, hi, if_true]

theorem advance64_beat (H : Host ℚ) (p : Position ℚ) (hi : p.init = false)
    (h1 : ¬ (p.beat + 1 ≥ (p.tempomap.get p.entry).beats)) :
    p.advance64 H
      = { p with frame := rnd64 (p.frame + p.dist_to_next64 H), beat := p.beat + 1 } := by
  simp only [Position.advance64, hi, if_neg h1]
  rfl

theorem advance64_bar (H : Host ℚ) (p : Position ℚ) (hi : p.init = false)
    (h1 : p.beat + 1 ≥ (p.tempomap.get p.entry).beats)
    (h2 : ¬ (p.bar + 1 ≥ (p.tempomap.get p.entry).bars ∧ (p.tempomap.get p.entry).bars ≠ -1)) :
    p.advance64 H
      = { p with frame := rnd64 (p.frame + p.dist_to_next64 H), beat := 0, bar := p.bar + 1,
                 bar_total := p.bar_total + 1 } := by
  simp only [Position.advance64, hi, if_pos h1, if_neg h2]
  rfl

theorem advance64_entry (H : Host ℚ) (p : Position ℚ) (hi : p.init = false)
    (h1 : p.beat + 1 ≥ (p.tempomap.get p.entry).beats)
    (h2 : p.bar + 1 ≥ (p.tempomap.get p.entry).bars ∧ (p.tempomap.get p.entry).bars ≠ -1)
    (h3 : ¬ (p.entry + 1 ≥ p.tempomap.size)) :
    p.advance64 H
      = { p with frame := rnd64 (p.frame + p.dist_to_next64 H), beat := 0, bar := 0,
                 entry := p.entry + 1, bar_total := p.bar_total + 1 } := by
  simp only [Position.advance64, hi, if_pos h1, if_pos h2, if_neg h3]
  rfl

theorem advance64_end (H : Host ℚ) (p : Position ℚ) (hi : p.init = false)
    (h1 : p.beat + 1 ≥ (p.tempomap.get p.entry).beats)
    (h2 : p.bar + 1 ≥ (p.tempomap.get p.entry).bars ∧ (p.tempomap.get p.entry).bars ≠ -1)
    (h3 : p.entry + 1 ≥ p.tempomap.size) :
    p.advance64 H
      = { p with frame := rnd64 (p.frame + p.dist_to_next64 H), beat := 0, bar := 0,
                 entry := p.entry, end_ := true, bar_total := p.bar_total + 1 } := by
  simp only [Position.advance64, hi, if_pos h1, if_pos h2, if_pos h3]
  rfl

theorem dist_to_next64_eq (H : Host ℚ) (p : Position ℚ) (hi : p.init = false)
    (he : p.end_ = false) :
    p.dist_to_next64 H
      = frame_dist64 H p.multiplier (p.tempomap.get p.entry) p.beat_index
          (p.beat_index + 1) := by
  simp [Position.dist_to_next64, hi, he, Position.beat_index]

/-- Machine arithmetic changes the frame only: a step of `advance` leaves every
other member as the step in exact arithmetic does. -/
theorem advance64_members (H : Host ℚ) (p : Position ℚ) :
    ({ (p.advance64 H) with frame := 0 } : Position ℚ)
      = { (p.advance H) with frame := 0 } := by
  simp only [Position.advance64, Position.advance]
  split_ifs <;> rfl

/-- A step of `advance` reads the frame and the table of start frames for the
new frame only. -/
theorem advance_members (H : Host ℚ) (p : Position ℚ) (x : ℚ) (sf : List ℚ) :
    ({ (Position.advance H { p with frame := x, start_frames := sf }) with
        frame := 0, start_frames := [] } : Position ℚ)
      = { (p.advance H) with frame := 0, start_frames := [] } := by
  simp only [Position.advance]
  split_ifs <;> rfl

end Klick

namespace Klick

/-- The value of the conversion to `nframes_t` from its integer part. -/
theorem to_nframes_eq (x : ℚ) (n : ℕ) (h0 : (n : ℚ) ≤ x) (h1 : x < (n : ℚ) + 1)
    (h2 : n < 2 ^ 32) : to_nframes x = n := by
  unfold to_nframes
  have hx : 0 ≤ x := le_trans (Nat.cast_nonneg n) h0
  have hf : ⌊x⌋₊ = n := by
    rw [Nat.floor_eq_iff hx]
    exact ⟨h0, h1⟩
  rw [hf]
  exact Nat.mod_eq_of_lt h2

theorem new64_start_frames (H : Host ℚ) (m : TempoMap ℚ) (M : ℚ) :
    (Position.new64 H m M).start_frames = start_frames_loop64 H M m.entries 0 := rfl

theorem locate64_zero (H : Host ℚ) (fuel : ℕ) (p : Position ℚ) :
    p.locate64 H fuel 0 = some p.reset := by
  simp [Position.locate64]

end Klick

namespace Klick

/-- The distance to the next tick inside an entry of constant tempo in machine
arithmetic: that of the first beat. -/
theorem dist_to_next64_const (H : Host ℚ) (q : Position ℚ) (hi : q.init = false)
    (hend : q.end_ = false) (hT : (q.tempomap.get q.entry).tempo ≠ 0)
    (hT2 : (q.tempomap.get q.entry).tempo2 = 0
      ∨ (q.tempomap.get q.entry).tempo = (q.tempomap.get q.entry).tempo2) :
    q.dist_to_next64 H = frame_dist64 H q.multiplier (q.tempomap.get q.entry) 0 1 := by
  rw [dist_to_next64_eq H q hi hend]
  have h := frame_dist64_shift H q.multiplier (q.tempomap.get q.entry) 0 1 q.beat_index hT hT2
  rw [zero_add, add_comm 1 q.beat_index] at h
  exact h

/-- The run of `advance` through an entry of constant tempo in machine
arithmetic, from the first beat of the entry: after `k` steps, `k` less than the
beats of the entry, the cursor is on beat `k` of the entry and the frame has
been added to `k` times. -/
theorem entry_run64 (H : Host ℚ) (p : Position ℚ) (hi : p.init = false)
    (he : p.end_ = false) (hb : p.bar = 0) (hr : p.beat = 0)
    (hT : (p.tempomap.get p.entry).tempo ≠ 0)
    (hT2 : (p.tempomap.get p.entry).tempo2 = 0
      ∨ (p.tempomap.get p.entry).tempo = (p.tempomap.get p.entry).tempo2)
    (hbeats : 1 ≤ (p.tempomap.get p.entry).beats) :
    ∀ k : ℕ, ((p.tempomap.get p.entry).bars = -1
        ∨ (k : Int) < (p.tempomap.get p.entry).bars * (p.tempomap.get p.entry).beats) →
      ∃ b r : Int, 0 ≤ r ∧ r < (p.tempomap.get p.entry).beats ∧ 0 ≤ b ∧
        ((p.tempomap.get p.entry).bars = -1 ∨ b < (p.tempomap.get p.entry).bars) ∧
        b * (p.tempomap.get p.entry).beats + r = k ∧
        (Position.advance64 H)^[k] p
          = { p with
              frame := acc64 (frame_dist64 H p.multiplier (p.tempomap.get p.entry) 0 1) p.frame k,
              bar := b, beat := r, bar_total := p.bar_total + b } := by
  intro k
  induction k with
  | zero =>
    intro hk
    refine ⟨0, 0, le_refl _, by omega, le_refl _, ?_, by simp, ?_⟩
    · rcases hk with h | h
      · exact Or.inl h
      · right
        by_contra hc
        have h0 : (p.tempomap.get p.entry).bars ≤ 0 := not_lt.mp hc
        have : (p.tempomap.get p.entry).bars * (p.tempomap.get p.entry).beats ≤ 0 :=
          mul_nonpos_of_nonpos_of_nonneg h0 (by omega)
        simp at h
        omega
    · rw [Function.iterate_zero_apply]
      cases p
      simp only at hb hr
      subst hb
      subst hr
      simp [acc64]
  | succ k ih =>
    intro hk
    obtain ⟨b, r, hr0, hr1, hb0, hb1, hbr, hq⟩ := ih (by
      rcases hk with h | h
      · exact Or.inl h
      · right
        push_cast at h
        omega)
    rw [Function.iterate_succ_apply', hq]
    have hdist := dist_to_next64_const H
      ({ p with
          frame := acc64 (frame_dist64 H p.multiplier (p.tempomap.get p.entry) 0 1) p.frame k,
          bar := b, beat := r, bar_total := p.bar_total + b } : Position ℚ) hi he hT hT2
    by_cases hlt : r + 1 < (p.tempomap.get p.entry).beats
    · refine ⟨b, r + 1, by omega, hlt, hb0, hb1, by push_cast; omega, ?_⟩
      rw [advance64_beat H _ (by exact hi) (by
        show ¬ (r + 1 ≥ (p.tempomap.get p.entry).beats)
        omega), hdist]
      rfl
    · have hre : r + 1 = (p.tempomap.get p.entry).beats := by omega
      have hkk : (b + 1) * (p.tempomap.get p.entry).beats = ((k + 1 : ℕ) : Int) := by
        push_cast
        rw [← hbr, add_mul, one_mul]
        omega
      have hb2 : (p.tempomap.get p.entry).bars = -1 ∨ b + 1 < (p.tempomap.get p.entry).bars := by
        rcases hk with h | h
        · exact Or.inl h
        · right
          rw [← hkk] at h
          exact lt_of_mul_lt_mul_right h (by omega)
      refine ⟨b + 1, 0, le_refl _, by omega, by omega, hb2, ?_, ?_⟩
      · rw [add_zero]
        exact hkk
      · rw [advance64_bar H _ (by exact hi) (by
          show r + 1 ≥ (p.tempomap.get p.entry).beats
          omega) (by
          show ¬ (b + 1 ≥ (p.tempomap.get p.entry).bars ∧ (p.tempomap.get p.entry).bars ≠ -1)
          intro h
          rcases hb2 with h2 | h2
          · exact h.2 h2
          · omega), hdist]
        simp only [add_assoc]
        rfl

/-- The step of `advance` out of the last beat of an entry of constant tempo and
finitely many bars into the next entry, in machine arithmetic: after as many
steps as the entry has beats the cursor is on the first beat of the next entry. -/
theorem entry_run64_next (H : Host ℚ) (p : Position ℚ) (hi : p.init = false)
    (he : p.end_ = false) (hb : p.bar = 0) (hr : p.beat = 0)
    (hT : (p.tempomap.get p.entry).tempo ≠ 0)
    (hT2 : (p.tempomap.get p.entry).tempo2 = 0
      ∨ (p.tempomap.get p.entry).tempo = (p.tempomap.get p.entry).tempo2)
    (hbeats : 1 ≤ (p.tempomap.get p.entry).beats) (hbars : 1 ≤ (p.tempomap.get p.entry).bars)
    (hnext : p.entry + 1 < p.tempomap.size) :
    (Position.advance64 H)^[((p.tempomap.get p.entry).bars
        * (p.tempomap.get p.entry).beats).toNat] p
      = { p with
          frame := acc64 (frame_dist64 H p.multiplier (p.tempomap.get p.entry) 0 1) p.frame
            ((p.tempomap.get p.entry).bars * (p.tempomap.get p.entry).beats).toNat,
          entry := p.entry + 1, bar := 0, beat := 0,
          bar_total := p.bar_total + (p.tempomap.get p.entry).bars } := by
  have hpos : 1 ≤ (p.tempomap.get p.entry).bars * (p.tempomap.get p.entry).beats := by nlinarith
  obtain ⟨N, hN⟩ : ∃ N, ((p.tempomap.get p.entry).bars * (p.tempomap.get p.entry).beats).toNat
      = N + 1 := ⟨((p.tempomap.get p.entry).bars * (p.tempomap.get p.entry).beats).toNat - 1,
    by omega⟩
  have hNi : (N : Int) + 1 = (p.tempomap.get p.entry).bars * (p.tempomap.get p.entry).beats := by
    omega
  obtain ⟨b, r, hr0, hr1, hb0, hb1, hbr, hq⟩ :=
    entry_run64 H p hi he hb hr hT hT2 hbeats N (Or.inr (by omega))
  have hfin : (p.tempomap.get p.entry).bars ≠ -1 := by omega
  have hb1' : b < (p.tempomap.get p.entry).bars := by
    rcases hb1 with h | h
    · exact absurd h hfin
    · exact h
  have hbe : b + 1 = (p.tempomap.get p.entry).bars := by
    by_contra hc
    have h2 : b + 2 ≤ (p.tempomap.get p.entry).bars := by omega
    have h3 : (b + 2) * (p.tempomap.get p.entry).beats
        ≤ (p.tempomap.get p.entry).bars * (p.tempomap.get p.entry).beats :=
      mul_le_mul_of_nonneg_right h2 (by omega)
    nlinarith
  have hre : r + 1 = (p.tempomap.get p.entry).beats := by
    rw [← hbe] at hNi
    nlinarith
  rw [hN, Function.iterate_succ_apply', hq]
  have hdist := dist_to_next64_const H
    ({ p with
        frame := acc64 (frame_dist64 H p.multiplier (p.tempomap.get p.entry) 0 1) p.frame N,
        bar := b, beat := r, bar_total := p.bar_total + b } : Position ℚ) hi he hT hT2
  rw [advance64_entry H _ (by exact hi) (by
      show r + 1 ≥ (p.tempomap.get p.entry).beats
      omega) (by
      show b + 1 ≥ (p.tempomap.get p.entry).bars ∧ (p.tempomap.get p.entry).bars ≠ -1
      exact ⟨by omega, hfin⟩) (by
      show ¬ (p.entry + 1 ≥ p.tempomap.size)
      omega), hdist, ← hbe]
  simp only [add_assoc]
  rfl

end Klick

namespace Klick

/-! ### Distances of the scenarios in machine arithmetic -/

/-- The first beat of `* 4/4 108` at 48000 Hz: 26666.666666666668. -/
theorem frame_dist64_108_0_1 :
    frame_dist64 host48k 1 (const_entry "" (-1) 108 4 4) 0 1
      = (7330077518506667 / 274877906944) :=
  frame_dist64_eval host48k 1 (const_entry "" (-1) 108 4 4) 0 1 (by decide)
    (by norm_num [const_entry, host48k]) (Or.inl (by simp [const_entry]))
    240 432 (2501999792983609 / 4503599627370496)
    (7330077518506667 / 274877906944) (7330077518506667 / 274877906944)
    (rnd_eval 53 _ 240 240 (7) 8444249301319680
      (by norm_num) (by norm_num) (by norm_num) (by norm_num) (by norm_num) (by norm_num))
    (rnd_eval 24 _ 432 432 (8) 14155776
      (by norm_num [const_entry, host48k]) (by norm_num) (by norm_num) (by norm_num) (by norm_num) (by norm_num))
    (rnd_eval 53 _ (5 / 9) (2501999792983609 / 4503599627370496) (-1) 5003999585967218
      (by norm_num) (by norm_num) (by norm_num) (by norm_num) (by norm_num) (by norm_num))
    (rnd_eval 53 _ (938249922368853375 / 35184372088832) (7330077518506667 / 274877906944) (14) 7330077518506667
      (by norm_num [const_entry, host48k]) (by norm_num) (by norm_num) (by norm_num) (by norm_num) (by norm_num))
    (rnd_eval 53 _ (7330077518506667 / 274877906944) (7330077518506667 / 274877906944) (14) 7330077518506667
      (by norm_num) (by norm_num) (by norm_num) (by norm_num) (by norm_num) (by norm_num))

/-- The beats 1 to 8 of `* 4/4 108` at 48000 Hz: 186666.66666666666. -/
theorem frame_dist64_108_1_8 :
    frame_dist64 host48k 1 (const_entry "" (-1) 108 4 4) 1 8
      = (6413817828693333 / 34359738368) :=
  frame_dist64_eval host48k 1 (const_entry "" (-1) 108 4 4) 1 8 (by decide)
    (by norm_num [const_entry, host48k]) (Or.inl (by simp [const_entry]))
    1680 432 (8756999275442631 / 2251799813685248)
    (6413817828693333 / 34359738368) (6413817828693333 / 34359738368)
    (rnd_eval 53 _ 1680 1680 (10) 7388718138654720
      (by norm_num) (by norm_num) (by norm_num) (by norm_num) (by norm_num) (by norm_num))
    (rnd_eval 24 _ 432 432 (8) 14155776
      (by norm_num [const_entry, host48k]) (by norm_num) (by norm_num) (by norm_num) (by norm_num) (by norm_num))
    (rnd_eval 53 _ (35 / 9) (8756999275442631 / 2251799813685248) (1) 8756999275442631
      (by norm_num) (by norm_num) (by norm_num) (by norm_num) (by norm_num) (by norm_num))
    (rnd_eval 53 _ (3283874728290986625 / 17592186044416) (6413817828693333 / 34359738368) (17) 6413817828693333
      (by norm_num [const_entry, host48k]) (by norm_num) (by norm_num) (by norm_num) (by norm_num) (by norm_num))
    (rnd_eval 53 _ (6413817828693333 / 34359738368) (6413817828693333 / 34359738368) (17) 6413817828693333
      (by norm_num) (by norm_num) (by norm_num) (by norm_num) (by norm_num) (by norm_num))

/-- The first 8 beats of `* 4/4 108` at 48000 Hz: 213333.33333333334. -/
theorem frame_dist64_108_0_8 :
    frame_dist64 host48k 1 (const_entry "" (-1) 108 4 4) 0 8
      = (7330077518506667 / 34359738368) :=
  frame_dist64_eval host48k 1 (const_entry "" (-1) 108 4 4) 0 8 (by decide)
    (by norm_num [const_entry, host48k]) (Or.inl (by simp [const_entry]))
    1920 432 (2501999792983609 / 562949953421312)
    (7330077518506667 / 34359738368) (7330077518506667 / 34359738368)
    (rnd_eval 53 _ 1920 1920 (10) 8444249301319680
      (by norm_num) (by norm_num) (by norm_num) (by norm_num) (by norm_num) (by norm_num))
    (rnd_eval 24 _ 432 432 (8) 14155776
      (by norm_num [const_entry, host48k]) (by norm_num) (by norm_num) (by norm_num) (by norm_num) (by norm_num))
    (rnd_eval 53 _ (40 / 9) (2501999792983609 / 562949953421312) (2) 5003999585967218
      (by norm_num) (by norm_num) (by norm_num) (by norm_num) (by norm_num) (by norm_num))
    (rnd_eval 53 _ (938249922368853375 / 4398046511104) (7330077518506667 / 34359738368) (17) 7330077518506667
      (by norm_num [const_entry, host48k]) (by norm_num) (by norm_num) (by norm_num) (by norm_num) (by norm_num))
    (rnd_eval 53 _ (7330077518506667 / 34359738368) (7330077518506667 / 34359738368) (17) 7330077518506667
      (by norm_num) (by norm_num) (by norm_num) (by norm_num) (by norm_num) (by norm_num))

/-- The first 9 beats of `* 4/4 108` at 48000 Hz: 240000. -/
theorem frame_dist64_108_0_9 :
    frame_dist64 host48k 1 (const_entry "" (-1) 108 4 4) 0 9
      = 240000 :=
  frame_dist64_eval host48k 1 (const_entry "" (-1) 108 4 4) 0 9 (by decide)
    (by norm_num [const_entry, host48k]) (Or.inl (by simp [const_entry]))
    2160 432 5
    240000 240000
    (rnd_eval 53 _ 2160 2160 (11) 4749890231992320
      (by norm_num) (by norm_num) (by norm_num) (by norm_num) (by norm_num) (by norm_num))
    (rnd_eval 24 _ 432 432 (8) 14155776
      (by norm_num [const_entry, host48k]) (by norm_num) (by norm_num) (by norm_num) (by norm_num) (by norm_num))
    (rnd_eval 53 _ 5 5 (2) 5629499534213120
      (by norm_num) (by norm_num) (by norm_num) (by norm_num) (by norm_num) (by norm_num))
    (rnd_eval 53 _ 240000 240000 (17) 8246337208320000
      (by norm_num [const_entry, host48k]) (by norm_num) (by norm_num) (by norm_num) (by norm_num) (by norm_num))
    (rnd_eval 53 _ 240000 240000 (17) 8246337208320000
      (by norm_num) (by norm_num) (by norm_num) (by norm_num) (by norm_num) (by norm_num))

/-- The first beat of `* 4/4 120` at 48000 Hz: 24000. -/
theorem frame_dist64_120_0_1 :
    frame_dist64 host48k 1 (const_entry "" (-1) 120 4 4) 0 1
      = 24000 :=
  frame_dist64_eval host48k 1 (const_entry "" (-1) 120 4 4) 0 1 (by decide)
    (by norm_num [const_entry, host48k]) (Or.inl (by simp [const_entry]))
    240 480 (1 / 2)
    24000 24000
    (rnd_eval 53 _ 240 240 (7) 8444249301319680
      (by norm_num) (by norm_num) (by norm_num) (by norm_num) (by norm_num) (by norm_num))
    (rnd_eval 24 _ 480 480 (8) 15728640
      (by norm_num [const_entry, host48k]) (by norm_num) (by norm_num) (by norm_num) (by norm_num) (by norm_num))
    (rnd_eval 53 _ (1 / 2) (1 / 2) (-1) 4503599627370496
      (by norm_num) (by norm_num) (by norm_num) (by norm_num) (by norm_num) (by norm_num))
    (rnd_eval 53 _ 24000 24000 (14) 6597069766656000
      (by norm_num [const_entry, host48k]) (by norm_num) (by norm_num) (by norm_num) (by norm_num) (by norm_num))
    (rnd_eval 53 _ 24000 24000 (14) 6597069766656000
      (by norm_num) (by norm_num) (by norm_num) (by norm_num) (by norm_num) (by norm_num))

/-- The first beat of the preroll of 1 bar in front of `* 4/4 108` at 48000 Hz: 26666.666666666668. -/
theorem frame_dist64_preroll1_108 :
    frame_dist64 host48k 1 (preroll_entry (const_entry "" (-1) 108 4 4) 1) 0 1
      = (7330077518506667 / 274877906944) :=
  frame_dist64_eval host48k 1 (preroll_entry (const_entry "" (-1) 108 4 4) 1) 0 1 (by decide)
    (by norm_num [preroll_entry, const_entry, host48k]) (Or.inl (by simp [preroll_entry]))
    240 432 (2501999792983609 / 4503599627370496)
    (7330077518506667 / 274877906944) (7330077518506667 / 274877906944)
    (rnd_eval 53 _ 240 240 (7) 8444249301319680
      (by norm_num) (by norm_num) (by norm_num) (by norm_num) (by norm_num) (by norm_num))
    (rnd_eval 24 _ 432 432 (8) 14155776
      (by norm_num [preroll_entry, const_entry, host48k]) (by norm_num) (by norm_num) (by norm_num) (by norm_num) (by norm_num))
    (rnd_eval 53 _ (5 / 9) (2501999792983609 / 4503599627370496) (-1) 5003999585967218
      (by norm_num) (by norm_num) (by norm_num) (by norm_num) (by norm_num) (by norm_num))
    (rnd_eval 53 _ (938249922368853375 / 35184372088832) (7330077518506667 / 274877906944) (14) 7330077518506667
      (by norm_num [preroll_entry, const_entry, host48k]) (by norm_num) (by norm_num) (by norm_num) (by norm_num) (by norm_num))
    (rnd_eval 53 _ (7330077518506667 / 274877906944) (7330077518506667 / 274877906944) (14) 7330077518506667
      (by norm_num) (by norm_num) (by norm_num) (by norm_num) (by norm_num) (by norm_num))

/-- The first beat of the preroll of 2 bars in front of `* 4/4 108` at 48000 Hz: 26666.666666666668. -/
theorem frame_dist64_preroll2_108 :
    frame_dist64 host48k 1 (preroll_entry (const_entry "" (-1) 108 4 4) 2) 0 1
      = (7330077518506667 / 274877906944) :=
  frame_dist64_eval host48k 1 (preroll_entry (const_entry "" (-1) 108 4 4) 2) 0 1 (by decide)
    (by norm_num [preroll_entry, const_entry, host48k]) (Or.inl (by simp [preroll_entry]))
    240 432 (2501999792983609 / 4503599627370496)
    (7330077518506667 / 274877906944) (7330077518506667 / 274877906944)
    (rnd_eval 53 _ 240 240 (7) 8444249301319680
      (by norm_num) (by norm_num) (by norm_num) (by norm_num) (by norm_num) (by norm_num))
    (rnd_eval 24 _ 432 432 (8) 14155776
      (by norm_num [preroll_entry, const_entry, host48k]) (by norm_num) (by norm_num) (by norm_num) (by norm_num) (by norm_num))
    (rnd_eval 53 _ (5 / 9) (2501999792983609 / 4503599627370496) (-1) 5003999585967218
      (by norm_num) (by norm_num) (by norm_num) (by norm_num) (by norm_num) (by norm_num))
    (rnd_eval 53 _ (938249922368853375 / 35184372088832) (7330077518506667 / 274877906944) (14) 7330077518506667
      (by norm_num [preroll_entry, const_entry, host48k]) (by norm_num) (by norm_num) (by norm_num) (by norm_num) (by norm_num))
    (rnd_eval 53 _ (7330077518506667 / 274877906944) (7330077518506667 / 274877906944) (14) 7330077518506667
      (by norm_num) (by norm_num) (by norm_num) (by norm_num) (by norm_num) (by norm_num))

end Klick

namespace Klick

/-! ### Accumulated frames in machine arithmetic -/

theorem rnd64_nat (n : ℕ) (hn : n < 2 ^ 53) : rnd64 (n : ℚ) = n := rnd_nat 53 (by norm_num) n hn

/-- Adding a whole number of frames to a whole number of frames is exact below
`2^53`. -/
theorem acc64_nat (d x : ℕ) : ∀ k : ℕ, x + d * k < 2 ^ 53 →
    acc64 (d : ℚ) (x : ℚ) k = ((x + d * k : ℕ) : ℚ) := by
  intro k
  induction k with
  | zero =>
    intro _
    simp [acc64]
  | succ n ih =>
    intro h
    have h1 : x + d * n < 2 ^ 53 := by
      have : d * n ≤ d * (n + 1) := Nat.mul_le_mul_left d (Nat.le_succ n)
      omega
    show rnd64 (acc64 (d : ℚ) (x : ℚ) n + (d : ℚ)) = _
    rw [ih h1]
    have e : ((x + d * n : ℕ) : ℚ) + (d : ℚ) = ((x + d * (n + 1) : ℕ) : ℚ) := by
      push_cast
      ring
    rw [e]
    exact rnd64_nat _ h

theorem acc64_one (d x : ℚ) : acc64 d x 1 = rnd64 (x + d) := rfl

/-- The frame after 1 beat of `* 4/4 108` at 48000 Hz, each added in turn:
26666.666666666668. -/
theorem acc64_108_1 :
    acc64 (7330077518506667 / 274877906944) 0 1
      = (7330077518506667 / 274877906944) := by
  show rnd64 (acc64 (7330077518506667 / 274877906944) 0 0
    + (7330077518506667 / 274877906944)) = _
  rw [show acc64 (7330077518506667 / 274877906944) 0 0 = 0 from rfl]
  exact
    (rnd_eval 53 _ (7330077518506667 / 274877906944) (7330077518506667 / 274877906944) (14) 7330077518506667
      (by norm_num) (by norm_num) (by norm_num) (by norm_num) (by norm_num) (by norm_num))

/-- The frame after 2 beats of `* 4/4 108` at 48000 Hz, each added in turn:
53333.333333333336. -/
theorem acc64_108_2 :
    acc64 (7330077518506667 / 274877906944) 0 2
      = (7330077518506667 / 137438953472) := by
  show rnd64 (acc64 (7330077518506667 / 274877906944) 0 1
    + (7330077518506667 / 274877906944)) = _
  rw [acc64_108_1]
  exact
    (rnd_eval 53 _ (7330077518506667 / 137438953472) (7330077518506667 / 137438953472) (15) 7330077518506667
      (by norm_num) (by norm_num) (by norm_num) (by norm_num) (by norm_num) (by norm_num))

/-- The frame after 3 beats of `* 4/4 108` at 48000 Hz, each added in turn:
80000.0. -/
theorem acc64_108_3 :
    acc64 (7330077518506667 / 274877906944) 0 3
      = 80000 := by
  show rnd64 (acc64 (7330077518506667 / 274877906944) 0 2
    + (7330077518506667 / 274877906944)) = _
  rw [acc64_108_2]
  exact
    (rnd_eval 53 _ (21990232555520001 / 274877906944) 80000 (16) 5497558138880000
      (by norm_num) (by norm_num) (by norm_num) (by norm_num) (by norm_num) (by norm_num))

/-- The frame after 4 beats of `* 4/4 108` at 48000 Hz, each added in turn:
106666.66666666667. -/
theorem acc64_108_4 :
    acc64 (7330077518506667 / 274877906944) 0 4
      = (7330077518506667 / 68719476736) := by
  show rnd64 (acc64 (7330077518506667 / 274877906944) 0 3
    + (7330077518506667 / 274877906944)) = _
  rw [acc64_108_3]
  exact
    (rnd_eval 53 _ (29320310074026667 / 274877906944) (7330077518506667 / 68719476736) (16) 7330077518506667
      (by norm_num) (by norm_num) (by norm_num) (by norm_num) (by norm_num) (by norm_num))

/-- The frame after 5 beats of `* 4/4 108` at 48000 Hz, each added in turn:
133333.33333333334. -/
theorem acc64_108_5 :
    acc64 (7330077518506667 / 274877906944) 0 5
      = (4581298449066667 / 34359738368) := by
  show rnd64 (acc64 (7330077518506667 / 274877906944) 0 4
    + (7330077518506667 / 274877906944)) = _
  rw [acc64_108_4]
  exact
    (rnd_eval 53 _ (36650387592533335 / 274877906944) (4581298449066667 / 34359738368) (17) 4581298449066667
      (by norm_num) (by norm_num) (by norm_num) (by norm_num) (by norm_num) (by norm_num))

/-- The frame after 6 beats of `* 4/4 108` at 48000 Hz, each added in turn:
160000.0. -/
theorem acc64_108_6 :
    acc64 (7330077518506667 / 274877906944) 0 6
      = 160000 := by
  show rnd64 (acc64 (7330077518506667 / 274877906944) 0 5
    + (7330077518506667 / 274877906944)) = _
  rw [acc64_108_5]
  exact
    (rnd_eval 53 _ (43980465111040003 / 274877906944) 160000 (17) 5497558138880000
      (by norm_num) (by norm_num) (by norm_num) (by norm_num) (by norm_num) (by norm_num))

/-- The frame after 7 beats of `* 4/4 108` at 48000 Hz, each added in turn:
186666.66666666666. -/
theorem acc64_108_7 :
    acc64 (7330077518506667 / 274877906944) 0 7
      = (6413817828693333 / 34359738368) := by
  show rnd64 (acc64 (7330077518506667 / 274877906944) 0 6
    + (7330077518506667 / 274877906944)) = _
  rw [acc64_108_6]
  exact
    (rnd_eval 53 _ (51310542629546667 / 274877906944) (6413817828693333 / 34359738368) (17) 6413817828693333
      (by norm_num) (by norm_num) (by norm_num) (by norm_num) (by norm_num) (by norm_num))

/-- The frame after 8 beats of `* 4/4 108` at 48000 Hz, each added in turn:
213333.3333333333. -/
theorem acc64_108_8 :
    acc64 (7330077518506667 / 274877906944) 0 8
      = (3665038759253333 / 17179869184) := by
  show rnd64 (acc64 (7330077518506667 / 274877906944) 0 7
    + (7330077518506667 / 274877906944)) = _
  rw [acc64_108_7]
  exact
    (rnd_eval 53 _ (58640620148053331 / 274877906944) (3665038759253333 / 17179869184) (17) 7330077518506666
      (by norm_num) (by norm_num) (by norm_num) (by norm_num) (by norm_num) (by norm_num))

/-- The frame after 9 beats of `* 4/4 108` at 48000 Hz, each added in turn:
239999.99999999997. -/
theorem acc64_108_9 :
    acc64 (7330077518506667 / 274877906944) 0 9
      = (8246337208319999 / 34359738368) := by
  show rnd64 (acc64 (7330077518506667 / 274877906944) 0 8
    + (7330077518506667 / 274877906944)) = _
  rw [acc64_108_8]
  exact
    (rnd_eval 53 _ (65970697666559995 / 274877906944) (8246337208319999 / 34359738368) (17) 8246337208319999
      (by norm_num) (by norm_num) (by norm_num) (by norm_num) (by norm_num) (by norm_num))

end Klick

namespace Klick

/-- The cursor of a map of one entry of constant tempo played ad infinitum, in
machine arithmetic, after `k + 1` calls of `advance` from `locate(0)`: on beat
`k`, the frame added to `k` times. -/
theorem single_run64 (H : Host ℚ) (e : Entry ℚ) (M : ℚ) (hinf : e.bars = -1)
    (hT : e.tempo ≠ 0) (hT2 : e.tempo2 = 0 ∨ e.tempo = e.tempo2) (hbeats : 1 ≤ e.beats)
    (k : ℕ) :
    ∃ b r : Int, 0 ≤ r ∧ r < e.beats ∧ 0 ≤ b ∧ b * e.beats + r = k ∧
      (Position.advance64 H)^[k + 1] (Position.new64 H { entries := [e] } M).reset
        = { (Position.new64 H { entries := [e] } M) with
            frame := acc64 (frame_dist64 H M e 0 1) 0 k, bar := b, beat := r,
            bar_total := b, init := false } := by
  obtain ⟨b, r, hr0, hr1, hb0, _, hbr, hq⟩ := entry_run64 H
    ({ (Position.new64 H { entries := [e] } M) with init := false } : Position ℚ)
    rfl rfl rfl rfl hT hT2 hbeats k (Or.inl hinf)
  refine ⟨b, r, hr0, hr1, hb0, hbr, ?_⟩
  rw [Function.iterate_succ_apply, advance64_of_init H _ rfl]
  refine hq.trans ?_
  simp only [Position.new64, Position.reset, zero_add]
  rfl

/-- The tick of a cursor inside a map: the frame converted to `nframes_t`, the
accent of the beat, the volume of the entry. -/
theorem tick_default (p : Position ℚ) (he : p.end_ = false)
    (hp : (p.tempomap.get p.entry).pattern = []) :
    p.tick = { frame := to_nframes p.frame,
               type := if p.beat = 0 then BeatType.BEAT_EMPHASIS else BeatType.BEAT_NORMAL,
               volume := (p.tempomap.get p.entry).volume } := by
  simp [Position.tick, he, hp]

end Klick

namespace Klick

/-! ### `locate` on the scenarios in machine arithmetic -/

end Klick

namespace Klick

/-- A map of one entry of constant tempo without label is valid. -/
theorem single_const_valid {K : Type} [LinearOrderedField K] [FloorRing K] (bars : Int)
    (tempo : K) (beats denom : Int) (hbars : 1 ≤ bars ∨ bars = -1) (ht : 0 < tempo)
    (hb : 1 ≤ beats) (hd : 1 ≤ denom) :
    ({ entries := [const_entry "" bars tempo beats denom] } : TempoMap K).valid := by
  refine ⟨by simp, ?_, ?_, by
    simp only [present_labels, const_entry, List.map_cons, List.map_nil]
    decide⟩
  · intro e he
    simp only [List.mem_singleton] at he
    subst he
    exact const_entry_valid _ _ _ _ _ hbars ht hb hd
  · intro i hi
    simp [TempoMap.size] at hi

/-- One `advance` on the map `* 120` in machine arithmetic moves from the `k`-th
tick to the next: whole numbers of frames below `2^53` add without rounding. -/
theorem advance64_tick_state (k : ℕ) (hk : 24000 * (k + 1) < 2 ^ 53) :
    Position.advance64 host48k (tick_state k) = tick_state (k + 1) := by
  have hd : Position.dist_to_next64 host48k (tick_state k) = 24000 := by
    rw [dist_to_next64_const host48k _ rfl rfl
      (by norm_num [tick_state, map_inf_120, TempoMap.get, const_entry])
      (Or.inl (by simp [tick_state, map_inf_120, TempoMap.get, const_entry]))]
    exact frame_dist64_120_0_1
  have hr : rnd64 (24000 * (k : ℚ) + 24000) = 24000 * ((k + 1 : ℕ) : ℚ) := by
    have h := rnd64_nat (24000 * (k + 1)) hk
    have e : ((24000 * (k + 1) : ℕ) : ℚ) = 24000 * (k : ℚ) + 24000 := by
      push_cast
      ring
    rw [e] at h
    rw [h]
    push_cast
    ring
  by_cases h1 : (k : Int) % 4 + 1 ≥ 4
  · rw [advance64_bar host48k (tick_state k) rfl
      (by simpa [tick_state, map_inf_120, TempoMap.get, const_entry] using h1)
      (by simp [tick_state, map_inf_120, TempoMap.get, const_entry])]
    rw [hd]
    simp only [tick_state]
    have e1 : ((k + 1 : ℕ) : Int) / 4 = (k : Int) / 4 + 1 := by push_cast; omega
    have e2 : ((k + 1 : ℕ) : Int) % 4 = 0 := by push_cast; omega
    rw [e1, e2, hr]
  · rw [advance64_beat host48k (tick_state k) rfl
      (by simpa [tick_state, map_inf_120, TempoMap.get, const_entry] using h1)]
    rw [hd]
    simp only [tick_state]
    have e1 : ((k + 1 : ℕ) : Int) / 4 = (k : Int) / 4 := by push_cast; omega
    have e2 : ((k + 1 : ℕ) : Int) % 4 = (k : Int) % 4 + 1 := by push_cast; omega
    rw [e1, e2, hr]

/-- The cursor of the map `* 120` in machine arithmetic after `k + 1` calls of
`advance` from `locate(0)`, while the frame is below `2^53`. -/
theorem iterate_tick_state64 (k : ℕ) (hk : 24000 * k < 2 ^ 53) :
    (Position.advance64 host48k)^[k + 1]
        (Position.new64 host48k (map_inf_120 : TempoMap ℚ) 1).reset
      = tick_state k := by
  induction k with
  | zero =>
    simp only [Function.iterate_succ, Function.iterate_zero, Function.comp_apply, id_eq]
    rw [advance64_of_init _ _ rfl]
    simp [tick_state, Position.new64, Position.reset, start_frames_loop64, start_bars_loop,
      map_inf_120, const_entry]
  | succ n ih =>
    rw [Function.iterate_succ_apply', ih (by omega), advance64_tick_state n hk]

/-- The tick of the cursor of the map `* 120` on its `k`-th tick: the frame
`24000 * k` converted to the 32 bits of `nframes_t`. -/
theorem tick_of_tick_state (k : ℕ) :
    (tick_state k).tick
      = { frame := (24000 * k) % 2 ^ 32,
          type := if k % 4 = 0 then BeatType.BEAT_EMPHASIS else BeatType.BEAT_NORMAL,
          volume := 1 } := by
  have hfl : to_nframes (24000 * (k : ℚ)) = (24000 * k) % 2 ^ 32 := by
    have : (24000 * (k : ℚ)) = ((24000 * k : ℕ) : ℚ) := by push_cast; ring
    rw [this]
    unfold to_nframes
    rw [Nat.floor_natCast]
  have hk : ((k : Int) % 4 = 0) ↔ (k % 4 = 0) := by omega
  simp only [Position.tick, tick_state, map_inf_120, TempoMap.get, const_entry,
    List.getD_cons_zero, Bool.false_eq_true, if_false, List.isEmpty_nil, if_true, hfl, hk]

end Klick

namespace Klick

/-- A step of `advance` in machine arithmetic and a step in exact arithmetic,
from cursors with the same discrete members, give the same discrete members. -/
theorem advance64_discrete (H : Host ℚ) (p q : Position ℚ) (h : p.discrete = q.discrete) :
    (p.advance64 H).discrete = (q.advance H).discrete := by
  have h1 : (p.advance64 H).discrete = (p.advance H).discrete := by
    have h0 := congrArg Position.discrete (advance64_members H p)
    exact h0
  have h2 : (p.advance H).discrete = (p.discrete.advance H).discrete :=
    (advance_members H p 0 []).symm
  have h3 : (q.advance H).discrete = (q.discrete.advance H).discrete :=
    (advance_members H q 0 []).symm
  rw [h1, h2, h3, h]

/-- Any number of steps of `advance` in machine arithmetic and in exact
arithmetic, from cursors with the same discrete members, give the same discrete
members. -/
theorem iterate_advance64_discrete (H : Host ℚ) (k : ℕ) (p q : Position ℚ)
    (h : p.discrete = q.discrete) :
    ((Position.advance64 H)^[k] p).discrete = ((Position.advance H)^[k] q).discrete := by
  induction k with
  | zero => exact h
  | succ i ih =>
    rw [Function.iterate_succ_apply', Function.iterate_succ_apply']
    exact advance64_discrete H _ _ ih

/-- The type and volume of the tick and the total bar count are read from the
discrete members. -/
theorem tick_of_discrete (p q : Position ℚ) (h : p.discrete = q.discrete) :
    p.bar_total = q.bar_total ∧ p.tick.type = q.tick.type ∧ p.tick.volume = q.tick.volume := by
  have key : ∀ r : Position ℚ, r.discrete.tick.type = r.tick.type
      ∧ r.discrete.tick.volume = r.tick.volume := by
    intro r
    simp only [Position.tick, Position.discrete]
    split_ifs <;> exact ⟨rfl, rfl⟩
  have h1 : p.discrete.bar_total = q.discrete.bar_total := by rw [h]
  have h2 : p.discrete.tick.type = q.discrete.tick.type := by rw [h]
  have h3 : p.discrete.tick.volume = q.discrete.tick.volume := by rw [h]
  rw [(key p).1, (key q).1] at h2
  rw [(key p).2, (key q).2] at h3
  exact ⟨h1, h2, h3⟩

end Klick

namespace Klick
section ClaimsLocate
variable {K : Type} [LinearOrderedField K] [FloorRing K]

theorem map_inf_108_valid : (map_inf_108 : TempoMap K).valid :=
  single_const_valid _ _ _ _ (by norm_num) (by norm_num) (by norm_num) (by norm_num)

end ClaimsLocate

end Klick

namespace Klick
section ClaimsLocate2
variable {K : Type} [LinearOrderedField K] [FloorRing K]

/-- The result of `locate` in an entry of constant tempo, from the values of
its steps: the entry `i`, the beat count `n`, its split into `bar` and `beat`,
and the frame `fr` of that beat. -/
theorem locate_eval_const (H : Host K) (fuel : ℕ) (p0 : Position K) (f : ℕ) (hf0 : f ≠ 0)
    (i : ℕ) (hub : upper_bound p0.start_frames (f : K) - 1 = i) (hne : i ≠ p0.tempomap.size)
    (hT : (p0.tempomap.get i).tempo ≠ 0) (hT2 : (p0.tempomap.get i).tempo2 = 0)
    (n bar beat : Int) (fr : K)
    (hn : to_int (((f : K) - p0.start_frames.getD i 0) / (H.samplerate : K) * p0.multiplier
      / 240 * (p0.tempomap.get i).tempo * ((p0.tempomap.get i).denom : K)) = n)
    (hbar : n.tdiv (p0.tempomap.get i).beats = bar)
    (hbeat : n.tmod (p0.tempomap.get i).beats = beat)
    (hfr : p0.start_frames.getD i 0
      + frame_dist H p0.multiplier (p0.tempomap.get i) 0 (bar * (p0.tempomap.get i).beats + beat)
      = fr) :
    p0.locate H fuel f
      = some { p0.reset with entry := i, bar := bar, beat := beat, frame := fr,
                             bar_total := p0.start_bars.getD i 0 + bar,
                             init := decide (fr = (f : K)) } := by
  subst hn
  subst hbar
  subst hbeat
  subst hfr
  rw [locate_unfold H fuel p0 f hf0 (by rw [hub]; exact hne)]
  simp only [hub]
  rw [if_pos ⟨hT, hT2⟩]
  rfl

theorem upper_bound_768000 : upper_bound [(0 : ℚ), 768000, 1152000] ((768000 : ℕ) : ℚ) = 2 := by
  norm_num [upper_bound, List.findIdx_cons]

theorem upper_bound_768001 : upper_bound [(0 : ℚ), 768000, 1152000] ((768001 : ℕ) : ℚ) = 2 := by
  norm_num [upper_bound, List.findIdx_cons]

theorem upper_bound_1152000 :
    upper_bound [(0 : ℚ), 768000, 1152000] ((1152000 : ℕ) : ℚ) = 3 := by
  norm_num [upper_bound, List.findIdx_cons]

/-- The cursor after `locate(768000)` on the map `4 4/4 60`, `4 4/4 120`. -/
theorem locate_768000 (fuel : ℕ) :
    (Position.new host48k (map_60_120 : TempoMap ℚ) 1).locate host48k fuel 768000
      = some { (Position.new host48k (map_60_120 : TempoMap ℚ) 1) with
                 entry := 1, bar := 0, beat := 0, frame := 768000, bar_total := 4,
                 init := true } := by
  have hsf := map_60_120_frames host48k rfl
  have hub := upper_bound_768000
  rw [← hsf] at hub
  rw [locate_eval_const host48k fuel _ 768000 (by norm_num) 1 (by rw [hub])
    (by simp [Position.new, Position.reset, TempoMap.size, map_60_120])
    (by simp [Position.new, Position.reset, TempoMap.get, map_60_120, const_entry])
    (by simp [Position.new, Position.reset, TempoMap.get, map_60_120, const_entry])
    0 0 0 768000
    (by
      rw [hsf]
      apply to_int_eq <;>
        norm_num [Position.new, Position.reset, TempoMap.get, map_60_120, const_entry, host48k])
    (by simp [Position.new, Position.reset, TempoMap.get, map_60_120, const_entry, Int.tdiv])
    (by simp [Position.new, Position.reset, TempoMap.get, map_60_120, const_entry, Int.tmod])
    (by rw [hsf]; simp [frame_dist])]
  simp [Position.new, Position.reset, start_bars_loop, map_60_120, const_entry]

/-- The cursor after `locate(768001)` on the map `4 4/4 60`, `4 4/4 120`. -/
theorem locate_768001 (fuel : ℕ) :
    (Position.new host48k (map_60_120 : TempoMap ℚ) 1).locate host48k fuel 768001
      = some { (Position.new host48k (map_60_120 : TempoMap ℚ) 1) with
                 entry := 1, bar := 0, beat := 0, frame := 768000, bar_total := 4,
                 init := false } := by
  have hsf := map_60_120_frames host48k rfl
  have hub := upper_bound_768001
  rw [← hsf] at hub
  rw [locate_eval_const host48k fuel _ 768001 (by norm_num) 1 (by rw [hub])
    (by simp [Position.new, Position.reset, TempoMap.size, map_60_120])
    (by simp [Position.new, Position.reset, TempoMap.get, map_60_120, const_entry])
    (by simp [Position.new, Position.reset, TempoMap.get, map_60_120, const_entry])
    0 0 0 768000
    (by
      rw [hsf]
      apply to_int_eq <;>
        norm_num [Position.new, Position.reset, TempoMap.get, map_60_120, const_entry, host48k])
    (by simp [Position.new, Position.reset, TempoMap.get, map_60_120, const_entry, Int.tdiv])
    (by simp [Position.new, Position.reset, TempoMap.get, map_60_120, const_entry, Int.tmod])
    (by rw [hsf]; simp [frame_dist])]
  simp [Position.new, Position.reset, start_bars_loop, map_60_120, const_entry]

end ClaimsLocate2
end Klick

namespace Klick
section ClaimsLocate3
variable {K : Type} [LinearOrderedField K] [FloorRing K]

/-- C2 (amended). On the map `4 4/4 60`, `4 4/4 120` at 48000 Hz, multiplier 1,
frame 768000 is the first frame of the second entry: `locate(768000)` leaves the
cursor at entry=1, bar=0, beat=0 with `init` set, and `locate(768001)` leaves it
at entry=1, bar=0, beat=0 with `init` clear, whatever the fuel. -/
theorem locate_entry_boundary (fuel : ℕ) :
    (∃ q, (Position.new host48k (map_60_120 : TempoMap ℚ) 1).locate host48k fuel 768000 = some q ∧
      q.entry = 1 ∧ q.bar = 0 ∧ q.beat = 0 ∧ q.init = true ∧ q.frame = 768000) ∧
    (∃ q, (Position.new host48k (map_60_120 : TempoMap ℚ) 1).locate host48k fuel 768001 = some q ∧
      q.entry = 1 ∧ q.bar = 0 ∧ q.beat = 0 ∧ q.init = false ∧ q.frame = 768000) :=
  ⟨⟨_, locate_768000 fuel, rfl, rfl, rfl, rfl, rfl⟩,
   ⟨_, locate_768001 fuel, rfl, rfl, rfl, rfl, rfl⟩⟩

/-- C2, as stated, fails: after `locate(768000)` the cursor is at entry=1, bar=0,
beat=0, not at entry=0, bar=3, beat=0. -/
theorem locate_entry_boundary_counterexample :
    ∃ q, (Position.new host48k (map_60_120 : TempoMap ℚ) 1).locate host48k 0 768000 = some q ∧
      q.entry = 1 ∧ q.bar = 0 ∧ q.beat = 0 ∧ ¬ (q.entry = 0 ∧ q.bar = 3 ∧ q.beat = 0) :=
  ⟨_, locate_768000 0, rfl, rfl, rfl, by simp⟩

/-- The cursor after `locate(100000)` on the map `* 4/4 120-120`. -/
theorem locate_120_120 :
    (Position.new host48k (map_inf_120_120 : TempoMap ℚ) 1).locate host48k 1 100000
      = some { (Position.new host48k (map_inf_120_120 : TempoMap ℚ) 1) with
                 bar_total := 0, init := false } := by
  have hsf : (Position.new host48k (map_inf_120_120 : TempoMap ℚ) 1).start_frames
      = [0, float_frames_max] := by
    simp [Position.new, Position.reset, start_frames_loop, map_inf_120_120]
  have hub : upper_bound (Position.new host48k (map_inf_120_120 : TempoMap ℚ) 1).start_frames
      ((100000 : ℕ) : ℚ) = 1 := by
    rw [hsf]
    exact upper_bound_two _ _ _ (by norm_num) (by norm_num [float_frames_max])
  rw [locate_unfold _ _ _ _ (by norm_num)
    (by rw [hub]; simp [Position.new, Position.reset, TempoMap.size, map_inf_120_120])]
  simp only [hub]
  simp [Position.new, Position.reset, map_inf_120_120, TempoMap.get, locate_ramp, ramp_search,
    start_frames_loop, start_bars_loop, frame_dist, Int.tdiv, Int.tmod]

end ClaimsLocate3

end Klick

namespace Klick
section ClaimsAdvance
variable {K : Type} [LinearOrderedField K] [FloorRing K]

/-- The distance to the next tick scales with `frame_dist`. -/
theorem dist_to_next_rescale (H H1 : Host K) (M c : K) (sf : List K) (sb : List Int)
    (p : Position K) (hne : p.end_ = false)
    (hd : ∀ (e : Entry K) (a b : Int),
      frame_dist H1 M e a b = c * frame_dist H p.multiplier e a b) :
    Position.dist_to_next H1 (p.rescale M c sf sb) = c * p.dist_to_next H := by
  unfold Position.dist_to_next Position.rescale
  by_cases hi : p.init = true
  · simp [hi]
  · simp only [hi, hne, if_false, Bool.false_eq_true]
    exact hd _ _ _

/-- One `advance` commutes with the change of multiplier or samplerate. -/
theorem advance_rescale (H H1 : Host K) (M c : K) (sf : List K) (sb : List Int)
    (p : Position K) (hne : p.end_ = false)
    (hd : ∀ (e : Entry K) (a b : Int),
      frame_dist H1 M e a b = c * frame_dist H p.multiplier e a b) :
    Position.advance H1 (p.rescale M c sf sb) = (p.advance H).rescale M c sf sb := by
  have hdist := dist_to_next_rescale H H1 M c sf sb p hne hd
  by_cases hi : p.init = true
  · rw [advance_of_init H p hi, advance_of_init H1 _ (by exact hi)]
    rfl
  have hi : p.init = false := by simpa using hi
  by_cases h1 : p.beat + 1 ≥ (p.tempomap.get p.entry).beats
  · by_cases h2 : p.bar + 1 ≥ (p.tempomap.get p.entry).bars ∧ (p.tempomap.get p.entry).bars ≠ -1
    · by_cases h3 : p.entry + 1 ≥ p.tempomap.size
      · rw [advance_end H p hi h1 h2 h3,
          advance_end H1 (p.rescale M c sf sb) (by exact hi) (by exact h1) (by exact h2)
            (by exact h3), hdist]
        simp only [Position.rescale, mul_add]
      · rw [advance_entry H p hi h1 h2 h3,
          advance_entry H1 (p.rescale M c sf sb) (by exact hi) (by exact h1) (by exact h2)
            (by exact h3), hdist]
        simp only [Position.rescale, mul_add]
    · rw [advance_bar H p hi h1 h2,
        advance_bar H1 (p.rescale M c sf sb) (by exact hi) (by exact h1) (by exact h2), hdist]
      simp only [Position.rescale, mul_add]
  · rw [advance_beat H p hi h1,
      advance_beat H1 (p.rescale M c sf sb) (by exact hi) (by exact h1), hdist]
    simp only [Position.rescale, mul_add]

/-- Any number of `advance`s before the end commutes with the change of
multiplier or samplerate. -/
theorem iterate_advance_rescale (H H1 : Host K) (M c : K) (sf : List K) (sb : List Int)
    (p : Position K)
    (hd : ∀ (e : Entry K) (a b : Int),
      frame_dist H1 M e a b = c * frame_dist H p.multiplier e a b)
    (k : ℕ) (hne : ∀ j, j < k → ((Position.advance H)^[j] p).end_ = false) :
    (Position.advance H1)^[k] (p.rescale M c sf sb)
      = ((Position.advance H)^[k] p).rescale M c sf sb := by
  induction k with
  | zero => rfl
  | succ n ih =>
    rw [Function.iterate_succ_apply', Function.iterate_succ_apply',
      ih (fun j hj => hne j (by omega))]
    apply advance_rescale H H1 M c sf sb _ (hne n (by omega))
    rw [iterate_advance_multiplier]
    exact hd

/-- C7. Scaling: for every entry and beat indices, `frame_dist` with multiplier
`2 * M` is half of `frame_dist` with `M`, and `frame_dist` at samplerate `2 * S`
is twice `frame_dist` at `S`; hence the same holds for `dist_to_next()`, the
distance between consecutive ticks, of every cursor not at the end, and for the
frame of the cursor after any number of `advance`s from the start of a map, as
long as `end` has not been set. -/
theorem frame_dist_scaling (H : Host K) (M : K) (e : Entry K) (a b : Int) :
    frame_dist H (2 * M) e a b = frame_dist H M e a b / 2 ∧
    frame_dist { H with samplerate := 2 * H.samplerate } M e a b = 2 * frame_dist H M e a b ∧
    (∀ p : Position K, p.end_ = false →
      Position.dist_to_next H { p with multiplier := 2 * p.multiplier } = p.dist_to_next H / 2 ∧
      Position.dist_to_next { H with samplerate := 2 * H.samplerate } p
        = 2 * p.dist_to_next H) ∧
    (∀ (m : TempoMap K) (k : ℕ),
      (∀ j, j < k → ((Position.advance H)^[j] (Position.new H m M)).end_ = false) →
      ((Position.advance H)^[k] (Position.new H m (2 * M))).frame
        = ((Position.advance H)^[k] (Position.new H m M)).frame / 2 ∧
      ((Position.advance { H with samplerate := 2 * H.samplerate })^[k]
          (Position.new { H with samplerate := 2 * H.samplerate } m M)).frame
        = 2 * ((Position.advance H)^[k] (Position.new H m M)).frame) := by
  have hM : ∀ (M : K) (e : Entry K) (a b : Int),
      frame_dist H (2 * M) e a b = frame_dist H M e a b / 2 := by
    intro M e a b
    unfold frame_dist
    by_cases hab : a = b
    · simp [hab]
    · simp only [if_neg hab]
      ring
  have hS : ∀ (M : K) (e : Entry K) (a b : Int),
      frame_dist { H with samplerate := 2 * H.samplerate } M e a b
        = 2 * frame_dist H M e a b := by
    intro M e a b
    unfold frame_dist
    by_cases hab : a = b
    · simp [hab]
    · simp only [if_neg hab]
      push_cast
      ring
  refine ⟨hM M e a b, hS M e a b, ?_, ?_⟩
  · intro p hend
    unfold Position.dist_to_next
    by_cases hi : p.init = true
    · simp [hi]
    · simp only [hi, hend, if_false, Bool.false_eq_true]
      exact ⟨hM _ _ _ _, hS _ _ _ _⟩
  · intro m k hne
    have e1 : Position.new H m (2 * M)
        = (Position.new H m M).rescale (2 * M) (1 / 2)
            (start_frames_loop H (2 * M) m.entries 0) (start_bars_loop m.entries 0) := by
      simp [Position.new, Position.reset, Position.rescale]
    have e2 : Position.new { H with samplerate := 2 * H.samplerate } m M
        = (Position.new H m M).rescale M 2
            (start_frames_loop { H with samplerate := 2 * H.samplerate } M m.entries 0)
            (start_bars_loop m.entries 0) := by
      simp [Position.new, Position.reset, Position.rescale]
    rw [e1, e2,
      iterate_advance_rescale H H (2 * M) (1 / 2) _ _ (Position.new H m M)
        (fun e a b => by rw [hM]; show _ = 1 / 2 * frame_dist H M e a b; ring) k hne,
      iterate_advance_rescale H { H with samplerate := 2 * H.samplerate } M 2 _ _
        (Position.new H m M) (fun e a b => hS M e a b) k hne]
    simp only [Position.rescale]
    constructor
    · ring
    · trivial

end ClaimsAdvance
end Klick

namespace Klick
section ClaimsTables
variable {K : Type} [LinearOrderedField K] [FloorRing K]

/-- The time of a linear ramp as an integral over the beat index. -/
theorem ramp_integral (T1 T2 N D : ℝ) (hT1 : 0 < T1) (hT2 : 0 < T2) (hne : T1 ≠ T2)
    (hN : 0 < N) :
    ∫ k in (0 : ℝ)..N, 240 / ((T1 + (T2 - T1) * k / N) * D)
      = 240 / D * (N / (T2 - T1) * (Real.log T2 - Real.log T1)) := by
  have htd : T2 - T1 ≠ 0 := sub_ne_zero.mpr (Ne.symm hne)
  have hc : (T2 - T1) / N ≠ 0 := div_ne_zero htd hN.ne'
  have hfun : (fun k : ℝ => 240 / ((T1 + (T2 - T1) * k / N) * D))
      = fun k : ℝ => 240 / D * (fun x : ℝ => x⁻¹) (T1 + (T2 - T1) / N * k) := by
    funext k
    simp only []
    have : T1 + (T2 - T1) * k / N = T1 + (T2 - T1) / N * k := by ring
    rw [this, div_eq_mul_inv, mul_inv, div_eq_mul_inv]
    ring
  rw [hfun, intervalIntegral.integral_const_mul,
    intervalIntegral.integral_comp_add_mul (fun x : ℝ => x⁻¹) hc T1]
  have h0 : T1 + (T2 - T1) / N * 0 = T1 := by ring
  have h1 : T1 + (T2 - T1) / N * N = T2 := by
    field_simp
  rw [h0, h1, integral_inv_of_pos hT1 hT2, Real.log_div hT2.ne' hT1.ne', smul_eq_mul, inv_div]

/-- C4. Ramp endpoints: for every linear-ramp entry with positive tempi
`T1 ≠ T2` and `N = bars * beats ≥ 1` beats, over the reals with the real
logarithm, `frame_dist(e, 0, N)` equals the integral from 0 to `N` of
`240 / (T(k) * D)` times `S / M`, where `T(k) = T1 + (T2 - T1) * k / N`: the
logarithmic-mean formula of `frame_dist` is exact for a tempo linear in the beat
index. -/
theorem ramp_endpoints (S : ℕ) (M : ℝ) (e : Entry ℝ) (hT1 : 0 < e.tempo) (hT2 : 0 < e.tempo2)
    (hne : e.tempo ≠ e.tempo2) (hN : 0 < e.bars * e.beats) :
    frame_dist { samplerate := S, log := Real.log } M e 0 (e.bars * e.beats)
      = (∫ k in (0 : ℝ)..((e.bars * e.beats : Int) : ℝ),
            240 / ((e.tempo + (e.tempo2 - e.tempo) * k / ((e.bars * e.beats : Int) : ℝ))
              * (e.denom : ℝ)))
          * (S : ℝ) / M := by
  have hNR : (0 : ℝ) < ((e.bars * e.beats : Int) : ℝ) := by exact_mod_cast hN
  rw [ramp_integral e.tempo e.tempo2 _ (e.denom : ℝ) hT1 hT2 hne hNR]
  have h0 : (0 : Int) ≠ e.bars * e.beats := hN.ne
  have h1 : ¬ ((e.tempo ≠ 0 ∧ e.tempo2 = 0) ∨ (e.tempo ≠ 0 ∧ e.tempo = e.tempo2)) := by
    rintro (h | h)
    · exact hT2.ne' h.2
    · exact hne h.2
  have h2 : e.tempo ≠ 0 ∧ e.tempo2 ≠ 0 := ⟨hT1.ne', hT2.ne'⟩
  have hlog : Real.log e.tempo - Real.log e.tempo2 ≠ 0 := by
    intro h
    exact hne (Real.log_injOn_pos hT1 hT2 (sub_eq_zero.mp h))
  have htd : e.tempo2 - e.tempo ≠ 0 := sub_ne_zero.mpr (Ne.symm hne)
  have htd' : e.tempo - e.tempo2 ≠ 0 := sub_ne_zero.mpr hne
  unfold frame_dist
  simp only [if_neg h0, if_neg h1, if_pos h2]
  set N : ℝ := ((e.bars * e.beats : Int) : ℝ) with hNdef
  have ht1 : e.tempo + (e.tempo2 - e.tempo) * (((0 : Int) : ℝ) / N) = e.tempo := by
    simp
  have ht2 : e.tempo + (e.tempo2 - e.tempo) * (N / N) = e.tempo2 := by
    rw [div_self hNR.ne']
    ring
  rw [ht1, ht2]
  have hsub : (((e.bars * e.beats - 0 : Int)) : ℝ) = N := by
    rw [sub_zero]
  rw [hsub]
  congr 1
  congr 1
  by_cases hD : (e.denom : ℝ) = 0
  · simp [hD]
  · field_simp
    ring

/-- C4, an instance: the entry `2 4/4 60-120` at 48000 Hz and multiplier 1. -/
theorem ramp_endpoints_witness :
    frame_dist { samplerate := 48000, log := Real.log } 1 (ramp_60_120 : Entry ℝ) 0
        ((ramp_60_120 : Entry ℝ).bars * (ramp_60_120 : Entry ℝ).beats)
      = (∫ k in (0 : ℝ)..(((ramp_60_120 : Entry ℝ).bars * (ramp_60_120 : Entry ℝ).beats : Int) : ℝ),
            240 / (((ramp_60_120 : Entry ℝ).tempo
                + ((ramp_60_120 : Entry ℝ).tempo2 - (ramp_60_120 : Entry ℝ).tempo) * k
                  / (((ramp_60_120 : Entry ℝ).bars * (ramp_60_120 : Entry ℝ).beats : Int) : ℝ))
              * ((ramp_60_120 : Entry ℝ).denom : ℝ)))
          * ((48000 : ℕ) : ℝ) / 1 :=
  ramp_endpoints 48000 1 ramp_60_120 (by norm_num [ramp_60_120]) (by norm_num [ramp_60_120])
    (by norm_num [ramp_60_120]) (by norm_num [ramp_60_120])

end ClaimsTables
end Klick

namespace Klick
section ClaimsTables2
variable {K : Type} [LinearOrderedField K] [FloorRing K]

/-- C5. Start tables: for every map of `N` entries the constructor produces
`start_frames` and `start_bars` of length `N + 1` that start with 0; for every
entry `i` with finite bars the next values are
`start_frames[i] + frame_dist(entry_i, 0, bars_i * beats_i)` and
`start_bars[i] + bars_i`; an entry with `bars = ∞` makes the next values the
maximum frame value and the maximum `int`, and so, in a map in which only the
last entry may be infinite, it makes every later table value infinite; for
`4 4/4 60`, `4 4/4 120` at `S = 48000`, `M = 1` the tables of frames are
0, 768000 and the total duration 1152000. -/
theorem start_tables (H : Host K) (m : TempoMap K) (M : K) :
    (Position.new H m M).start_frames.length = m.size + 1 ∧
    (Position.new H m M).start_bars.length = m.size + 1 ∧
    (Position.new H m M).start_frames.head? = some 0 ∧
    (Position.new H m M).start_bars.head? = some 0 ∧
    (∀ i, i < m.size → (m.get i).bars ≠ -1 →
      (Position.new H m M).start_frames.getD (i + 1) 0
        = (Position.new H m M).start_frames.getD i 0
          + frame_dist H M (m.get i) 0 ((m.get i).bars * (m.get i).beats) ∧
      (Position.new H m M).start_bars.getD (i + 1) 0
        = (Position.new H m M).start_bars.getD i 0 + (m.get i).bars) ∧
    (∀ i, i < m.size → (m.get i).bars = -1 →
      (Position.new H m M).start_frames.getD (i + 1) 0 = float_frames_max ∧
      (Position.new H m M).start_bars.getD (i + 1) 0 = int_max) ∧
    ((∀ i, i + 1 < m.size → (m.get i).bars ≠ -1) →
      ∀ i, i < m.size → (m.get i).bars = -1 → ∀ j, i < j → j ≤ m.size →
        (Position.new H m M).start_frames.getD j 0 = float_frames_max ∧
        (Position.new H m M).start_bars.getD j 0 = int_max) ∧
    (H.samplerate = 48000 →
      (Position.new H (map_60_120 : TempoMap K) 1).start_frames = [0, 768000, 1152000] ∧
      (Position.new H (map_60_120 : TempoMap K) 1).start_frames.getD
        (map_60_120 : TempoMap K).size 0 = 1152000) := by
  have hget : ∀ i, m.entries.getD i Entry.zero = m.get i := fun _ => rfl
  have hfin : ∀ i, i < m.size → (m.get i).bars ≠ -1 →
      (Position.new H m M).start_frames.getD (i + 1) 0
        = (Position.new H m M).start_frames.getD i 0
          + frame_dist H M (m.get i) 0 ((m.get i).bars * (m.get i).beats) ∧
      (Position.new H m M).start_bars.getD (i + 1) 0
        = (Position.new H m M).start_bars.getD i 0 + (m.get i).bars := by
    intro i hi hb
    rw [new_start_frames, new_start_bars, start_frames_loop_succ H M _ _ i hi,
      start_bars_loop_succ _ _ i hi, hget, if_pos hb, if_pos hb]
    exact ⟨rfl, rfl⟩
  have hinf : ∀ i, i < m.size → (m.get i).bars = -1 →
      (Position.new H m M).start_frames.getD (i + 1) 0 = float_frames_max ∧
      (Position.new H m M).start_bars.getD (i + 1) 0 = int_max := by
    intro i hi hb
    have hb' : ¬ ((m.get i).bars ≠ -1) := fun h => h hb
    rw [new_start_frames, new_start_bars, start_frames_loop_succ H M _ _ i hi,
      start_bars_loop_succ _ _ i hi, hget, if_neg hb', if_neg hb']
    exact ⟨rfl, rfl⟩
  refine ⟨?_, ?_, ?_, ?_, hfin, hinf, ?_, ?_⟩
  · rw [new_start_frames, start_frames_loop_length]
    rfl
  · rw [new_start_bars, start_bars_loop_length]
    rfl
  · rw [new_start_frames]
    cases m.entries <;> rfl
  · rw [new_start_bars]
    cases m.entries <;> rfl
  · intro hlast i hi hb j hij hj
    have hi' : i + 1 = m.size := by
      by_contra hne
      exact hlast i (by omega) hb
    have hj' : j = i + 1 := by omega
    rw [hj']
    exact hinf i hi hb
  · intro hS
    have h := map_60_120_frames H hS
    rw [h]
    exact ⟨rfl, by simp [TempoMap.size, map_60_120]⟩

end ClaimsTables2

section ClaimsTicks

/-- One `advance` on the map `* 120` moves from the `k`-th tick to the next. -/
theorem advance_tick_state (k : ℕ) :
    Position.advance host48k (tick_state k) = tick_state (k + 1) := by
  have hd : Position.dist_to_next host48k (tick_state k) = 24000 := by
    have hne : ¬ ((k : Int) / 4 * 4 + (k : Int) % 4
        = (k : Int) / 4 * 4 + (k : Int) % 4 + 1) := by omega
    simp only [Position.dist_to_next, tick_state, map_inf_120, TempoMap.get, const_entry,
      frame_dist, host48k, List.getD_cons_zero, Bool.false_eq_true, if_false, if_neg hne]
    norm_num
  by_cases h1 : (k : Int) % 4 + 1 ≥ 4
  · rw [advance_bar host48k (tick_state k) rfl
      (by simpa [tick_state, map_inf_120, TempoMap.get, const_entry] using h1)
      (by simp [tick_state, map_inf_120, TempoMap.get, const_entry])]
    rw [hd]
    simp only [tick_state]
    have e1 : ((k + 1 : ℕ) : Int) / 4 = (k : Int) / 4 + 1 := by push_cast; omega
    have e2 : ((k + 1 : ℕ) : Int) % 4 = 0 := by push_cast; omega
    rw [e1, e2]
    congr 1
    push_cast
    ring
  · rw [advance_beat host48k (tick_state k) rfl
      (by simpa [tick_state, map_inf_120, TempoMap.get, const_entry] using h1)]
    rw [hd]
    simp only [tick_state]
    have e1 : ((k + 1 : ℕ) : Int) / 4 = (k : Int) / 4 := by push_cast; omega
    have e2 : ((k + 1 : ℕ) : Int) % 4 = (k : Int) % 4 + 1 := by push_cast; omega
    rw [e1, e2]
    congr 1
    push_cast
    ring

/-- The cursor of the map `* 120` after `k + 1` calls of `advance` from `locate(0)`. -/
theorem iterate_tick_state (k : ℕ) :
    (Position.advance host48k)^[k + 1] (Position.new host48k (map_inf_120 : TempoMap ℚ) 1).reset
      = tick_state k := by
  induction k with
  | zero =>
    simp only [Function.iterate_succ, Function.iterate_zero, Function.comp_apply, id_eq]
    rw [advance_of_init _ _ rfl]
    simp [tick_state, Position.new, Position.reset, start_frames_loop, start_bars_loop,
      map_inf_120, const_entry]
  | succ n ih =>
    rw [Function.iterate_succ_apply', ih, advance_tick_state]

/-- C8 (amended). For the map `* 120` (bars = ∞, meter 4/4, default pattern,
volume 1) with `S = 48000`, `M = 1`, in the arithmetic of the machine, for every
`k` below `2^33` the `k`-th tick obtained from `locate(0)` by repeated `advance`
(the tick after `k + 1` calls, the first of which only clears `init`) has volume
1 and type EMPHASIS when `k` is a multiple of 4 and NORMAL otherwise, never
SILENT, and the cursor is at frame `24000 * k`, not at the end (below `2^33`
the bar counters fit `int` and the frames add without rounding); the frame of the
tick is `24000 * k` as long as `24000 * k < 2^32`, and from there on
`24000 * k` reduced modulo `2^32`, the 32 bits of `nframes_t`. -/
theorem ticks_of_inf_120 (fuel k : ℕ) (hk : k < 2 ^ 33) :
    ∃ p0, (Position.new64 host48k (map_inf_120 : TempoMap ℚ) 1).locate64 host48k fuel 0
        = some p0 ∧
      p0.tick = { frame := 0, type := BeatType.BEAT_EMPHASIS, volume := 1 } ∧
      ((Position.advance64 host48k)^[k + 1] p0).tick
        = { frame := (24000 * k) % 2 ^ 32,
            type := if k % 4 = 0 then BeatType.BEAT_EMPHASIS else BeatType.BEAT_NORMAL,
            volume := 1 } ∧
      (24000 * k < 2 ^ 32 → ((Position.advance64 host48k)^[k + 1] p0).tick.frame = 24000 * k) ∧
      ((Position.advance64 host48k)^[k + 1] p0).frame = 24000 * (k : ℚ) ∧
      ((Position.advance64 host48k)^[k + 1] p0).end_ = false ∧
      ((Position.advance64 host48k)^[k + 1] p0).tick.type ≠ BeatType.BEAT_SILENT := by
  refine ⟨_, locate64_zero _ _ _, ?_, ?_⟩
  · simp [Position.tick, Position.new64, Position.reset, map_inf_120, TempoMap.get, const_entry,
      to_nframes]
  have h53 : 24000 * k < 2 ^ 53 := by
    have : 24000 * k < 24000 * 2 ^ 33 := by omega
    calc 24000 * k < 24000 * 2 ^ 33 := this
      _ < 2 ^ 53 := by norm_num
  rw [iterate_tick_state64 k h53]
  have ht := tick_of_tick_state k
  refine ⟨ht, ?_, rfl, rfl, ?_⟩
  · intro h32
    rw [ht]
    exact Nat.mod_eq_of_lt h32
  · rw [ht]
    show (if k % 4 = 0 then BeatType.BEAT_EMPHASIS else BeatType.BEAT_NORMAL)
      ≠ BeatType.BEAT_SILENT
    split_ifs <;> decide

/-- C8, an instance: the tick 5 of the map `* 120`. -/
theorem ticks_of_inf_120_witness :
    5 < 2 ^ 33 ∧
    ∃ p0, (Position.new64 host48k (map_inf_120 : TempoMap ℚ) 1).locate64 host48k 0 0
        = some p0 ∧
      p0.tick = { frame := 0, type := BeatType.BEAT_EMPHASIS, volume := 1 } ∧
      ((Position.advance64 host48k)^[5 + 1] p0).tick
        = { frame := (24000 * 5) % 2 ^ 32,
            type := if 5 % 4 = 0 then BeatType.BEAT_EMPHASIS else BeatType.BEAT_NORMAL,
            volume := 1 } ∧
      (24000 * 5 < 2 ^ 32 → ((Position.advance64 host48k)^[5 + 1] p0).tick.frame = 24000 * 5) ∧
      ((Position.advance64 host48k)^[5 + 1] p0).frame = 24000 * ((5 : ℕ) : ℚ) ∧
      ((Position.advance64 host48k)^[5 + 1] p0).end_ = false ∧
      ((Position.advance64 host48k)^[5 + 1] p0).tick.type ≠ BeatType.BEAT_SILENT :=
  ⟨by norm_num, ticks_of_inf_120 0 5 (by norm_num)⟩

/-- C8, as stated, fails from the tick 178957 on, whose cursor is at frame
4294968000, beyond the 32 bits of `nframes_t`: in the arithmetic of the machine
the tick read after 178958 calls of `advance` from `locate(0)` is at frame 704,
not at `24000 * 178957`. -/
theorem ticks_of_inf_120_counterexample :
    ∃ p0, (Position.new64 host48k (map_inf_120 : TempoMap ℚ) 1).locate64 host48k 0 0
        = some p0 ∧
      ((Position.advance64 host48k)^[178957 + 1] p0).frame = 4294968000 ∧
      ((Position.advance64 host48k)^[178957 + 1] p0).tick.frame = 704 ∧
      ¬ (((Position.advance64 host48k)^[178957 + 1] p0).tick.frame = 24000 * 178957) := by
  refine ⟨_, locate64_zero _ _ _, ?_⟩
  rw [iterate_tick_state64 178957 (by norm_num), tick_of_tick_state 178957]
  refine ⟨?_, ?_, ?_⟩
  · norm_num [tick_state]
  · norm_num
  · norm_num

end ClaimsTicks
end Klick

namespace Klick
section ClaimsRebind
variable {K : Type} [LinearOrderedField K] [FloorRing K]

/-- The loop of `set_start_label` stops at the first entry that carries the label. -/
theorem skip_to_label_spec (es : List (Entry K)) (l : String) (h : ∃ e ∈ es, e.label = l) :
    ∃ i, i < es.length ∧ (es.getD i Entry.zero).label = l ∧
      (∀ j, j < i → (es.getD j Entry.zero).label ≠ l) ∧
      skip_to_label es l = some (es.drop i) := by
  induction es with
  | nil =>
    obtain ⟨e, he, _⟩ := h
    simp at he
  | cons e es ih =>
    by_cases hl : e.label = l
    · refine ⟨0, by simp, by simpa using hl, fun j hj => absurd hj (Nat.not_lt_zero j), ?_⟩
      simp [skip_to_label, hl]
    · have h' : ∃ e' ∈ es, e'.label = l := by
        obtain ⟨e', he', hl'⟩ := h
        rcases List.mem_cons.mp he' with rfl | hmem
        · exact absurd hl' hl
        · exact ⟨e', hmem, hl'⟩
      obtain ⟨i, hi, hli, hbefore, hskip⟩ := ih h'
      refine ⟨i + 1, by simpa using hi, by simpa using hli, ?_, ?_⟩
      · intro j hj
        cases j with
        | zero => simpa using hl
        | succ j' =>
          simp only [List.getD_cons_succ]
          exact hbefore j' (by omega)
      · simp [skip_to_label, hl, hskip]

/-- C9. For every map and every label `l` carried by at least one entry,
`set_start_label(l)` rebinds the tempomap to the suffix of the old entry list
that begins at the first entry whose label equals `l`: the entries before it are
dropped, the others are kept unchanged and in order. -/
theorem set_start_label_suffix (p : Position K) (l : String)
    (h : ∃ e ∈ p.tempomap.entries, e.label = l) :
    ∃ i q, p.set_start_label l = some q ∧ i < p.tempomap.size ∧
      (p.tempomap.get i).label = l ∧ (∀ j, j < i → (p.tempomap.get j).label ≠ l) ∧
      q.tempomap.entries = p.tempomap.entries.drop i := by
  obtain ⟨i, hi, hli, hbefore, hskip⟩ := skip_to_label_spec p.tempomap.entries l h
  refine ⟨i, { p with tempomap := { entries := p.tempomap.entries.drop i } }, ?_, hi, hli,
    hbefore, rfl⟩
  simp [Position.set_start_label, hskip]

/-- C9, an instance: the map `intro: 1 4/4 100`, `main: * 4/4 120` and the label `main`. -/
theorem set_start_label_suffix_witness :
    ∃ i q, (Position.new host48k (map_intro_main : TempoMap ℚ) 1).set_start_label "main" = some q ∧
      i < (Position.new host48k (map_intro_main : TempoMap ℚ) 1).tempomap.size ∧
      ((Position.new host48k (map_intro_main : TempoMap ℚ) 1).tempomap.get i).label = "main" ∧
      (∀ j, j < i →
        ((Position.new host48k (map_intro_main : TempoMap ℚ) 1).tempomap.get j).label ≠ "main") ∧
      q.tempomap.entries
        = (Position.new host48k (map_intro_main : TempoMap ℚ) 1).tempomap.entries.drop i :=
  set_start_label_suffix (Position.new host48k (map_intro_main : TempoMap ℚ) 1) "main"
    ⟨const_entry "main" (-1) 120 4 4,
      by simp [Position.new, Position.reset, map_intro_main], rfl⟩

/-- C10, the code at the failing inputs. On `intro: 1 4/4 100`, `main: * 4/4 120`
at 48000 Hz, multiplier 1, `set_start_label("main")` binds the one-entry map
`main: * 4/4 120` and leaves `start_frames` as the constructor computed it for
the old map: three values, 115200 at the index of the new size, where the
constructor would compute two values and an infinite duration; `locate(200000)`
then sets `end` on a map that never ends. Neither `set_start_label` nor
`add_preroll` touches the tables or the cursor; on `* 4/4 120`,
`add_preroll(1)` binds a two-entry map and leaves two values in `start_frames`. -/
theorem rebind_keeps_tables :
    (∃ q, (Position.new host48k (map_intro_main : TempoMap ℚ) 1).set_start_label "main" = some q ∧
      q.tempomap.entries = [const_entry "main" (-1) 120 4 4] ∧
      q.start_frames = [0, 115200, float_frames_max] ∧
      q.start_frames.length ≠ q.tempomap.size + 1 ∧
      q.start_frames.getD q.tempomap.size 0 = 115200 ∧
      (Position.new host48k q.tempomap 1).start_frames = [0, float_frames_max] ∧
      ∃ r, q.locate host48k 0 200000 = some r ∧ r.end_ = true) ∧
    (∃ q, (Position.new host48k (map_inf_120 : TempoMap ℚ) 1).add_preroll 1 = some q ∧
      q.tempomap.size = 2 ∧ q.start_frames = [0, float_frames_max] ∧
      q.start_frames.length ≠ q.tempomap.size + 1) ∧
    (∀ (p q : Position ℚ) (l : String), p.set_start_label l = some q →
      q.start_frames = p.start_frames ∧ q.start_bars = p.start_bars ∧ q.frame = p.frame ∧
      q.entry = p.entry ∧ q.bar = p.bar ∧ q.beat = p.beat ∧ q.bar_total = p.bar_total ∧
      q.init = p.init ∧ q.end_ = p.end_) ∧
    (∀ (p q : Position ℚ) (n : Int), p.add_preroll n = some q →
      q.start_frames = p.start_frames ∧ q.start_bars = p.start_bars ∧ q.frame = p.frame ∧
      q.entry = p.entry ∧ q.bar = p.bar ∧ q.beat = p.beat ∧ q.bar_total = p.bar_total ∧
      q.init = p.init ∧ q.end_ = p.end_) := by
  have hsf : (Position.new host48k (map_intro_main : TempoMap ℚ) 1).start_frames
      = [0, 115200, float_frames_max] := by
    simp [Position.new, Position.reset, start_frames_loop, map_intro_main, const_entry,
      frame_dist, host48k]
    norm_num
  have hskip : skip_to_label (map_intro_main : TempoMap ℚ).entries "main"
      = some [const_entry "main" (-1) 120 4 4] := by
    simp [skip_to_label, map_intro_main, const_entry]
  have hub : upper_bound [(0 : ℚ), 115200, float_frames_max] ((200000 : ℕ) : ℚ) = 2 := by
    norm_num [upper_bound, List.findIdx_cons, float_frames_max]
  have hloc : ∀ q : Position ℚ, q.start_frames = [0, 115200, float_frames_max] →
      q.tempomap.size = 1 → ∃ r, q.locate host48k 0 200000 = some r ∧ r.end_ = true := by
    intro q hq hsize
    simp only [Position.locate]
    rw [if_neg (by norm_num)]
    have hres : upper_bound q.reset.start_frames ((200000 : ℕ) : ℚ) = 2 := by
      show upper_bound q.start_frames _ = 2
      rw [hq]
      exact hub
    simp only [hres]
    rw [if_pos (by show 2 - 1 = q.tempomap.size; rw [hsize])]
    exact ⟨_, rfl, rfl⟩
  refine ⟨?_, ?_, ?_, ?_⟩
  · refine ⟨{ (Position.new host48k (map_intro_main : TempoMap ℚ) 1) with
        tempomap := { entries := [const_entry "main" (-1) 120 4 4] } }, ?_, rfl, hsf, ?_, ?_, ?_,
      ?_⟩
    · simp only [Position.set_start_label]
      have : (Position.new host48k (map_intro_main : TempoMap ℚ) 1).tempomap.entries
          = (map_intro_main : TempoMap ℚ).entries := rfl
      rw [this, hskip]
    · show (Position.new host48k (map_intro_main : TempoMap ℚ) 1).start_frames.length ≠ _
      rw [hsf]
      simp [TempoMap.size]
    · show (Position.new host48k (map_intro_main : TempoMap ℚ) 1).start_frames.getD _ 0 = _
      rw [hsf]
      simp [TempoMap.size]
    · simp [Position.new, Position.reset, start_frames_loop, const_entry]
    · exact hloc _ hsf rfl
  · have hj : TempoMap.join (TempoMap.new_simple 1 (120 : ℚ) 4 4 [] (66 / 100))
        (map_inf_120 : TempoMap ℚ)
        = some { entries := [{ label := "", bars := 1, tempo := 120, tempo2 := 0, tempi := [],
                               beats := 4, denom := 4, pattern := [], volume := 66 / 100 },
                             const_entry "" (-1) 120 4 4] } := by
      simp only [TempoMap.join, TempoMap.new_simple, map_inf_120, const_entry, present_labels,
        List.getLast?, List.map_cons, List.map_nil, List.cons_append, List.nil_append,
        List.getLast_singleton, Option.map_some']
      rw [if_neg (by decide), if_pos (by decide)]
    refine ⟨({ (Position.new host48k (map_inf_120 : TempoMap ℚ) 1) with
        tempomap := { entries := [({ label := "", bars := 1, tempo := 120, tempo2 := 0,
                                     tempi := [], beats := 4, denom := 4, pattern := [],
                                     volume := 66 / 100 } : Entry ℚ),
                                  const_entry "" (-1) 120 4 4] } } : Position ℚ),
      ?_, rfl, ?_, ?_⟩
    · simp only [Position.add_preroll, PREROLL_2_BEATS]
      rw [if_neg (by decide)]
      have : TempoMap.new_simple 1
            ((Position.new host48k (map_inf_120 : TempoMap ℚ) 1).tempomap.get 0).tempo
            ((Position.new host48k (map_inf_120 : TempoMap ℚ) 1).tempomap.get 0).beats
            ((Position.new host48k (map_inf_120 : TempoMap ℚ) 1).tempomap.get 0).denom
            ((Position.new host48k (map_inf_120 : TempoMap ℚ) 1).tempomap.get 0).pattern
            (66 / 100)
          = TempoMap.new_simple 1 (120 : ℚ) 4 4 [] (66 / 100) := rfl
      rw [this]
      have hm : (Position.new host48k (map_inf_120 : TempoMap ℚ) 1).tempomap
          = (map_inf_120 : TempoMap ℚ) := rfl
      rw [hm, hj]
    · simp [Position.new, Position.reset, start_frames_loop, map_inf_120, const_entry]
    · simp [Position.new, Position.reset, start_frames_loop, map_inf_120, const_entry,
        TempoMap.size]
  · intro p q l h
    simp only [Position.set_start_label] at h
    split at h
    · exact absurd h (by simp)
    · simp only [Option.some.injEq] at h
      subst h
      exact ⟨rfl, rfl, rfl, rfl, rfl, rfl, rfl, rfl, rfl⟩
  · intro p q n h
    simp only [Position.add_preroll] at h
    split at h
    · exact absurd h (by simp)
    · simp only [Option.some.injEq] at h
      subst h
      exact ⟨rfl, rfl, rfl, rfl, rfl, rfl, rfl, rfl, rfl⟩

end ClaimsRebind
end Klick

namespace Klick
section ClaimsLabels
variable {K : Type} [LinearOrderedField K] [FloorRing K]

/-- The loop of `set_start_label` finds nothing when no entry carries the label. -/
theorem skip_to_label_none (es : List (Entry K)) (l : String)
    (h : ∀ e ∈ es, e.label ≠ l) : skip_to_label es l = none := by
  induction es with
  | nil => rfl
  | cons e es ih =>
    have he : e.label ≠ l := h e (List.mem_cons_self _ _)
    simp only [skip_to_label, if_pos he]
    exact ih (fun e' he' => h e' (List.mem_cons_of_mem _ he'))

/-- C11, the code at the failing input. `set_start_label` has no test for the
end of the entries: on `intro: 1 4/4 100`, `main: * 4/4 120` the loop
`while (i->label != start_label) ++i` passes both entries for the label `outro`
without a match, which is the outcome `none` of this embedding (the iterator
runs past the last entry), although the lookup `entry("outro")` of the map
tells that no entry carries the label; and so for every map and every label
that no entry carries. -/
theorem set_start_label_unknown :
    (Position.new host48k (map_intro_main : TempoMap ℚ) 1).set_start_label "outro" = none ∧
    (map_intro_main : TempoMap ℚ).entry "outro" = none ∧
    (∀ (p : Position ℚ) (l : String), (∀ e ∈ p.tempomap.entries, e.label ≠ l) →
      p.set_start_label l = none) := by
  have hgen : ∀ (p : Position ℚ) (l : String), (∀ e ∈ p.tempomap.entries, e.label ≠ l) →
      p.set_start_label l = none := by
    intro p l h
    simp only [Position.set_start_label, skip_to_label_none _ _ h]
  refine ⟨?_, ?_, hgen⟩
  · apply hgen
    intro e he
    simp only [Position.new, Position.reset, map_intro_main, List.mem_cons, List.mem_singleton,
      List.not_mem_nil, or_false] at he
    rcases he with rfl | rfl <;> simp [const_entry]
  · simp [TempoMap.entry, TempoMap.entry_loop, map_intro_main, const_entry]

/-- The loop of `TempoMap::entry` returns the first entry that carries the label. -/
theorem entry_loop_spec (es : List (Entry K)) (l : String) :
    ((∀ e ∈ es, e.label ≠ l) ↔ TempoMap.entry_loop es l = none) ∧
    (∀ e, TempoMap.entry_loop es l = some e →
      ∃ i, i < es.length ∧ es[i]? = some e ∧ e.label = l ∧
        ∀ j, j < i → (es.getD j Entry.zero).label ≠ l) := by
  induction es with
  | nil => simp [TempoMap.entry_loop]
  | cons e es ih =>
    by_cases hl : e.label = l
    · constructor
      · simp [TempoMap.entry_loop, hl]
      · intro e' he'
        simp only [TempoMap.entry_loop, if_pos hl, Option.some.injEq] at he'
        subst he'
        exact ⟨0, by simp, by simp, hl, fun j hj => absurd hj (Nat.not_lt_zero j)⟩
    · constructor
      · simp only [TempoMap.entry_loop, if_neg hl, List.mem_cons, forall_eq_or_imp]
        rw [← ih.1]
        exact ⟨fun h => h.2, fun h => ⟨hl, h⟩⟩
      · intro e' he'
        simp only [TempoMap.entry_loop, if_neg hl] at he'
        obtain ⟨i, hi, hget, hlab, hbefore⟩ := ih.2 e' he'
        refine ⟨i + 1, by simpa using hi, by simpa using hget, hlab, ?_⟩
        intro j hj
        cases j with
        | zero => simpa using hl
        | succ j' =>
          simp only [List.getD_cons_succ]
          exact hbefore j' (by omega)

/-- C15. Label lookup: for every map and label `l`, `entry(l)` with an empty
`l` yields NULL, also when entries without label exist; with a non-empty `l` it
yields NULL exactly when no entry carries `l`, and otherwise the first entry
(lowest index) whose label equals `l`. -/
theorem entry_lookup (m : TempoMap K) (l : String) :
    (l = "" → m.entry l = none) ∧
    (l ≠ "" →
      ((∀ e ∈ m.entries, e.label ≠ l) ↔ m.entry l = none) ∧
      (∀ e, m.entry l = some e →
        ∃ i, i < m.size ∧ m.entries[i]? = some e ∧ e.label = l ∧
          ∀ j, j < i → (m.get j).label ≠ l)) ∧
    (({ entries := [const_entry "" 1 100 4 4, const_entry "main" (-1) 120 4 4] } :
        TempoMap K).entry "" = none) := by
  refine ⟨?_, ?_, ?_⟩
  · intro h
    subst h
    have hE : ("" : String).isEmpty = true := rfl
    simp [TempoMap.entry, hE]
  · intro h
    have hne : l.isEmpty = false := by
      rw [Bool.eq_false_iff]
      intro hc
      exact h ((String.isEmpty_iff l).mp hc)
    have he : m.entry l = TempoMap.entry_loop m.entries l := by
      simp [TempoMap.entry, hne]
    rw [he]
    exact entry_loop_spec m.entries l
  · have hE : ("" : String).isEmpty = true := rfl
    simp [TempoMap.entry, hE]

end ClaimsLabels

section ClaimsVoices
variable {C V : Type}

theorem play_all_concat (a : AudioInterface C V) (rs : List (C × ℕ × V)) (r : C × ℕ × V) :
    a.play_all (rs ++ [r]) = (a.play_all rs).play r.1 r.2.1 r.2.2 := by
  simp [AudioInterface.play_all, List.foldl_append]

/-- The ring after any number of calls of `play`: the number of slots is
unchanged and the write index is the number of calls modulo the slots. -/
theorem play_all_index (chunks : List (Voice C V))
    (rs : List (C × ℕ × V)) :
    ((AudioInterface.new chunks).play_all rs).chunks.length = chunks.length ∧
    ((AudioInterface.new chunks).play_all rs).next_chunk = rs.length % chunks.length := by
  induction rs using List.reverseRecOn with
  | nil =>
    simp [AudioInterface.play_all, AudioInterface.new]
  | append_singleton rs r ih =>
    rw [play_all_concat]
    obtain ⟨h1, h2⟩ := ih
    constructor
    · simp [AudioInterface.play, h1]
    · simp only [AudioInterface.play, h1, h2, List.length_append, List.length_singleton]
      exact (Nat.add_mod _ _ _).symm ▸ by simp [Nat.add_mod]

/-- C14. Voice ring: with a ring of `N ≥ 1` voice slots and the write index 0
of the constructor, the `k`-th call of `play` (after `k` earlier calls) stores
`(chunk, offset, pos = 0, volume)` in slot `k mod N` and leaves every other slot
unchanged; the number of slots stays `N` and the write index stays below `N`;
the call `k + N` writes the same slot as the call `k`, and no call between them
does. -/
theorem voice_ring (chunks : List (Voice C V)) (hN : 0 < chunks.length)
    (rs : List (C × ℕ × V)) (c : C) (o : ℕ) (v : V) :
    ((AudioInterface.new chunks).play_all rs).chunks.length = chunks.length ∧
    ((AudioInterface.new chunks).play_all rs).next_chunk = rs.length % chunks.length ∧
    ((AudioInterface.new chunks).play_all rs).next_chunk < chunks.length ∧
    ((((AudioInterface.new chunks).play_all rs).play c o v).chunks[rs.length % chunks.length]?
      = some { chunk := some c, offset := o, pos := 0, volume := v }) ∧
    (∀ i, i ≠ rs.length % chunks.length →
      (((AudioInterface.new chunks).play_all rs).play c o v).chunks[i]?
        = ((AudioInterface.new chunks).play_all rs).chunks[i]?) ∧
    (((AudioInterface.new chunks).play_all rs).play c o v).next_chunk < chunks.length ∧
    (rs.length + chunks.length) % chunks.length = rs.length % chunks.length ∧
    (∀ j, rs.length < j → j < rs.length + chunks.length →
      j % chunks.length ≠ rs.length % chunks.length) := by
  obtain ⟨h1, h2⟩ := play_all_index chunks rs
  have hlt : rs.length % chunks.length < chunks.length := Nat.mod_lt _ hN
  refine ⟨h1, h2, by rw [h2]; exact hlt, ?_, ?_, ?_, by simp, ?_⟩
  · simp only [AudioInterface.play, h2]
    rw [List.getElem?_set, if_pos rfl, if_pos (by rw [h1]; exact hlt)]
  · intro i hi
    simp only [AudioInterface.play, h2]
    rw [List.getElem?_set_ne (Ne.symm hi)]
  · simp only [AudioInterface.play, h1]
    exact Nat.mod_lt _ hN
  · intro j hj1 hj2 hmod
    have h3 : (j - rs.length) % chunks.length = 0 := by
      have := (Nat.modEq_iff_dvd' hj1.le).mp hmod.symm
      exact Nat.mod_eq_zero_of_dvd this
    have h4 : j - rs.length < chunks.length := by omega
    rw [Nat.mod_eq_of_lt h4] at h3
    omega

/-- C14, an instance: a ring of two released slots, the call after three calls. -/
theorem voice_ring_witness :
    0 < ring2.length ∧
    (((AudioInterface.new ring2).play_all plays3).chunks.length = ring2.length ∧
    ((AudioInterface.new ring2).play_all plays3).next_chunk = plays3.length % ring2.length ∧
    ((AudioInterface.new ring2).play_all plays3).next_chunk < ring2.length ∧
    ((((AudioInterface.new ring2).play_all plays3).play 2 9 1).chunks[
        plays3.length % ring2.length]?
      = some { chunk := some 2, offset := 9, pos := 0, volume := 1 }) ∧
    (∀ i, i ≠ plays3.length % ring2.length →
      (((AudioInterface.new ring2).play_all plays3).play 2 9 1).chunks[i]?
        = ((AudioInterface.new ring2).play_all plays3).chunks[i]?) ∧
    (((AudioInterface.new ring2).play_all plays3).play 2 9 1).next_chunk < ring2.length ∧
    (plays3.length + ring2.length) % ring2.length = plays3.length % ring2.length ∧
    (∀ j, plays3.length < j → j < plays3.length + ring2.length →
      j % ring2.length ≠ plays3.length % ring2.length)) :=
  ⟨by decide, voice_ring ring2 (by decide) plays3 2 9 1⟩

end ClaimsVoices
end Klick

namespace Klick
section ClaimsPreroll
variable {K : Type} [LinearOrderedField K] [FloorRing K]

/-- The entries of a joined map. -/
theorem join_entries (a b t : TempoMap K) (h : TempoMap.join a b = some t) :
    t.entries = a.entries ++ b.entries := by
  unfold TempoMap.join at h
  split_ifs at h
  simp only [Option.some.injEq] at h
  rw [← h]

/-- The map that `add_preroll` binds is the join of the preroll with the old map. -/
theorem add_preroll_some (p q : Position K) (nbars : Int) (h : p.add_preroll nbars = some q) :
    ∃ t, TempoMap.join
        (if nbars = PREROLL_2_BEATS then
          TempoMap.new_simple 1 (p.tempomap.get 0).tempo 2 (p.tempomap.get 0).denom
            (List.replicate (p.tempomap.get 0).denom.toNat BeatType.BEAT_NORMAL) (66 / 100)
        else
          TempoMap.new_simple nbars (p.tempomap.get 0).tempo (p.tempomap.get 0).beats
            (p.tempomap.get 0).denom (p.tempomap.get 0).pattern (66 / 100))
        p.tempomap = some t ∧
      q = { p with tempomap := t } := by
  simp only [Position.add_preroll] at h
  split at h
  · exact absurd h (by simp)
  · rename_i t ht
    simp only [Option.some.injEq] at h
    exact ⟨t, ht, h.symm⟩

/-- What `add_preroll(PREROLL_2_BEATS)` binds: the two-beat entry built from
the first entry, in front of the entries of the map. -/
theorem add_preroll_two_beats (p q : Position K)
    (h : p.add_preroll PREROLL_2_BEATS = some q) :
    q.tempomap.entries
      = { label := "", bars := 1, tempo := (p.tempomap.get 0).tempo, tempo2 := 0, tempi := [],
          beats := 2, denom := (p.tempomap.get 0).denom,
          pattern := List.replicate (p.tempomap.get 0).denom.toNat BeatType.BEAT_NORMAL,
          volume := 66 / 100 } :: p.tempomap.entries := by
  obtain ⟨t, ht, hq⟩ := add_preroll_some p q _ h
  rw [if_pos rfl] at ht
  rw [hq]
  exact join_entries _ _ _ ht

/-- The cursor after `add_preroll(PREROLL_2_BEATS)` on the map `* 4/4 120`. -/
theorem add_preroll_inf_120 :
    (Position.new host48k (map_inf_120 : TempoMap ℚ) 1).add_preroll PREROLL_2_BEATS
      = some ({ (Position.new host48k (map_inf_120 : TempoMap ℚ) 1) with
          tempomap := { entries := [two_beat_preroll, const_entry "" (-1) 120 4 4] } } :
          Position ℚ) := by
  have hj : TempoMap.join
        (TempoMap.new_simple 1 (120 : ℚ) 2 4 (List.replicate (4 : Int).toNat BeatType.BEAT_NORMAL)
          (66 / 100))
        (map_inf_120 : TempoMap ℚ)
      = some { entries := [two_beat_preroll, const_entry "" (-1) 120 4 4] } := by
    simp only [TempoMap.join, TempoMap.new_simple, map_inf_120, const_entry, present_labels,
      List.getLast?, List.map_cons, List.map_nil, List.cons_append, List.nil_append,
      List.getLast_singleton, Option.map_some']
    rw [if_neg (by decide), if_pos (by decide)]
    rfl
  simp only [Position.add_preroll]
  rw [if_pos trivial]
  have hm : (Position.new host48k (map_inf_120 : TempoMap ℚ) 1).tempomap
      = (map_inf_120 : TempoMap ℚ) := rfl
  have hn : TempoMap.new_simple 1
        ((Position.new host48k (map_inf_120 : TempoMap ℚ) 1).tempomap.get 0).tempo 2
        ((Position.new host48k (map_inf_120 : TempoMap ℚ) 1).tempomap.get 0).denom
        (List.replicate
          ((Position.new host48k (map_inf_120 : TempoMap ℚ) 1).tempomap.get 0).denom.toNat
          BeatType.BEAT_NORMAL)
        (66 / 100)
      = TempoMap.new_simple 1 (120 : ℚ) 2 4
          (List.replicate (4 : Int).toNat BeatType.BEAT_NORMAL) (66 / 100) := rfl
  rw [hn, hm, hj]

/-- C20, the code at the failing input. On the map `* 4/4 120`,
`add_preroll(PREROLL_2_BEATS)` puts in front an entry of one bar of 2 beats at
tempo 120, denominator 4, volume 0.66, whose pattern is NORMAL four times: the
loop that fills the pattern runs to `e.denom`, not to the 2 beats of the entry,
so the pattern has length 4, not 2, and the new map breaks the rule that a
non-empty pattern has length `beats`. For every map the pattern of the two-beat
preroll has the length of the denominator of entry 0. -/
theorem preroll_two_beats_pattern :
    (∃ q, (Position.new host48k (map_inf_120 : TempoMap ℚ) 1).add_preroll PREROLL_2_BEATS
        = some q ∧
      q.tempomap.get 0 = two_beat_preroll ∧
      (q.tempomap.get 0).bars = 1 ∧ (q.tempomap.get 0).beats = 2 ∧
      (q.tempomap.get 0).tempo = 120 ∧ (q.tempomap.get 0).denom = 4 ∧
      (q.tempomap.get 0).volume = 66 / 100 ∧
      (∀ t ∈ (q.tempomap.get 0).pattern, t = BeatType.BEAT_NORMAL) ∧
      (q.tempomap.get 0).pattern.length = 4 ∧
      (q.tempomap.get 0).pattern.length ≠ (q.tempomap.get 0).beats.toNat ∧
      ¬ (q.tempomap.get 0).valid ∧ ¬ q.tempomap.valid) ∧
    (∀ (p q : Position ℚ), p.add_preroll PREROLL_2_BEATS = some q →
      (q.tempomap.get 0).beats = 2 ∧
      (q.tempomap.get 0).pattern
        = List.replicate (p.tempomap.get 0).denom.toNat BeatType.BEAT_NORMAL ∧
      (q.tempomap.get 0).pattern.length = (p.tempomap.get 0).denom.toNat) := by
  have hbad : ¬ (two_beat_preroll : Entry ℚ).valid := by
    intro hv
    rcases hv.2.2.2.2.1 with h | h
    · simp [two_beat_preroll] at h
    · simp [two_beat_preroll] at h
  refine ⟨⟨_, add_preroll_inf_120, rfl, rfl, rfl, rfl, rfl, rfl, ?_, rfl, ?_, hbad, ?_⟩, ?_⟩
  · intro t ht
    have ht' : t ∈ (two_beat_preroll : Entry ℚ).pattern := ht
    simp only [two_beat_preroll, List.mem_cons, List.mem_singleton, List.not_mem_nil,
      or_false, or_self] at ht'
    exact ht'
  · show (two_beat_preroll : Entry ℚ).pattern.length
      ≠ (two_beat_preroll : Entry ℚ).beats.toNat
    simp [two_beat_preroll]
  · intro hv
    exact hbad (hv.2.1 _ (List.mem_cons_self _ _))
  · intro p q h
    have he := add_preroll_two_beats p q h
    have hg : q.tempomap.get 0
        = { label := "", bars := 1, tempo := (p.tempomap.get 0).tempo, tempo2 := 0,
            tempi := [], beats := 2, denom := (p.tempomap.get 0).denom,
            pattern := List.replicate (p.tempomap.get 0).denom.toNat BeatType.BEAT_NORMAL,
            volume := 66 / 100 } := by
      simp only [TempoMap.get, he, List.getD_cons_zero]
    rw [hg]
    exact ⟨rfl, rfl, by simp⟩

/-- C12. For the map `* 4/4 120` with `S = 48000`, `M = 1`, after
`add_preroll(PREROLL_2_BEATS)` and `locate(0)` the first two ticks are NORMAL at
volume 0.66, at frames 0 and 24000, and the third tick is EMPHASIS at volume 1,
at frame 48000: the first beat of the original entry. -/
theorem preroll_two_beats_ticks (fuel : ℕ) :
    ∃ q p0, (Position.new host48k (map_inf_120 : TempoMap ℚ) 1).add_preroll PREROLL_2_BEATS
        = some q ∧
      q.locate host48k fuel 0 = some p0 ∧
      p0.tick = { frame := 0, type := BeatType.BEAT_NORMAL, volume := 66 / 100 } ∧
      ((Position.advance host48k)^[1] p0).tick
        = { frame := 0, type := BeatType.BEAT_NORMAL, volume := 66 / 100 } ∧
      ((Position.advance host48k)^[2] p0).tick
        = { frame := 24000, type := BeatType.BEAT_NORMAL, volume := 66 / 100 } ∧
      ((Position.advance host48k)^[3] p0).tick
        = { frame := 48000, type := BeatType.BEAT_EMPHASIS, volume := 1 } := by
  refine ⟨_, _, add_preroll_inf_120, locate_zero _ _ _, ?_⟩
  have h1 : Position.advance host48k (Position.reset
      ({ (Position.new host48k (map_inf_120 : TempoMap ℚ) 1) with
          tempomap := { entries := [two_beat_preroll, const_entry "" (-1) 120 4 4] } } :
          Position ℚ))
      = ({ (Position.new host48k (map_inf_120 : TempoMap ℚ) 1) with
          tempomap := { entries := [two_beat_preroll, const_entry "" (-1) 120 4 4] },
          init := false } : Position ℚ) :=
    advance_of_init _ _ rfl
  have h2 : Position.advance host48k
      ({ (Position.new host48k (map_inf_120 : TempoMap ℚ) 1) with
          tempomap := { entries := [two_beat_preroll, const_entry "" (-1) 120 4 4] },
          init := false } : Position ℚ)
      = ({ (Position.new host48k (map_inf_120 : TempoMap ℚ) 1) with
          tempomap := { entries := [two_beat_preroll, const_entry "" (-1) 120 4 4] },
          init := false, frame := 24000, beat := 1 } : Position ℚ) := by
    rw [advance_beat _ _ rfl (by
      simp [Position.new, Position.reset, TempoMap.get, two_beat_preroll])]
    simp [Position.dist_to_next, Position.new, Position.reset, TempoMap.get, two_beat_preroll,
      frame_dist, host48k]
    norm_num
  have h3 : Position.advance host48k
      ({ (Position.new host48k (map_inf_120 : TempoMap ℚ) 1) with
          tempomap := { entries := [two_beat_preroll, const_entry "" (-1) 120 4 4] },
          init := false, frame := 24000, beat := 1 } : Position ℚ)
      = ({ (Position.new host48k (map_inf_120 : TempoMap ℚ) 1) with
          tempomap := { entries := [two_beat_preroll, const_entry "" (-1) 120 4 4] },
          init := false, frame := 48000, beat := 0, bar := 0, entry := 1,
          bar_total := 1 } : Position ℚ) := by
    rw [advance_entry _ _ rfl
      (by simp [Position.new, Position.reset, TempoMap.get, two_beat_preroll])
      (by simp [Position.new, Position.reset, TempoMap.get, two_beat_preroll])
      (by simp [Position.new, Position.reset, TempoMap.size])]
    simp [Position.dist_to_next, Position.new, Position.reset, TempoMap.get, two_beat_preroll,
      frame_dist, host48k]
    norm_num
  have hfl0 : to_nframes (0 : ℚ) = 0 := by simp [to_nframes]
  have hfl1 : to_nframes (24000 : ℚ) = 24000 :=
    to_nframes_eq _ 24000 (by norm_num) (by norm_num) (by norm_num)
  have hfl2 : to_nframes (48000 : ℚ) = 48000 :=
    to_nframes_eq _ 48000 (by norm_num) (by norm_num) (by norm_num)
  simp only [Function.iterate_succ, Function.iterate_zero, Function.comp_apply, id_eq]
  rw [h1, h2, h3]
  refine ⟨?_, ?_, ?_, ?_⟩
  · simp [Position.tick, Position.new, Position.reset, TempoMap.get, two_beat_preroll, hfl0]
  · simp [Position.tick, Position.new, Position.reset, TempoMap.get, two_beat_preroll, hfl0]
  · simp [Position.tick, Position.new, Position.reset, TempoMap.get, two_beat_preroll, hfl1]
  · simp [Position.tick, Position.new, Position.reset, TempoMap.get, const_entry, hfl2]

end ClaimsPreroll
end Klick

namespace Klick
section ClaimsEnd
variable {K : Type} [LinearOrderedField K] [FloorRing K]

theorem start_frames_loop_head_mem (H : Host K) (M : K) (es : List (Entry K)) (f : K) :
    f ∈ start_frames_loop H M es f := by
  cases es <;> simp [start_frames_loop]

/-- In a map without an infinite entry no value of the table of start frames is
after the last one. -/
theorem start_frames_loop_le_last (H : Host K) (M : K) (hM : 0 < M) (hS : 0 < H.samplerate)
    (hlog : StrictMonoOn H.log (Set.Ioi 0)) (es : List (Entry K)) :
    ∀ (f : K), (∀ e ∈ es, e.valid ∧ e.bars ≠ -1) →
      ∀ x ∈ start_frames_loop H M es f, x ≤ (start_frames_loop H M es f).getD es.length 0 := by
  induction es with
  | nil =>
    intro f _ x hx
    simp only [start_frames_loop, List.mem_singleton] at hx
    simp [start_frames_loop, hx]
  | cons e es ih =>
    intro f hes x hx
    obtain ⟨hv, hfin⟩ := hes e (List.mem_cons_self _ _)
    have hN : 0 < e.bars * e.beats := by
      obtain ⟨hb, _, hbars, _⟩ := hv
      exact mul_pos (by omega) (by omega)
    have hpos := frame_dist_pos H M e hv hM hS hlog 0 (e.bars * e.beats) (le_refl _) hN
      (Or.inr (le_refl _))
    simp only [start_frames_loop, if_pos hfin, List.length_cons, List.getD_cons_succ,
      List.mem_cons] at hx ⊢
    have hrest := ih (f + frame_dist H M e 0 (e.bars * e.beats))
      (fun e' he' => hes e' (List.mem_cons_of_mem _ he'))
    rcases hx with rfl | hx
    · have := hrest _ (start_frames_loop_head_mem H M es _)
      linarith
    · exact hrest x hx

/-- The duration of a valid map without an infinite entry is positive. -/
theorem start_frames_loop_last_pos (H : Host K) (M : K) (hM : 0 < M) (hS : 0 < H.samplerate)
    (hlog : StrictMonoOn H.log (Set.Ioi 0)) (es : List (Entry K)) (hne : es ≠ [])
    (hes : ∀ e ∈ es, e.valid ∧ e.bars ≠ -1) :
    0 < (start_frames_loop H M es 0).getD es.length 0 := by
  cases es with
  | nil => exact absurd rfl hne
  | cons e es =>
    obtain ⟨hv, hfin⟩ := hes e (List.mem_cons_self _ _)
    have hN : 0 < e.bars * e.beats := by
      obtain ⟨hb, _, hbars, _⟩ := hv
      exact mul_pos (by omega) (by omega)
    have hpos := frame_dist_pos H M e hv hM hS hlog 0 (e.bars * e.beats) (le_refl _) hN
      (Or.inr (le_refl _))
    simp only [start_frames_loop, if_pos hfin, List.length_cons, List.getD_cons_succ]
    have := start_frames_loop_le_last H M hM hS hlog es (0 + frame_dist H M e 0 (e.bars * e.beats))
      (fun e' he' => hes e' (List.mem_cons_of_mem _ he')) _
      (start_frames_loop_head_mem H M es _)
    linarith

/-- The cursor that `locate` leaves for a frame on which no value of the table
of start frames follows: the entry index is the number of entries and `end` is
set. -/
theorem locate_no_entry (H : Host K) (fuel : ℕ) (p : Position K) (f : ℕ) (hf0 : f ≠ 0)
    (hlen : p.start_frames.length = p.tempomap.size + 1)
    (hall : ∀ x ∈ p.start_frames, x ≤ (f : K)) :
    p.locate H fuel f = some { p.reset with entry := p.tempomap.size, end_ := true } := by
  have hub : upper_bound p.reset.start_frames (f : K) = p.tempomap.size + 1 := by
    show List.findIdx (fun x => decide ((f : K) < x)) p.start_frames = _
    rw [← hlen]
    apply List.findIdx_eq_length.mpr
    intro x hx
    simpa using hall x hx
  simp only [Position.locate, if_neg hf0, hub]
  rw [if_pos (by show p.tempomap.size + 1 - 1 = p.tempomap.size; omega)]
  simp

/-- On a valid map without an infinite entry `locate(f)` with `f` at or after
the end of the map sets `end` and leaves `init` set. -/
theorem locate_past_end (H : Host K) (m : TempoMap K) (M : K) (hm : m.valid)
    (hfinite : ∀ e ∈ m.entries, e.bars ≠ -1) (hM : 0 < M) (hS : 0 < H.samplerate)
    (hlog : StrictMonoOn H.log (Set.Ioi 0)) (f : ℕ)
    (hf : (Position.new H m M).start_frames.getD m.size 0 ≤ (f : K)) (fuel : ℕ) :
    (Position.new H m M).locate H fuel f
      = some { (Position.new H m M) with entry := m.size, end_ := true } := by
  have hes : ∀ e ∈ m.entries, e.valid ∧ e.bars ≠ -1 := fun e he => ⟨hm.2.1 e he, hfinite e he⟩
  have hpos := start_frames_loop_last_pos H M hM hS hlog m.entries hm.1 hes
  have hf0 : f ≠ 0 := by
    intro h
    subst h
    rw [new_start_frames] at hf
    have : (start_frames_loop H M m.entries 0).getD m.entries.length 0 ≤ 0 := by
      simpa [TempoMap.size] using hf
    linarith
  rw [locate_no_entry H fuel _ f hf0
    (by rw [new_start_frames, start_frames_loop_length]; rfl)
    (by
      intro x hx
      rw [new_start_frames] at hx hf
      exact le_trans (start_frames_loop_le_last H M hM hS hlog m.entries 0 hes x hx) hf)]
  rfl

/-- C19 (amended). In every state in which `end` is true, `dist_to_next()`
returns 0 while `init` is set and the maximum frame value once `init` is clear;
right after `locate(f)` with `f` at or beyond the end of a valid finite map
`end` and `init` are both set and `dist_to_next()` returns 0, and after the
next `advance()` it returns the maximum frame value. -/
theorem dist_to_next_at_end (H : Host K) (m : TempoMap K) (M : K) (hm : m.valid)
    (hfinite : ∀ e ∈ m.entries, e.bars ≠ -1) (hM : 0 < M) (hS : 0 < H.samplerate)
    (hlog : StrictMonoOn H.log (Set.Ioi 0)) (f : ℕ)
    (hf : (Position.new H m M).start_frames.getD m.size 0 ≤ (f : K)) (fuel : ℕ) :
    (∀ p : Position K, p.end_ = true →
      p.dist_to_next H = if p.init = true then 0 else float_frames_max) ∧
    ∃ q, (Position.new H m M).locate H fuel f = some q ∧ q.end_ = true ∧ q.init = true ∧
      q.dist_to_next H = 0 ∧ (q.advance H).end_ = true ∧ (q.advance H).init = false ∧
      (q.advance H).dist_to_next H = float_frames_max := by
  have hgen : ∀ p : Position K, p.end_ = true →
      p.dist_to_next H = if p.init = true then 0 else float_frames_max := by
    intro p hp
    unfold Position.dist_to_next
    by_cases hi : p.init = true
    · simp [hi]
    · simp [hi, hp]
  refine ⟨hgen, _, locate_past_end H m M hm hfinite hM hS hlog f hf fuel, rfl, rfl, ?_, ?_, ?_, ?_⟩
  · rw [hgen _ rfl]
    exact if_pos rfl
  · rw [advance_of_init H _ rfl]
  · exact advance_init H _
  · rw [hgen _ (by rw [advance_of_init H _ rfl]), advance_init]
    simp

/-- C19, an instance: the map `4 4/4 60`, `4 4/4 120` over the reals with the
real logarithm, at 48000 Hz and multiplier 1, located at its end, frame 1152000. -/
theorem dist_to_next_at_end_witness :
    (∀ p : Position ℝ, p.end_ = true →
      p.dist_to_next { samplerate := 48000, log := Real.log }
        = if p.init = true then 0 else float_frames_max) ∧
    ∃ q, (Position.new ({ samplerate := 48000, log := Real.log } : Host ℝ)
        (map_60_120 : TempoMap ℝ) 1).locate { samplerate := 48000, log := Real.log } 0 1152000
        = some q ∧ q.end_ = true ∧ q.init = true ∧
      q.dist_to_next { samplerate := 48000, log := Real.log } = 0 ∧
      (q.advance { samplerate := 48000, log := Real.log }).end_ = true ∧
      (q.advance { samplerate := 48000, log := Real.log }).init = false ∧
      (q.advance { samplerate := 48000, log := Real.log }).dist_to_next
        { samplerate := 48000, log := Real.log } = float_frames_max :=
  dist_to_next_at_end { samplerate := 48000, log := Real.log } map_60_120 1 map_60_120_valid
    (by
      intro e he
      simp only [map_60_120, List.mem_cons, List.mem_singleton, List.not_mem_nil,
        or_false] at he
      rcases he with rfl | rfl <;> simp [const_entry])
    (by norm_num) (by norm_num) Real.strictMonoOn_log 1152000
    (by
      rw [map_60_120_frames _ rfl]
      norm_num [TempoMap.size, map_60_120])
    0

/-- The cursor after `locate(1152000)` on the map `4 4/4 60`, `4 4/4 120`. -/
theorem locate_1152000 (fuel : ℕ) :
    (Position.new host48k (map_60_120 : TempoMap ℚ) 1).locate host48k fuel 1152000
      = some { (Position.new host48k (map_60_120 : TempoMap ℚ) 1) with
                 entry := 2, end_ := true } := by
  rw [locate_no_entry host48k fuel _ 1152000 (by norm_num)
    (by rw [map_60_120_frames host48k rfl]; rfl)
    (by
      intro x hx
      rw [map_60_120_frames host48k rfl] at hx
      simp only [List.mem_cons, List.mem_singleton, List.not_mem_nil, or_false] at hx
      rcases hx with rfl | rfl | rfl <;> norm_num)]
  rfl

/-- C19, as stated, fails right after `locate` at the end of a finite map: on
`4 4/4 60`, `4 4/4 120` at 48000 Hz, multiplier 1, `locate(1152000)` sets `end`
and leaves `init` set, and `dist_to_next()` returns 0, not the maximum frame
value. -/
theorem dist_to_next_at_end_counterexample :
    ∃ q, (Position.new host48k (map_60_120 : TempoMap ℚ) 1).locate host48k 0 1152000 = some q ∧
      q.end_ = true ∧ q.dist_to_next host48k = 0 ∧
      ¬ (q.dist_to_next host48k = float_frames_max) := by
  refine ⟨_, locate_1152000 0, rfl, ?_, ?_⟩
  · simp [Position.dist_to_next, Position.new, Position.reset]
  · norm_num [Position.dist_to_next, Position.new, Position.reset, float_frames_max]

/-- C17, the code at the failing input. On the map `4 4/4 60`, `4 4/4 120` at
48000 Hz, multiplier 1, `locate(1152000)` sets `end` and leaves `entry = 2`, the
number of entries: no entry of the map, where `advance` at the end of the map
steps the entry index back to the last entry. The states that the constructor,
`reset()`, `advance()` and `locate(f)` with `f` before the end of the map
produce on a valid map are in range. -/
theorem locate_end_entry :
    (∃ q, (Position.new host48k (map_60_120 : TempoMap ℚ) 1).locate host48k 0 1152000 = some q ∧
      q.end_ = true ∧ q.entry = 2 ∧ q.tempomap.size = 2 ∧ ¬ (q.entry < q.tempomap.size) ∧
      ¬ q.in_range ∧ q.tempomap.entries[q.entry]? = none) ∧
    (∀ (H : Host ℚ) (m : TempoMap ℚ) (M : ℚ), m.valid →
      (Position.new H m M).in_range ∧ (Position.new H m M).reset.in_range) ∧
    (∀ (H : Host ℚ) (p : Position ℚ), p.tempomap.valid → p.in_range → (p.advance H).in_range) ∧
    (∀ (H : Host ℚ) (m : TempoMap ℚ) (M : ℚ) (f : ℕ), m.valid → 0 < M → 0 < H.samplerate →
      (f : ℚ) < (Position.new H m M).start_frames.getD m.size 0 →
      ∃ n0, ∀ fuel, n0 ≤ fuel →
        ∃ q, (Position.new H m M).locate H fuel f = some q ∧ q.in_range) := by
  refine ⟨⟨_, locate_1152000 0, rfl, rfl, rfl, ?_, ?_, rfl⟩, ?_, ?_, ?_⟩
  · show ¬ (2 < 2)
    omega
  · intro h
    have : (2 : ℕ) < 2 := h.1
    omega
  · intro H m M hm
    exact ⟨new_in_range H m M hm, new_in_range H m M hm⟩
  · intro H p hm hp
    exact advance_in_range H p hm hp
  · intro H m M f hm hM hS hf
    by_cases hf0 : f = 0
    · subst hf0
      exact ⟨0, fun fuel _ => ⟨_, locate_zero H fuel _, new_in_range H m M hm⟩⟩
    · obtain ⟨n0, h⟩ := locate_spec H m M hm hM hS f hf0 hf
      refine ⟨n0, fun fuel hfuel => ?_⟩
      obtain ⟨q, hq, _, _, _, _, hr, _⟩ := h fuel hfuel
      exact ⟨q, hq, hr⟩

end ClaimsEnd
end Klick

namespace Klick
section ClaimsSearch
variable {K : Type} [LinearOrderedField K] [FloorRing K]

/-- The first probe of the binary search over four beats is beat 2, and the
search stops there when beat 3 is not before `v`. -/
theorem ramp_search_four (d : Int → K) (v : K) (fuel : ℕ) (h2 : d 2 ≤ v) (h3 : ¬ (d 3 < v)) :
    ramp_search d v (fuel + 1) 0 4 = some 2 := by
  have hmid : ((0 : Int) + 4).tdiv 2 = 2 := by decide
  have h2' : ¬ (d 2 > v) := not_lt.mpr h2
  simp only [ramp_search, hmid]
  rw [if_pos (by decide), if_neg h2', if_pos h2]
  have e3 : ((2 : Int) + 1) = 3 := by decide
  rw [e3, if_neg h3]

/-- The result of `locate` in an entry that goes through the binary search, from
the values of its steps. -/
theorem locate_eval_ramp (H : Host K) (fuel : ℕ) (p0 : Position K) (f : ℕ) (hf0 : f ≠ 0)
    (i : ℕ) (hub : upper_bound p0.start_frames (f : K) - 1 = i) (hne : i ≠ p0.tempomap.size)
    (hT : (p0.tempomap.get i).tempo ≠ 0) (hT2 : (p0.tempomap.get i).tempo2 ≠ 0)
    (n bar beat : Int) (fr : K)
    (hn : ramp_search (frame_dist H p0.multiplier (p0.tempomap.get i) 0)
      ((f : K) - p0.start_frames.getD i 0) fuel 0
      ((p0.tempomap.get i).bars * (p0.tempomap.get i).beats) = some n)
    (hbar : n.tdiv (p0.tempomap.get i).beats = bar)
    (hbeat : n.tmod (p0.tempomap.get i).beats = beat)
    (hfr : p0.start_frames.getD i 0
      + frame_dist H p0.multiplier (p0.tempomap.get i) 0 (bar * (p0.tempomap.get i).beats + beat)
      = fr) :
    p0.locate H fuel f
      = some { p0.reset with entry := i, bar := bar, beat := beat, frame := fr,
                             bar_total := p0.start_bars.getD i 0 + bar,
                             init := decide (fr = (f : K)) } := by
  subst hbar
  subst hbeat
  subst hfr
  rw [locate_unfold H fuel p0 f hf0 (by rw [hub]; exact hne)]
  simp only [hub]
  have hc1 : ¬ ((p0.tempomap.get i).tempo ≠ 0 ∧ (p0.tempomap.get i).tempo2 = 0) :=
    fun h => hT2 h.2
  rw [if_neg hc1, if_pos ⟨hT, hT2⟩]
  simp only [locate_ramp, Position.reset]
  rw [hn]

/-- The multiplier divides the distance. -/
theorem frame_dist_multiplier (H : Host K) (M : K) (e : Entry K) (a b : Int) :
    frame_dist H M e a b = frame_dist H 1 e a b / M := by
  unfold frame_dist
  by_cases hab : a = b
  · simp [hab]
  · simp only [if_neg hab]
    ring

theorem ramp_bar_valid : (ramp_bar : Entry K).valid :=
  ⟨by norm_num [ramp_bar], by norm_num [ramp_bar], Or.inl (by norm_num [ramp_bar]),
    Or.inr (Or.inl ⟨by norm_num [ramp_bar], by norm_num [ramp_bar], by norm_num [ramp_bar],
      by norm_num [ramp_bar]⟩),
    Or.inl rfl, by norm_num [ramp_bar], by norm_num [ramp_bar]⟩

theorem map_ramp_bar_valid : (map_ramp_bar : TempoMap K).valid := by
  refine ⟨by simp [map_ramp_bar], ?_, ?_, by
    simp only [map_ramp_bar, ramp_bar, present_labels, List.map_cons, List.map_nil]
    decide⟩
  · intro e he
    simp only [map_ramp_bar, List.mem_singleton] at he
    subst he
    exact ramp_bar_valid
  · intro i hi
    simp [TempoMap.size, map_ramp_bar] at hi

/-- The cursor after `locate(144000)` on the map `1 4/4 60-60`. -/
theorem locate_60_60 :
    (Position.new host48k (map_60_60 : TempoMap ℚ) 1).locate host48k 1 144000
      = some { (Position.new host48k (map_60_60 : TempoMap ℚ) 1) with
                 beat := 2, frame := 96000, init := false } := by
  have hsf : (Position.new host48k (map_60_60 : TempoMap ℚ) 1).start_frames = [0, 192000] := by
    simp [Position.new, Position.reset, start_frames_loop, map_60_60, frame_dist, host48k]
    norm_num
  have hub : upper_bound (Position.new host48k (map_60_60 : TempoMap ℚ) 1).start_frames
      ((144000 : ℕ) : ℚ) = 1 := by
    rw [hsf]
    exact upper_bound_two _ _ _ (by norm_num) (by norm_num)
  rw [locate_eval_ramp host48k 1 _ 144000 (by norm_num) 0 (by rw [hub])
    (by simp [Position.new, Position.reset, TempoMap.size, map_60_60])
    (by simp [Position.new, Position.reset, TempoMap.get, map_60_60])
    (by simp [Position.new, Position.reset, TempoMap.get, map_60_60])
    2 0 2 96000
    (by
      rw [hsf]
      show ramp_search _ _ (0 + 1) 0 4 = some 2
      apply ramp_search_four
      · norm_num [Position.new, Position.reset, TempoMap.get, map_60_60, frame_dist, host48k]
      · norm_num [Position.new, Position.reset, TempoMap.get, map_60_60, frame_dist, host48k])
    (by simp [Position.new, Position.reset, TempoMap.get, map_60_60, Int.tdiv])
    (by simp [Position.new, Position.reset, TempoMap.get, map_60_60, Int.tmod])
    (by
      rw [hsf]
      norm_num [Position.new, Position.reset, TempoMap.get, map_60_60, frame_dist, host48k])]
  simp [Position.new, Position.reset, start_bars_loop, map_60_60]

end ClaimsSearch

section ClaimsSearchReal

/-- The distance of the first three beats of `1 4/4 60-120` at 48000 Hz, multiplier 1. -/
theorem ramp_bar_three :
    frame_dist ({ samplerate := 48000, log := Real.log } : Host ℝ) 1 ramp_bar 0 3
      = 192000 * (Real.log 105 - Real.log 60) := by
  rw [frame_dist_eq_cum _ _ _ _ _ (le_refl _) (by norm_num)
    (Entry.valid.beats_ne _ ramp_bar_valid)]
  simp only [cum, ramp_bar]
  norm_num
  ring

/-- The distances of the beats of `1 4/4 60-120` from its start increase. -/
theorem ramp_bar_increasing (a b : Int) (ha : 0 ≤ a) (hab : a < b) (hb : b ≤ 4) :
    frame_dist ({ samplerate := 48000, log := Real.log } : Host ℝ) 1 ramp_bar 0 a
      < frame_dist ({ samplerate := 48000, log := Real.log } : Host ℝ) 1 ramp_bar 0 b := by
  have hN := Entry.valid.beats_ne (ramp_bar : Entry ℝ) ramp_bar_valid
  rw [frame_dist_eq_cum _ _ _ _ _ (le_refl _) ha hN,
    frame_dist_eq_cum _ _ _ _ _ (le_refl _) (by omega) hN]
  have := cum_strict ({ samplerate := 48000, log := Real.log } : Host ℝ) 1 ramp_bar
    ramp_bar_valid (by norm_num) (by norm_num) Real.strictMonoOn_log a b ha hab
    (Or.inr (by simpa [ramp_bar] using hb))
  linarith

end ClaimsSearchReal
end Klick

namespace Klick
section ClaimsSearchBug

/-- The cursor after `locate(100000)` on the ramp `1 4/4 60-120` over the reals,
with the multiplier that puts beat 3 at frame 100000. -/
theorem locate_ramp_bar (M : ℝ)
    (hMdef : M = frame_dist ({ samplerate := 48000, log := Real.log } : Host ℝ) 1 ramp_bar 0 3
      / 100000) :
    0 < M ∧
    frame_dist ({ samplerate := 48000, log := Real.log } : Host ℝ) M ramp_bar 0 3 = 100000 ∧
    (100000 : ℝ) < frame_dist ({ samplerate := 48000, log := Real.log } : Host ℝ) M ramp_bar 0 4 ∧
    (Position.new ({ samplerate := 48000, log := Real.log } : Host ℝ)
        (map_ramp_bar : TempoMap ℝ) M).locate { samplerate := 48000, log := Real.log } 1 100000
      = some { (Position.new ({ samplerate := 48000, log := Real.log } : Host ℝ)
                  (map_ramp_bar : TempoMap ℝ) M) with
                 beat := 2,
                 frame := 0 + frame_dist ({ samplerate := 48000, log := Real.log } : Host ℝ) M
                   ramp_bar 0 2,
                 init := false } ∧
    frame_dist ({ samplerate := 48000, log := Real.log } : Host ℝ) M ramp_bar 0 2 < 100000 := by
  have h03 := ramp_bar_increasing 0 3 (le_refl _) (by norm_num) (by norm_num)
  rw [frame_dist_self] at h03
  have h23 := ramp_bar_increasing 2 3 (by norm_num) (by norm_num) (by norm_num)
  have h34 := ramp_bar_increasing 3 4 (by norm_num) (by norm_num) (by norm_num)
  set d3 := frame_dist ({ samplerate := 48000, log := Real.log } : Host ℝ) 1 ramp_bar 0 3
    with hd3
  have hM : 0 < M := by rw [hMdef]; positivity
  have e3 : frame_dist ({ samplerate := 48000, log := Real.log } : Host ℝ) M ramp_bar 0 3
      = 100000 := by
    rw [frame_dist_multiplier, ← hd3, hMdef]
    field_simp
  have e2 : frame_dist ({ samplerate := 48000, log := Real.log } : Host ℝ) M ramp_bar 0 2
      < 100000 := by
    rw [frame_dist_multiplier, div_lt_iff₀ hM, hMdef]
    have : (100000 : ℝ) * (d3 / 100000) = d3 := by field_simp
    rw [this]
    exact h23
  have e4 : (100000 : ℝ)
      < frame_dist ({ samplerate := 48000, log := Real.log } : Host ℝ) M ramp_bar 0 4 := by
    rw [frame_dist_multiplier, lt_div_iff₀ hM, hMdef]
    have : (100000 : ℝ) * (d3 / 100000) = d3 := by field_simp
    rw [this]
    exact h34
  have hsf : (Position.new ({ samplerate := 48000, log := Real.log } : Host ℝ)
      (map_ramp_bar : TempoMap ℝ) M).start_frames
      = [0, 0 + frame_dist ({ samplerate := 48000, log := Real.log } : Host ℝ) M ramp_bar 0 4] := by
    simp only [Position.new, Position.reset, start_frames_loop, map_ramp_bar]
    rw [if_pos (by simp [ramp_bar])]
    rfl
  have hub : upper_bound (Position.new ({ samplerate := 48000, log := Real.log } : Host ℝ)
      (map_ramp_bar : TempoMap ℝ) M).start_frames ((100000 : ℕ) : ℝ) = 1 := by
    rw [hsf]
    exact upper_bound_two _ _ _ (by norm_num) (by push_cast; linarith)
  refine ⟨hM, e3, e4, ?_, e2⟩
  rw [locate_eval_ramp _ 1 _ 100000 (by norm_num) 0 (by rw [hub])
    (by simp [Position.new, Position.reset, TempoMap.size, map_ramp_bar])
    (by simp [Position.new, Position.reset, TempoMap.get, map_ramp_bar, ramp_bar])
    (by simp [Position.new, Position.reset, TempoMap.get, map_ramp_bar, ramp_bar])
    2 0 2
    (0 + frame_dist ({ samplerate := 48000, log := Real.log } : Host ℝ) M ramp_bar 0 2)
    (by
      rw [hsf]
      show ramp_search (frame_dist ({ samplerate := 48000, log := Real.log } : Host ℝ) M
        ramp_bar 0) (((100000 : ℕ) : ℝ) - 0) (0 + 1) 0 4 = some 2
      apply ramp_search_four
      · push_cast
        linarith
      · push_cast
        rw [e3]
        norm_num)
    (by simp [Position.new, Position.reset, TempoMap.get, map_ramp_bar, ramp_bar, Int.tdiv])
    (by simp [Position.new, Position.reset, TempoMap.get, map_ramp_bar, ramp_bar, Int.tmod])
    (by
      rw [hsf]
      rfl)]
  have hne : ¬ (0 + frame_dist ({ samplerate := 48000, log := Real.log } : Host ℝ) M ramp_bar 0 2
      = ((100000 : ℕ) : ℝ)) := by
    push_cast
    linarith
  simp only [decide_eq_false hne]
  simp [Position.new, Position.reset, start_bars_loop, map_ramp_bar]

/-- C18, the code at the failing inputs. The binary search of `locate` stops at
the first probed beat `mid` whose successor is not before `f` (`dd < v` tested,
not `dd <= v`), so a beat exactly at `f` is not selected. On the linear ramp
`1 4/4 60-120` at 48000 Hz, over the reals with the multiplier
`192000 * (ln 105 - ln 60) / 100000` (about 1.0745), beat 3 lies exactly at
frame 100000 inside the entry, and `locate(100000)` selects beat 2 with `init`
clear. On `1 4/4 60-60` at 48000 Hz, multiplier 1, which runs through the same
search, beat 3 lies exactly at frame 144000 and `locate(144000)` selects beat 2
at frame 96000 with `init` clear. -/
theorem ramp_search_misses_beat :
    (∃ M : ℝ, M = 192000 * (Real.log 105 - Real.log 60) / 100000 ∧ 0 < M ∧
      (map_ramp_bar : TempoMap ℝ).valid ∧ (ramp_bar : Entry ℝ).is_ramp ∧
      frame_dist ({ samplerate := 48000, log := Real.log } : Host ℝ) M ramp_bar 0 3 = 100000 ∧
      (100000 : ℝ) < frame_dist ({ samplerate := 48000, log := Real.log } : Host ℝ) M ramp_bar 0
        ((ramp_bar : Entry ℝ).bars * (ramp_bar : Entry ℝ).beats) ∧
      ∃ q, (Position.new ({ samplerate := 48000, log := Real.log } : Host ℝ)
          (map_ramp_bar : TempoMap ℝ) M).locate { samplerate := 48000, log := Real.log } 1 100000
          = some q ∧
        q.entry = 0 ∧ q.bar = 0 ∧ q.beat = 2 ∧ q.init = false ∧ q.frame < 100000 ∧
        q.beat_index < 3) ∧
    ((map_60_60 : TempoMap ℚ).valid ∧
      frame_dist host48k 1 ((map_60_60 : TempoMap ℚ).get 0) 0 3 = 144000 ∧
      (144000 : ℚ) < frame_dist host48k 1 ((map_60_60 : TempoMap ℚ).get 0) 0 4 ∧
      ∃ q, (Position.new host48k (map_60_60 : TempoMap ℚ) 1).locate host48k 1 144000 = some q ∧
        q.entry = 0 ∧ q.bar = 0 ∧ q.beat = 2 ∧ q.init = false ∧ q.frame = 96000 ∧
        q.beat_index < 3) := by
  constructor
  · obtain ⟨hM, e3, e4, hloc, e2⟩ := locate_ramp_bar
      (192000 * (Real.log 105 - Real.log 60) / 100000) (by rw [ramp_bar_three])
    refine ⟨_, rfl, hM, map_ramp_bar_valid, ?_, e3, e4, _, hloc, rfl, rfl, rfl, rfl, ?_, ?_⟩
    · exact ⟨by norm_num [ramp_bar], by norm_num [ramp_bar], by norm_num [ramp_bar],
        by norm_num [ramp_bar]⟩
    · show 0 + frame_dist _ _ ramp_bar 0 2 < 100000
      linarith
    · show (0 : Int) * (ramp_bar : Entry ℝ).beats + 2 < 3
      norm_num
  · have hv : (map_60_60 : TempoMap ℚ).valid := by
      refine ⟨by simp [map_60_60], ?_, ?_, by
        simp only [map_60_60, present_labels, List.map_cons, List.map_nil]
        decide⟩
      · intro e he
        simp only [map_60_60, List.mem_singleton] at he
        subst he
        exact ⟨by norm_num, by norm_num, Or.inl (by norm_num),
          Or.inl ⟨by norm_num, Or.inr rfl⟩, Or.inl rfl, by norm_num, by norm_num⟩
      · intro i hi
        simp [TempoMap.size, map_60_60] at hi
    refine ⟨hv, ?_, ?_, _, locate_60_60, rfl, rfl, rfl, rfl, rfl, ?_⟩
    · norm_num [TempoMap.get, map_60_60, frame_dist, host48k]
    · norm_num [TempoMap.get, map_60_60, frame_dist, host48k]
    · show (0 : Int) * ((map_60_60 : TempoMap ℚ).get 0).beats + 2 < 3
      norm_num

end ClaimsSearchBug
end Klick

namespace Klick
section FrameInvariant

variable {K : Type} [LinearOrderedField K] [FloorRing K]

/-- Once `end` is set, `advance` leaves it set. -/
theorem advance_end_stays (H : Host K) (p : Position K) (he : p.end_ = true) :
    (p.advance H).end_ = true := by
  simp only [Position.advance]
  split_ifs <;> simp_all

/-- In the last beat of an entry the beat is the last of the bar and the bar the
last of the entry. -/
theorem last_beat_of_entry (p : Position K) (hp : p.in_range)
    (hv : (p.tempomap.get p.entry).valid)
    (hfin : (p.tempomap.get p.entry).bars ≠ -1)
    (hlast : p.beat_index + 1 = (p.tempomap.get p.entry).bars * (p.tempomap.get p.entry).beats) :
    p.beat + 1 ≥ (p.tempomap.get p.entry).beats ∧
      p.bar + 1 ≥ (p.tempomap.get p.entry).bars := by
  obtain ⟨_, hb0, hb1, hr0, hr1⟩ := hp
  have hbeats : 1 ≤ (p.tempomap.get p.entry).beats := hv.1
  have hr2 : p.bar < (p.tempomap.get p.entry).bars := by
    rcases hr1 with h | h
    · exact absurd h hfin
    · exact h
  unfold Position.beat_index at hlast
  have hbar : p.bar + 1 ≥ (p.tempomap.get p.entry).bars := by
    by_contra hc
    have h2 : p.bar + 2 ≤ (p.tempomap.get p.entry).bars := by omega
    have h3 : (p.bar + 2) * (p.tempomap.get p.entry).beats
        ≤ (p.tempomap.get p.entry).bars * (p.tempomap.get p.entry).beats :=
      mul_le_mul_of_nonneg_right h2 (by omega)
    nlinarith
  refine ⟨?_, hbar⟩
  have hbe : p.bar + 1 = (p.tempomap.get p.entry).bars := by omega
  rw [← hbe] at hlast
  nlinarith

/-- One step of `advance` keeps the frame invariant, for a cursor whose table of
start frames is the one the constructor computes for its map. -/
theorem advance_frame_inv (H : Host K) (p : Position K) (hm : p.tempomap.valid)
    (hsf : p.start_frames = start_frames_loop H p.multiplier p.tempomap.entries 0)
    (hr : p.end_ = false → p.in_range) (hinv : p.frame_inv H) :
    ((p.advance H).end_ = false → (p.advance H).in_range) ∧ (p.advance H).frame_inv H := by
  by_cases hi : p.init = true
  · rw [advance_of_init H p hi]
    exact ⟨hr, hinv⟩
  have hi' : p.init = false := by simpa using hi
  by_cases he : p.end_ = true
  · have h := advance_end_stays H p he
    constructor
    · intro h2
      rw [h] at h2
      cases h2
    · intro h2
      rw [h] at h2
      cases h2
  have he' : p.end_ = false := by simpa using he
  have hp := hr he'
  have hv := TempoMap.valid.get p.tempomap hm p.entry hp.1
  obtain ⟨h0, h1⟩ := beat_index_range p hp
  have hfr := advance_frame H p hi'
  rw [dist_to_next_eq H p hi' he', hinv he', add_assoc,
    frame_dist_add H p.multiplier _ (Entry.valid.beats_ne _ hv) 0 p.beat_index
      (p.beat_index + 1) (le_refl _) h0 (by omega)] at hfr
  have hin := advance_in_range H p hm hp
  refine ⟨fun _ => hin, ?_⟩
  by_cases hb : (p.tempomap.get p.entry).bars = -1
      ∨ p.beat_index + 1 < (p.tempomap.get p.entry).bars * (p.tempomap.get p.entry).beats
  · obtain ⟨w1, _, w3, _, _⟩ := advance_within H p hi' hp hb
    intro _
    show (p.advance H).frame = (p.advance H).start_frames.getD (p.advance H).entry 0
      + frame_dist H (p.advance H).multiplier ((p.advance H).tempomap.get (p.advance H).entry) 0
          (p.advance H).beat_index
    rw [w3, w1, advance_tempomap, advance_multiplier, advance_start_frames, hfr]
  · push_neg at hb
    obtain ⟨hfin, hge⟩ := hb
    have hlast : p.beat_index + 1
        = (p.tempomap.get p.entry).bars * (p.tempomap.get p.entry).beats := by
      rcases h1 with h | h
      · exact absurd h hfin
      · omega
    obtain ⟨c1, c2⟩ := last_beat_of_entry p hp hv hfin hlast
    by_cases h3 : p.entry + 1 ≥ p.tempomap.size
    · have hadv := advance_end H p hi' c1 ⟨c2, hfin⟩ h3
      intro h2
      rw [hadv] at h2
      cases h2
    · have hadv := advance_entry H p hi' c1 ⟨c2, hfin⟩ h3
      have hE : (p.advance H).entry = p.entry + 1 := by rw [hadv]
      have hBI : (p.advance H).beat_index = 0 := by
        rw [hadv]
        simp [Position.beat_index]
      intro _
      show (p.advance H).frame = (p.advance H).start_frames.getD (p.advance H).entry 0
        + frame_dist H (p.advance H).multiplier ((p.advance H).tempomap.get (p.advance H).entry) 0
            (p.advance H).beat_index
      rw [hBI, hE, advance_tempomap, advance_multiplier, advance_start_frames, hfr,
        frame_dist_self, add_zero, hsf,
        start_frames_loop_succ H p.multiplier p.tempomap.entries 0 p.entry hp.1]
      have hfin' : (p.tempomap.entries.getD p.entry Entry.zero).bars ≠ -1 := hfin
      rw [if_pos hfin', hlast]
      rfl

/-- Any number of steps of `advance` keeps the frame invariant. -/
theorem iterate_advance_frame_inv (H : Host K) (p : Position K) (hm : p.tempomap.valid)
    (hsf : p.start_frames = start_frames_loop H p.multiplier p.tempomap.entries 0)
    (hr : p.end_ = false → p.in_range) (hinv : p.frame_inv H) (k : ℕ) :
    (((Position.advance H)^[k] p).end_ = false → ((Position.advance H)^[k] p).in_range) ∧
      ((Position.advance H)^[k] p).frame_inv H := by
  induction k with
  | zero => exact ⟨hr, hinv⟩
  | succ n ih =>
    rw [Function.iterate_succ_apply']
    refine advance_frame_inv H _ ?_ ?_ ih.1 ih.2
    · rw [iterate_advance_tempomap]
      exact hm
    · rw [iterate_advance_tempomap, iterate_advance_multiplier]
      clear ih
      induction n with
      | zero => exact hsf
      | succ j ihj => rw [Function.iterate_succ_apply', advance_start_frames, ihj]

end FrameInvariant
end Klick

namespace Klick
section FrameInvariantLocate

variable {K : Type} [LinearOrderedField K] [FloorRing K]

/-- The contract of `upper_bound` when some element is after `f` and the first
is not: the element found is after `f`, the one before it is not. -/
theorem upper_bound_spec_of_exists (xs : List K) (f : K) (h0 : xs.getD 0 0 ≤ f)
    (hex : ∃ x ∈ xs, f < x) :
    1 ≤ upper_bound xs f ∧ upper_bound xs f < xs.length ∧
      xs.getD (upper_bound xs f - 1) 0 ≤ f ∧ f < xs.getD (upper_bound xs f) 0 := by
  have hlt : upper_bound xs f < xs.length := by
    unfold upper_bound
    apply List.findIdx_lt_length_of_exists
    obtain ⟨x, hx, hfx⟩ := hex
    exact ⟨x, hx, by simpa using hfx⟩
  have hat : f < xs.getD (upper_bound xs f) 0 := by
    rw [List.getD_eq_getElem _ _ hlt]
    have := @List.findIdx_getElem _ (fun x => decide (f < x)) xs hlt
    simpa [upper_bound] using this
  have h1 : 1 ≤ upper_bound xs f := by
    by_contra h
    have hz : upper_bound xs f = 0 := by omega
    rw [hz] at hat
    exact absurd hat (not_lt.mpr h0)
  refine ⟨h1, hlt, ?_, hat⟩
  have hlt' : upper_bound xs f - 1 < List.findIdx (fun x => decide (f < x)) xs := by
    unfold upper_bound at h1 ⊢
    omega
  have := List.not_of_lt_findIdx hlt'
  rw [List.getD_eq_getElem _ _ (by omega)]
  simpa using this

/-- The gradual-tempo branch of `locate` on an entry played ad infinitum leaves
the cursor on the first beat of the entry, at the start frame of the entry. -/
theorem locate_ramp_inf_frame (H : Host K) (p : Position K) (f : ℕ)
    (hent : p.entry < p.tempomap.size) (hv : (p.tempomap.get p.entry).valid)
    (hinf : (p.tempomap.get p.entry).bars = -1) (fuel : ℕ) (hfuel : 1 ≤ fuel) :
    ∃ q, locate_ramp H fuel p f = some q ∧ q.tempomap = p.tempomap ∧
      q.multiplier = p.multiplier ∧ q.start_frames = p.start_frames ∧ q.end_ = p.end_ ∧
      q.in_range ∧
      q.frame = q.start_frames.getD q.entry 0
        + frame_dist H q.multiplier (q.tempomap.get q.entry) 0 q.beat_index := by
  obtain ⟨hbeats, _, _, _, _⟩ := hv
  obtain ⟨k, rfl⟩ : ∃ k, fuel = k + 1 := ⟨fuel - 1, by omega⟩
  have hneg : ¬ ((0 : Int) ≤ (p.tempomap.get p.entry).bars * (p.tempomap.get p.entry).beats) := by
    rw [hinf]
    omega
  have hs : ramp_search (frame_dist H p.multiplier (p.tempomap.get p.entry) 0)
      ((f : K) - p.start_frames.getD p.entry 0) (k + 1) 0
      ((p.tempomap.get p.entry).bars * (p.tempomap.get p.entry).beats) = some 0 := by
    simp only [ramp_search, if_neg hneg]
  obtain ⟨_, s2, s3, s4, _⟩ := split_beats 0 (p.tempomap.get p.entry).beats (le_refl _) hbeats
  simp only [locate_ramp, hs]
  exact ⟨_, rfl, rfl, rfl, rfl, rfl, ⟨hent, s2, s3, s4, Or.inl hinf⟩, rfl⟩

/-- With enough fuel `locate(f)` returns, for every `f`, a cursor that is at the
end or on a beat of an entry, with the frame invariant. -/
theorem locate_frame_inv (H : Host K) (m : TempoMap K) (M : K) (hm : m.valid)
    (hM : 0 < M) (hS : 0 < H.samplerate) (f : ℕ) :
    ∃ n0, ∀ fuel, n0 ≤ fuel → ∃ q, (Position.new H m M).locate H fuel f = some q ∧
      q.tempomap = m ∧ q.multiplier = M ∧
      q.start_frames = start_frames_loop H M m.entries 0 ∧
      (q.end_ = false → q.in_range) ∧ q.frame_inv H := by
  by_cases hf0 : f = 0
  · subst hf0
    refine ⟨0, fun fuel _ => ⟨_, locate_zero H fuel _, rfl, rfl, rfl,
      fun _ => new_in_range H m M hm, ?_⟩⟩
    intro _
    show (0 : K) = (start_frames_loop H M m.entries 0).getD 0 0
      + frame_dist H M (m.get 0) 0 (0 * (m.get 0).beats + 0)
    rw [start_frames_loop_zero]
    simp [frame_dist_self]
  have hlen := start_frames_loop_length H M m.entries 0
  by_cases hex : ∃ x ∈ start_frames_loop H M m.entries 0, (f : K) < x
  · have h0 : (start_frames_loop H M m.entries 0).getD 0 0 ≤ (f : K) := by
      rw [start_frames_loop_zero]
      exact Nat.cast_nonneg f
    obtain ⟨u1, u2, hle, u4⟩ := upper_bound_spec_of_exists _ _ h0 hex
    have hsz : m.size = m.entries.length := rfl
    have hi : upper_bound (start_frames_loop H M m.entries 0) (f : K) - 1 < m.size := by omega
    have hlt : (f : K) < (start_frames_loop H M m.entries 0).getD
        (upper_bound (start_frames_loop H M m.entries 0) (f : K) - 1 + 1) 0 := by
      have : upper_bound (start_frames_loop H M m.entries 0) (f : K) - 1 + 1
          = upper_bound (start_frames_loop H M m.entries 0) (f : K) := by omega
      rw [this]
      exact u4
    have hv := TempoMap.valid.get m hm _ hi
    have hnext := start_frames_loop_succ H M m.entries 0 _ hi
    rw [hnext] at hlt
    have hlt' : (m.get (upper_bound (start_frames_loop H M m.entries 0) (f : K) - 1)).bars ≠ -1 →
        (f : K) < (start_frames_loop H M m.entries 0).getD
            (upper_bound (start_frames_loop H M m.entries 0) (f : K) - 1) 0
          + frame_dist H M (m.get (upper_bound (start_frames_loop H M m.entries 0) (f : K) - 1)) 0
              ((m.get (upper_bound (start_frames_loop H M m.entries 0) (f : K) - 1)).bars
                * (m.get (upper_bound (start_frames_loop H M m.entries 0) (f : K) - 1)).beats) := by
      intro hb
      have hb' : (m.entries.getD (upper_bound (start_frames_loop H M m.entries 0) (f : K) - 1)
          Entry.zero).bars ≠ -1 := hb
      rw [if_pos hb'] at hlt
      exact hlt
    refine ⟨((m.get (upper_bound (start_frames_loop H M m.entries 0) (f : K) - 1)).bars
        * (m.get (upper_bound (start_frames_loop H M m.entries 0) (f : K) - 1)).beats).toNat + 1,
      ?_⟩
    intro fuel hfuel
    rw [locate_unfold H fuel (Position.new H m M) f hf0 (by
      show upper_bound (start_frames_loop H M m.entries 0) (f : K) - 1 ≠ m.size
      omega)]
    have hc : (Position.new H m M).tempomap.get
          (upper_bound (Position.new H m M).start_frames (f : K) - 1) =
        m.get (upper_bound (start_frames_loop H M m.entries 0) (f : K) - 1) := rfl
    by_cases c1 : (m.get (upper_bound (start_frames_loop H M m.entries 0) (f : K) - 1)).tempo ≠ 0
        ∧ (m.get (upper_bound (start_frames_loop H M m.entries 0) (f : K) - 1)).tempo2 = 0
    · have hs := locate_const_spec H
        { (Position.new H m M).reset with
          entry := upper_bound (Position.new H m M).start_frames (f : K) - 1 } f
        hi hv rfl hM hS c1.1 c1.2 hle hlt'
      simp only [hc, if_pos c1]
      exact ⟨_, rfl, rfl, rfl, rfl, fun _ => hs.2.1, fun _ => hs.2.2.1⟩
    · by_cases c2 : (m.get (upper_bound (start_frames_loop H M m.entries 0) (f : K) - 1)).tempo ≠ 0
        ∧ (m.get (upper_bound (start_frames_loop H M m.entries 0) (f : K) - 1)).tempo2 ≠ 0
      · by_cases hinf : (m.get (upper_bound (start_frames_loop H M m.entries 0) (f : K) - 1)).bars
            = -1
        · obtain ⟨q, hq, q1, q2, q3, q4, q5, q6⟩ := locate_ramp_inf_frame H
            { (Position.new H m M).reset with
              entry := upper_bound (Position.new H m M).start_frames (f : K) - 1 } f
            hi hv hinf fuel (by omega)
          simp only [hc, if_neg c1, if_pos c2, hq]
          exact ⟨_, rfl, q1, q2, q3, fun _ => q5, fun _ => q6⟩
        · obtain ⟨q, hq, q1, q2, q3, q4, q5⟩ := locate_ramp_spec H
            { (Position.new H m M).reset with
              entry := upper_bound (Position.new H m M).start_frames (f : K) - 1 } f
            hi hv rfl c2.1 c2.2 hinf hle (hlt' hinf) fuel hfuel
          simp only [hc, if_neg c1, if_pos c2, hq]
          exact ⟨_, rfl, q1, q2, q3, fun _ => q5.2.1, fun _ => q5.2.2.1⟩
      · have c3 : (m.get (upper_bound (start_frames_loop H M m.entries 0) (f : K) - 1)).tempo
            = 0 := by
          by_contra h
          by_cases h2 : (m.get (upper_bound (start_frames_loop H M m.entries 0) (f : K) - 1)).tempo2
              = 0
          · exact c1 ⟨h, h2⟩
          · exact c2 ⟨h, h2⟩
        obtain ⟨q, hq, q1, q2, q3, q5⟩ := locate_per_beat_spec H
          { (Position.new H m M).reset with
            entry := upper_bound (Position.new H m M).start_frames (f : K) - 1 } f
          hi hv rfl rfl c3 hle hlt' fuel hfuel
        simp only [hc, if_neg c1, if_neg c2, if_pos c3, hq]
        exact ⟨_, rfl, q1, q2, q3, fun _ => q5.2.1, fun _ => q5.2.2.1⟩
  · push_neg at hex
    refine ⟨0, fun fuel _ => ?_⟩
    rw [locate_no_entry H fuel (Position.new H m M) f hf0 hlen hex]
    refine ⟨_, rfl, rfl, rfl, rfl, ?_, ?_⟩
    · intro h
      cases h
    · intro h
      cases h

/-- C16. On a valid map, with a positive multiplier and samplerate, every state
that any number of `advance()` calls reach from `reset()` or from `locate(f)`
(which returns with enough fuel, for every `f`) satisfies, unless `end` is set:
the indices are in range and
`frame = start_frames[entry] + frame_dist(entries[entry], 0, bar*beats + beat)`.
The entries are constant, linear-ramp or per-beat as the map's validity allows,
and the steps include those into the next bar and the next entry. -/
theorem frame_invariant (H : Host K) (m : TempoMap K) (M : K) (hm : m.valid)
    (hM : 0 < M) (hS : 0 < H.samplerate) (f : ℕ) :
    (∀ k, (((Position.advance H)^[k] (Position.new H m M).reset).end_ = false →
        ((Position.advance H)^[k] (Position.new H m M).reset).in_range ∧
        ((Position.advance H)^[k] (Position.new H m M).reset).frame
          = ((Position.advance H)^[k] (Position.new H m M).reset).start_frames.getD
              ((Position.advance H)^[k] (Position.new H m M).reset).entry 0
            + frame_dist H M (m.get ((Position.advance H)^[k] (Position.new H m M).reset).entry) 0
                (((Position.advance H)^[k] (Position.new H m M).reset).bar
                  * (m.get ((Position.advance H)^[k] (Position.new H m M).reset).entry).beats
                  + ((Position.advance H)^[k] (Position.new H m M).reset).beat))) ∧
    ∃ n0, ∀ fuel, n0 ≤ fuel → ∃ q, (Position.new H m M).locate H fuel f = some q ∧
      ∀ k, (((Position.advance H)^[k] q).end_ = false →
        ((Position.advance H)^[k] q).in_range ∧
        ((Position.advance H)^[k] q).frame
          = ((Position.advance H)^[k] q).start_frames.getD ((Position.advance H)^[k] q).entry 0
            + frame_dist H M (m.get ((Position.advance H)^[k] q).entry) 0
                (((Position.advance H)^[k] q).bar
                  * (m.get ((Position.advance H)^[k] q).entry).beats
                  + ((Position.advance H)^[k] q).beat)) := by
  constructor
  · intro k he
    obtain ⟨n0, h⟩ := locate_frame_inv H m M hm hM hS 0
    obtain ⟨q, hq, q1, q2, q3, q4, q5⟩ := h n0 (le_refl _)
    rw [locate_zero] at hq
    cases hq
    obtain ⟨a, b⟩ := iterate_advance_frame_inv H (Position.new H m M).reset hm rfl q4 q5 k
    refine ⟨a he, ?_⟩
    have hb := b he
    unfold Position.beat_index at hb
    rw [iterate_advance_tempomap, iterate_advance_multiplier] at hb
    exact hb
  · obtain ⟨n0, h⟩ := locate_frame_inv H m M hm hM hS f
    refine ⟨n0, fun fuel hfuel => ?_⟩
    obtain ⟨q, hq, q1, q2, q3, q4, q5⟩ := h fuel hfuel
    refine ⟨q, hq, fun k he => ?_⟩
    obtain ⟨a, b⟩ := iterate_advance_frame_inv H q (by rw [q1]; exact hm)
      (by rw [q1, q2]; exact q3) q4 q5 k
    refine ⟨a he, ?_⟩
    have hb := b he
    unfold Position.beat_index at hb
    rw [iterate_advance_tempomap, iterate_advance_multiplier, q1, q2] at hb
    exact hb

end FrameInvariantLocate

/-- The frame invariant on the map `4 4/4 60`, `4 4/4 120` at 48000 Hz, for the
states reached from `reset()` and from `locate(768001)`. -/
theorem frame_invariant_witness :
    (map_60_120 : TempoMap ℚ).valid ∧ (0 : ℚ) < 1 ∧ 0 < host48k.samplerate ∧
    ((∀ k, (((Position.advance host48k)^[k] (Position.new host48k map_60_120 1).reset).end_
        = false →
        ((Position.advance host48k)^[k] (Position.new host48k map_60_120 1).reset).in_range ∧
        ((Position.advance host48k)^[k] (Position.new host48k map_60_120 1).reset).frame
          = ((Position.advance host48k)^[k]
                (Position.new host48k map_60_120 1).reset).start_frames.getD
              ((Position.advance host48k)^[k] (Position.new host48k map_60_120 1).reset).entry 0
            + frame_dist host48k 1 ((map_60_120 : TempoMap ℚ).get
                ((Position.advance host48k)^[k] (Position.new host48k map_60_120 1).reset).entry) 0
                (((Position.advance host48k)^[k] (Position.new host48k map_60_120 1).reset).bar
                  * ((map_60_120 : TempoMap ℚ).get ((Position.advance host48k)^[k]
                      (Position.new host48k map_60_120 1).reset).entry).beats
                  + ((Position.advance host48k)^[k]
                      (Position.new host48k map_60_120 1).reset).beat))) ∧
    ∃ n0, ∀ fuel, n0 ≤ fuel → ∃ q,
      (Position.new host48k map_60_120 1).locate host48k fuel 768001 = some q ∧
      ∀ k, (((Position.advance host48k)^[k] q).end_ = false →
        ((Position.advance host48k)^[k] q).in_range ∧
        ((Position.advance host48k)^[k] q).frame
          = ((Position.advance host48k)^[k] q).start_frames.getD
              ((Position.advance host48k)^[k] q).entry 0
            + frame_dist host48k 1
                ((map_60_120 : TempoMap ℚ).get ((Position.advance host48k)^[k] q).entry) 0
                (((Position.advance host48k)^[k] q).bar
                  * ((map_60_120 : TempoMap ℚ).get ((Position.advance host48k)^[k] q).entry).beats
                  + ((Position.advance host48k)^[k] q).beat))) :=
  ⟨map_60_120_valid, by norm_num, by simp [host48k],
    frame_invariant host48k map_60_120 1 map_60_120_valid (by norm_num) (by simp [host48k])
      768001⟩

end Klick

namespace Klick
section Preroll

variable {K : Type} [LinearOrderedField K] [FloorRing K]

/-- What `add_preroll(n)`, `n ≠ PREROLL_2_BEATS`, binds on a map with unique
labels: the preroll entry in front of the entries of the map. -/
theorem add_preroll_bars (p : Position K) (n : Int) (hn : n ≠ PREROLL_2_BEATS)
    (hfin : n ≠ -1) (hl : (present_labels p.tempomap.entries).Nodup) :
    p.add_preroll n
      = some { p with tempomap :=
          { entries := preroll_entry (p.tempomap.get 0) n :: p.tempomap.entries } } := by
  have hE : ("" : String).isEmpty = true := rfl
  have hj : TempoMap.join
      (TempoMap.new_simple n (p.tempomap.get 0).tempo (p.tempomap.get 0).beats
        (p.tempomap.get 0).denom (p.tempomap.get 0).pattern (66 / 100)) p.tempomap
      = some { entries := preroll_entry (p.tempomap.get 0) n :: p.tempomap.entries } := by
    unfold TempoMap.join
    have h1 : ¬ (((TempoMap.new_simple n (p.tempomap.get 0).tempo (p.tempomap.get 0).beats
        (p.tempomap.get 0).denom (p.tempomap.get 0).pattern
        (66 / 100 : K)).entries.getLast?.map Entry.bars) = some (-1)) := by
      simp [TempoMap.new_simple, hfin]
    have h2 : (present_labels ((TempoMap.new_simple n (p.tempomap.get 0).tempo
        (p.tempomap.get 0).beats (p.tempomap.get 0).denom (p.tempomap.get 0).pattern
        (66 / 100 : K)).entries ++ p.tempomap.entries)).Nodup := by
      have : present_labels ((TempoMap.new_simple n (p.tempomap.get 0).tempo
          (p.tempomap.get 0).beats (p.tempomap.get 0).denom (p.tempomap.get 0).pattern
          (66 / 100 : K)).entries ++ p.tempomap.entries) = present_labels p.tempomap.entries := by
        simp [present_labels, TempoMap.new_simple, hE]
      rw [this]
      exact hl
    rw [if_neg h1, if_pos h2]
    rfl
  simp only [Position.add_preroll]
  rw [if_neg hn, hj]

/-- A step of `advance` in the map with one more entry in front is the step in
the map itself, one entry further. -/
theorem advance_shift_entry (H : Host K) (p : Position K) (x : Entry K) (d : K) (n : Int)
    (sf : List K) (sb : List Int) :
    (p.shift_entry { entries := x :: p.tempomap.entries } d n sf sb).advance H
      = (p.advance H).shift_entry { entries := x :: p.tempomap.entries } d n sf sb := by
  have hg : ∀ i, ({ entries := x :: p.tempomap.entries } : TempoMap K).get (i + 1)
      = p.tempomap.get i := fun i => rfl
  have hs : ({ entries := x :: p.tempomap.entries } : TempoMap K).size = p.tempomap.size + 1 := rfl
  by_cases hi : p.init = true
  · rw [advance_of_init H p hi, advance_of_init H _ (by exact hi)]
    rfl
  have hi' : p.init = false := by simpa using hi
  have hd : (p.shift_entry { entries := x :: p.tempomap.entries } d n sf sb).dist_to_next H
      = p.dist_to_next H := by
    simp only [Position.dist_to_next, Position.shift_entry, hg]
  have hfr : ∀ a : K, p.frame + d + a = p.frame + a + d := fun a => by ring
  by_cases h1 : p.beat + 1 ≥ (p.tempomap.get p.entry).beats
  · by_cases h2 : p.bar + 1 ≥ (p.tempomap.get p.entry).bars ∧ (p.tempomap.get p.entry).bars ≠ -1
    · by_cases h3 : p.entry + 1 ≥ p.tempomap.size
      · rw [advance_end H p hi' h1 h2 h3,
          advance_end H _ (by exact hi') (by exact h1) (by exact h2)
            (by
              show p.entry + 1 + 1 ≥ p.tempomap.size + 1
              omega), hd]
        simp only [Position.shift_entry, hfr]
        congr 1
        ring
      · rw [advance_entry H p hi' h1 h2 h3,
          advance_entry H _ (by exact hi') (by exact h1) (by exact h2)
            (by
              show ¬ (p.entry + 1 + 1 ≥ p.tempomap.size + 1)
              omega), hd]
        simp only [Position.shift_entry, hfr]
        congr 1
        ring
    · rw [advance_bar H p hi' h1 h2,
        advance_bar H _ (by exact hi') (by exact h1) (by exact h2), hd]
      simp only [Position.shift_entry, hfr]
      congr 1
      ring
  · rw [advance_beat H p hi' h1, advance_beat H _ (by exact hi') (by exact h1), hd]
    simp only [Position.shift_entry, hfr]

/-- Any number of steps in the map with one more entry in front. -/
theorem iterate_advance_shift_entry (H : Host K) (p : Position K) (x : Entry K) (d : K)
    (n : Int) (sf : List K) (sb : List Int) (k : ℕ) :
    (Position.advance H)^[k] (p.shift_entry { entries := x :: p.tempomap.entries } d n sf sb)
      = ((Position.advance H)^[k] p).shift_entry { entries := x :: p.tempomap.entries } d n sf
          sb := by
  induction k with
  | zero => rfl
  | succ j ih =>
    rw [Function.iterate_succ_apply', Function.iterate_succ_apply', ih]
    have h := advance_shift_entry H ((Position.advance H)^[j] p) x d n sf sb
    rw [iterate_advance_tempomap] at h
    exact h

/-- The tick of the cursor seen one entry further: the same type and volume, the
frame of the shifted position. -/
theorem tick_shift_entry (p : Position K) (t : TempoMap K) (x : Entry K)
    (ht : t.entries = x :: p.tempomap.entries) (d : K) (n : Int) (sf : List K)
    (sb : List Int) :
    (p.shift_entry t d n sf sb).tick
      = { frame := to_nframes (p.frame + d), type := p.tick.type, volume := p.tick.volume } := by
  have hg : ∀ i, t.get (i + 1) = p.tempomap.get i := by
    intro i
    unfold TempoMap.get
    rw [ht]
    rfl
  simp only [Position.tick, Position.shift_entry, hg]
  split_ifs <;> rfl

end Preroll
end Klick

namespace Klick
section PrerollRun

variable {K : Type} [LinearOrderedField K] [FloorRing K]

/-- The distance to the next tick in a first entry of constant tempo. -/
theorem dist_to_next_const_head (H : Host K) (x : Entry K) (es : List (Entry K))
    (q : Position K) (ht : q.tempomap = { entries := x :: es }) (he : q.entry = 0)
    (hi : q.init = false) (hend : q.end_ = false) (hT : x.tempo ≠ 0) (hT2 : x.tempo2 = 0) :
    q.dist_to_next H = 240 / (x.tempo * (x.denom : K)) * (H.samplerate : K) / q.multiplier := by
  rw [dist_to_next_eq H q hi hend]
  have hx : q.tempomap.get q.entry = x := by
    rw [ht, he]
    rfl
  rw [hx, frame_dist_const H q.multiplier x hT (Or.inl hT2)]
  push_cast
  ring

/-- The run of `advance` through a first entry of constant tempo: after `k + 1`
steps from the reset cursor, `k` less than the beats of the entry, the cursor is
on beat `k` of the entry, `k` beat lengths from the start, and `bar_total` is
the bar. -/
theorem const_entry_run (H : Host K) (x : Entry K) (es : List (Entry K)) (M : K)
    (sf : List K) (sb : List Int) (hT : x.tempo ≠ 0) (hT2 : x.tempo2 = 0)
    (hbeats : 1 ≤ x.beats) (hbars : 1 ≤ x.bars) :
    ∀ k : ℕ, (k : Int) < x.bars * x.beats →
      ∃ b r : Int, 0 ≤ r ∧ r < x.beats ∧ 0 ≤ b ∧ b < x.bars ∧ b * x.beats + r = k ∧
        (Position.advance H)^[k + 1]
            ({ tempomap := { entries := x :: es }, multiplier := M, start_frames := sf,
               start_bars := sb, frame := 0, entry := 0, bar := 0, beat := 0, bar_total := 0,
               init := true, end_ := false } : Position K)
          = { tempomap := { entries := x :: es }, multiplier := M, start_frames := sf,
              start_bars := sb,
              frame := (k : K) * (240 / (x.tempo * (x.denom : K)) * (H.samplerate : K) / M),
              entry := 0, bar := b, beat := r, bar_total := b, init := false,
              end_ := false } := by
  intro k
  induction k with
  | zero =>
    intro _
    refine ⟨0, 0, le_refl _, by omega, le_refl _, by omega, by simp, ?_⟩
    rw [Function.iterate_succ_apply', Function.iterate_zero_apply, advance_of_init H _ rfl]
    simp
  | succ k ih =>
    intro hk
    obtain ⟨b, r, hr0, hr1, hb0, hb1, hbr, hq⟩ := ih (by push_cast at hk; omega)
    rw [Function.iterate_succ_apply', hq]
    have hdist := dist_to_next_const_head H x es
      ({ tempomap := { entries := x :: es }, multiplier := M, start_frames := sf,
         start_bars := sb,
         frame := (k : K) * (240 / (x.tempo * (x.denom : K)) * (H.samplerate : K) / M),
         entry := 0, bar := b, beat := r, bar_total := b, init := false,
         end_ := false } : Position K) rfl rfl rfl rfl hT hT2
    have hfr : (k : K) * (240 / (x.tempo * (x.denom : K)) * (H.samplerate : K) / M)
        + 240 / (x.tempo * (x.denom : K)) * (H.samplerate : K) / M
        = ((k + 1 : ℕ) : K) * (240 / (x.tempo * (x.denom : K)) * (H.samplerate : K) / M) := by
      push_cast
      ring
    by_cases hr : r + 1 < x.beats
    · refine ⟨b, r + 1, by omega, hr, hb0, hb1, by push_cast; omega, ?_⟩
      rw [advance_beat H _ rfl (by
        show ¬ (r + 1 ≥ x.beats)
        omega), hdist]
      simp only [hfr]
    · have hlt : (b + 1) * x.beats < x.bars * x.beats := by
        have : (b + 1) * x.beats = ((k + 1 : ℕ) : Int) := by
          push_cast
          have : r + 1 = x.beats := by omega
          rw [← hbr, add_mul, one_mul]
          omega
        rw [this]
        exact hk
      have hb2 : b + 1 < x.bars := lt_of_mul_lt_mul_right hlt (by omega)
      refine ⟨b + 1, 0, le_refl _, by omega, by omega, hb2, ?_, ?_⟩
      · push_cast
        have : r + 1 = x.beats := by omega
        rw [← hbr, add_mul, one_mul]
        omega
      · rw [advance_bar H _ rfl (by
          show r + 1 ≥ x.beats
          omega) (by
          show ¬ (b + 1 ≥ x.bars ∧ x.bars ≠ -1)
          intro h
          omega), hdist]
        simp only [hfr]

/-- The cursor after the run through the whole first entry of constant tempo,
when another entry follows: on the first beat of the second entry. -/
theorem const_entry_run_end (H : Host K) (x : Entry K) (es : List (Entry K)) (M : K)
    (sf : List K) (sb : List Int) (hT : x.tempo ≠ 0) (hT2 : x.tempo2 = 0)
    (hbeats : 1 ≤ x.beats) (hbars : 1 ≤ x.bars) (hes : es ≠ []) :
    (Position.advance H)^[(x.bars * x.beats).toNat + 1]
        ({ tempomap := { entries := x :: es }, multiplier := M, start_frames := sf,
           start_bars := sb, frame := 0, entry := 0, bar := 0, beat := 0, bar_total := 0,
           init := true, end_ := false } : Position K)
      = { tempomap := { entries := x :: es }, multiplier := M, start_frames := sf,
          start_bars := sb,
          frame := ((x.bars * x.beats : Int) : K)
            * (240 / (x.tempo * (x.denom : K)) * (H.samplerate : K) / M),
          entry := 1, bar := 0, beat := 0, bar_total := x.bars, init := false,
          end_ := false } := by
  have hpos : 1 ≤ x.bars * x.beats := by nlinarith
  obtain ⟨N, hN⟩ : ∃ N, (x.bars * x.beats).toNat = N + 1 :=
    ⟨(x.bars * x.beats).toNat - 1, by omega⟩
  have hNi : (N : Int) + 1 = x.bars * x.beats := by omega
  obtain ⟨b, r, hr0, hr1, hb0, hb1, hbr, hq⟩ :=
    const_entry_run H x es M sf sb hT hT2 hbeats hbars N (by omega)
  have hb : b + 1 = x.bars := by
    by_contra hc
    have h2 : b + 2 ≤ x.bars := by omega
    have h3 : (b + 2) * x.beats ≤ x.bars * x.beats :=
      mul_le_mul_of_nonneg_right h2 (by omega)
    nlinarith
  have hr : r + 1 = x.beats := by
    rw [← hb] at hNi
    nlinarith
  rw [hN, Function.iterate_succ_apply', hq]
  have hdist := dist_to_next_const_head H x es
    ({ tempomap := { entries := x :: es }, multiplier := M, start_frames := sf,
       start_bars := sb,
       frame := (N : K) * (240 / (x.tempo * (x.denom : K)) * (H.samplerate : K) / M),
       entry := 0, bar := b, beat := r, bar_total := b, init := false,
       end_ := false } : Position K) rfl rfl rfl rfl hT hT2
  have hcast : ((x.bars * x.beats : Int) : K) = (N : K) + 1 := by
    rw [← hNi]
    push_cast
    ring
  rw [advance_entry H _ rfl (by
      show r + 1 ≥ x.beats
      omega) (by
      show b + 1 ≥ x.bars ∧ x.bars ≠ -1
      constructor <;> omega) (by
      show ¬ (0 + 1 ≥ (x :: es).length)
      have : 0 < es.length := List.length_pos.mpr hes
      simp only [List.length_cons]
      omega), hdist, hcast]
  have hfr : (N : K) * (240 / (x.tempo * (x.denom : K)) * (H.samplerate : K) / M)
      + 240 / (x.tempo * (x.denom : K)) * (H.samplerate : K) / M
      = ((N : K) + 1) * (240 / (x.tempo * (x.denom : K)) * (H.samplerate : K) / M) := by ring
  simp only [hfr, hb, zero_add]

end PrerollRun
end Klick

namespace Klick
section PrerollPurity

variable {K : Type} [LinearOrderedField K] [FloorRing K]

/-- The cursor in the map with a preroll of `n` bars in front, after the beats of
the preroll and `j` further steps, is the cursor of the map itself after `j`
steps from its first tick, seen one entry, `n` bars and the preroll's frames
further. -/
theorem preroll_shift (H : Host K) (m : TempoMap K) (M : K) (n : Int) (hm : m.valid)
    (hc : (m.get 0).is_const) (hn : 1 ≤ n) (j : ℕ) :
    (Position.advance H)^[(n * (m.get 0).beats).toNat + 1 + j]
        ({ (Position.new H m M) with
            tempomap := { entries := preroll_entry (m.get 0) n :: m.entries } }
          : Position K).reset
      = ((Position.advance H)^[1 + j] (Position.new H m M)).shift_entry
          { entries := preroll_entry (m.get 0) n :: m.entries }
          (((n * (m.get 0).beats : Int) : K)
            * (240 / ((m.get 0).tempo * ((m.get 0).denom : K)) * (H.samplerate : K) / M))
          n (start_frames_loop H M m.entries 0) (start_bars_loop m.entries 0) := by
  have hsz : 0 < m.size := List.length_pos.mpr hm.1
  have hv := TempoMap.valid.get m hm 0 hsz
  have key : (Position.advance H)^[(n * (m.get 0).beats).toNat + 1]
        ({ (Position.new H m M) with
            tempomap := { entries := preroll_entry (m.get 0) n :: m.entries } }
          : Position K).reset
      = ({ (Position.new H m M) with init := false } : Position K).shift_entry
          { entries := preroll_entry (m.get 0) n :: m.entries }
          (((n * (m.get 0).beats : Int) : K)
            * (240 / ((m.get 0).tempo * ((m.get 0).denom : K)) * (H.samplerate : K) / M))
          n (start_frames_loop H M m.entries 0) (start_bars_loop m.entries 0) := by
    have h := const_entry_run_end H (preroll_entry (m.get 0) n) m.entries M
      (start_frames_loop H M m.entries 0) (start_bars_loop m.entries 0)
      (ne_of_gt hc.1) rfl hv.1 hn hm.1
    refine h.trans ?_
    simp only [Position.shift_entry, Position.new, Position.reset, preroll_entry, zero_add]
  rw [show (n * (m.get 0).beats).toNat + 1 + j = j + ((n * (m.get 0).beats).toNat + 1) by omega,
    Function.iterate_add_apply, key, show 1 + j = j + 1 by omega,
    Function.iterate_add_apply (Position.advance H) j 1 (Position.new H m M),
    Function.iterate_one, advance_of_init H (Position.new H m M) rfl]
  exact iterate_advance_shift_entry H ({ (Position.new H m M) with init := false } : Position K)
    (preroll_entry (m.get 0) n) _ n _ _ j

/-- During the preroll of `n` bars the total bar count is below `n`. -/
theorem preroll_bar_total (H : Host K) (m : TempoMap K) (M : K) (n : Int) (hm : m.valid)
    (hc : (m.get 0).is_const) (hn : 1 ≤ n) (k : ℕ) (hk : k ≤ (n * (m.get 0).beats).toNat) :
    ((Position.advance H)^[k]
        ({ (Position.new H m M) with
            tempomap := { entries := preroll_entry (m.get 0) n :: m.entries } }
          : Position K).reset).bar_total < n := by
  have hsz : 0 < m.size := List.length_pos.mpr hm.1
  have hv := TempoMap.valid.get m hm 0 hsz
  rcases Nat.eq_zero_or_pos k with h0 | hpos
  · subst h0
    show (0 : Int) < n
    omega
  · obtain ⟨i, rfl⟩ : ∃ i, k = i + 1 := ⟨k - 1, by omega⟩
    have hbeats : 1 ≤ (m.get 0).beats := hv.1
    have hnb : 0 ≤ n * (m.get 0).beats := by nlinarith
    obtain ⟨b, r, _, _, _, hb1, _, hq⟩ := const_entry_run H (preroll_entry (m.get 0) n)
      m.entries M (start_frames_loop H M m.entries 0) (start_bars_loop m.entries 0)
      (ne_of_gt hc.1) rfl hv.1 hn i (by
        show (i : Int) < n * (m.get 0).beats
        omega)
    have hq' : (Position.advance H)^[i + 1]
        ({ (Position.new H m M) with
            tempomap := { entries := preroll_entry (m.get 0) n :: m.entries } }
          : Position K).reset = _ := hq
    rw [hq']
    exact hb1

end PrerollPurity
end Klick

namespace Klick
section PrerollClaim

variable {K : Type} [LinearOrderedField K] [FloorRing K]

/-- The preroll in exact arithmetic: after the beats of the preroll the cursor
repeats the states of the original map, `n` bars and the preroll's frames
further. -/
theorem preroll_exact (H : Host K) (m : TempoMap K) (M : K) (n : Int) (hm : m.valid)
    (hc : (m.get 0).is_const) (hn : 1 ≤ n) :
    ∃ p, (Position.new H m M).add_preroll n = some p ∧
      ∀ fuel, ∃ q0 o0, p.locate H fuel 0 = some q0 ∧
        (Position.new H m M).locate H fuel 0 = some o0 ∧
        (∀ k, k ≤ (n * (m.get 0).beats).toNat →
          ((Position.advance H)^[k] q0).bar_total < n) ∧
        ∀ j : ℕ,
          ((Position.advance H)^[(n * (m.get 0).beats).toNat + 1 + j] q0).bar_total
            = ((Position.advance H)^[1 + j] o0).bar_total + n ∧
          ((Position.advance H)^[(n * (m.get 0).beats).toNat + 1 + j] q0).tick.type
            = ((Position.advance H)^[1 + j] o0).tick.type ∧
          ((Position.advance H)^[(n * (m.get 0).beats).toNat + 1 + j] q0).tick.volume
            = ((Position.advance H)^[1 + j] o0).tick.volume ∧
          ((Position.advance H)^[(n * (m.get 0).beats).toNat + 1 + j] q0).frame
            = ((Position.advance H)^[1 + j] o0).frame
              + ((n * (m.get 0).beats : Int) : K) * 240
                  / ((m.get 0).tempo * ((m.get 0).denom : K))
                  * (H.samplerate : K) / M ∧
          ((Position.advance H)^[(n * (m.get 0).beats).toNat + 1 + j] q0).tick.frame
            = to_nframes (((Position.advance H)^[1 + j] o0).frame
              + ((n * (m.get 0).beats : Int) : K) * 240
                  / ((m.get 0).tempo * ((m.get 0).denom : K))
                  * (H.samplerate : K) / M) := by
  have hd : ((n * (m.get 0).beats : Int) : K) * 240
        / ((m.get 0).tempo * ((m.get 0).denom : K)) * (H.samplerate : K) / M
      = ((n * (m.get 0).beats : Int) : K)
        * (240 / ((m.get 0).tempo * ((m.get 0).denom : K)) * (H.samplerate : K) / M) := by
    ring
  refine ⟨_, add_preroll_bars (Position.new H m M) n (by
      show n ≠ 0
      omega) (by omega) hm.2.2.2, ?_⟩
  intro fuel
  refine ⟨_, _, locate_zero H fuel _, locate_zero H fuel _, ?_, ?_⟩
  · intro k hk
    exact preroll_bar_total H m M n hm hc hn k hk
  · intro j
    have h := preroll_shift H m M n hm hc hn j
    have h' : (Position.advance H)^[(n * (m.get 0).beats).toNat + 1 + j]
        (({ (Position.new H m M) with
            tempomap := { entries := preroll_entry ((Position.new H m M).tempomap.get 0) n
              :: (Position.new H m M).tempomap.entries } } : Position K)).reset
        = ((Position.advance H)^[1 + j] (Position.new H m M).reset).shift_entry
          { entries := preroll_entry (m.get 0) n :: m.entries }
          (((n * (m.get 0).beats : Int) : K)
            * (240 / ((m.get 0).tempo * ((m.get 0).denom : K)) * (H.samplerate : K) / M))
          n (start_frames_loop H M m.entries 0) (start_bars_loop m.entries 0) := h
    rw [h', hd]
    have ht := tick_shift_entry ((Position.advance H)^[1 + j] (Position.new H m M).reset)
      { entries := preroll_entry (m.get 0) n :: m.entries } (preroll_entry (m.get 0) n)
      (by rw [iterate_advance_tempomap]; rfl)
      (((n * (m.get 0).beats : Int) : K)
        * (240 / ((m.get 0).tempo * ((m.get 0).denom : K)) * (H.samplerate : K) / M))
      n (start_frames_loop H M m.entries 0) (start_bars_loop m.entries 0)
    rw [ht]
    exact ⟨rfl, rfl, rfl, rfl, rfl⟩

/-- The preroll in machine arithmetic: after the beats of the preroll the total
bar count, the type and the volume of the ticks repeat those of the original
map. -/
theorem preroll_machine (H : Host ℚ) (m : TempoMap ℚ) (M : ℚ) (n : Int) (hm : m.valid)
    (hc : (m.get 0).is_const) (hn : 1 ≤ n) :
    ∃ p, (Position.new64 H m M).add_preroll n = some p ∧
      ∀ fuel, ∃ q0 o0, p.locate64 H fuel 0 = some q0 ∧
        (Position.new64 H m M).locate64 H fuel 0 = some o0 ∧
        (∀ k, k ≤ (n * (m.get 0).beats).toNat →
          ((Position.advance64 H)^[k] q0).bar_total < n) ∧
        ∀ j : ℕ,
          ((Position.advance64 H)^[(n * (m.get 0).beats).toNat + 1 + j] q0).bar_total
            = ((Position.advance64 H)^[1 + j] o0).bar_total + n ∧
          ((Position.advance64 H)^[(n * (m.get 0).beats).toNat + 1 + j] q0).tick.type
            = ((Position.advance64 H)^[1 + j] o0).tick.type ∧
          ((Position.advance64 H)^[(n * (m.get 0).beats).toNat + 1 + j] q0).tick.volume
            = ((Position.advance64 H)^[1 + j] o0).tick.volume := by
  obtain ⟨p, hp, hrest⟩ := preroll_exact H m M n hm hc hn
  have hpe := add_preroll_bars (Position.new H m M) n (by
      show n ≠ 0
      omega) (by omega) hm.2.2.2
  rw [hpe] at hp
  have hpp := Option.some.inj hp
  obtain ⟨q0, o0, hq0, ho0, hpre, hpost⟩ := hrest 0
  rw [locate_zero] at hq0 ho0
  have hq := Option.some.inj hq0
  have ho := Option.some.inj ho0
  rw [← hpp] at hq
  refine ⟨_, add_preroll_bars (Position.new64 H m M) n (by
      show n ≠ 0
      omega) (by omega) hm.2.2.2, ?_⟩
  intro fuel
  refine ⟨_, _, locate64_zero H fuel _, locate64_zero H fuel _, ?_, ?_⟩
  · intro k hk
    have h1 := iterate_advance64_discrete H k
      (({ (Position.new64 H m M) with
          tempomap := { entries := preroll_entry ((Position.new64 H m M).tempomap.get 0) n
            :: (Position.new64 H m M).tempomap.entries } } : Position ℚ)).reset q0
      (by rw [← hq]; rfl)
    rw [(tick_of_discrete _ _ h1).1]
    exact hpre k hk
  · intro j
    have h1 := iterate_advance64_discrete H ((n * (m.get 0).beats).toNat + 1 + j)
      (({ (Position.new64 H m M) with
          tempomap := { entries := preroll_entry ((Position.new64 H m M).tempomap.get 0) n
            :: (Position.new64 H m M).tempomap.entries } } : Position ℚ)).reset q0
      (by rw [← hq]; rfl)
    have h2 := iterate_advance64_discrete H (1 + j) (Position.new64 H m M).reset o0
      (by rw [← ho]; rfl)
    obtain ⟨a1, a2, a3⟩ := tick_of_discrete _ _ h1
    obtain ⟨b1, b2, b3⟩ := tick_of_discrete _ _ h2
    obtain ⟨c1, c2, c3, _, _⟩ := hpost j
    rw [a1, a2, a3, b1, b2, b3]
    exact ⟨c1, c2, c3⟩

/-- C13 (amended). For a valid map whose entry 0 has constant tempo and `n ≥ 1`,
`add_preroll(n)` succeeds and `locate(0)` returns; during the `n * beats` beats
of the preroll `bar_total` is below `n`; from then on the `j`-th state has
`bar_total` equal to `n` plus that of the `j`-th state of the original map after
its `locate(0)`, and its tick has the same type and volume as the original
`j`-th tick: this much in exact arithmetic and in machine arithmetic (second
part, on `H2`, `m2`, `M2`) alike. In exact arithmetic (no operation rounds) the
untruncated frame is the original untruncated frame plus the preroll duration
`n*beats*240/(tempo*denom)*S/M`, and `tick().frame` is the conversion of that
sum to `nframes_t` (not the original `tick().frame` plus the duration). -/
theorem preroll_purity (H : Host K) (m : TempoMap K) (M : K) (n : Int) (hm : m.valid)
    (hc : (m.get 0).is_const) (hn : 1 ≤ n) (H2 : Host ℚ) (m2 : TempoMap ℚ) (M2 : ℚ)
    (hm2 : m2.valid) (hc2 : (m2.get 0).is_const) :
    (∃ p, (Position.new H m M).add_preroll n = some p ∧
      ∀ fuel, ∃ q0 o0, p.locate H fuel 0 = some q0 ∧
        (Position.new H m M).locate H fuel 0 = some o0 ∧
        (∀ k, k ≤ (n * (m.get 0).beats).toNat →
          ((Position.advance H)^[k] q0).bar_total < n) ∧
        ∀ j : ℕ,
          ((Position.advance H)^[(n * (m.get 0).beats).toNat + 1 + j] q0).bar_total
            = ((Position.advance H)^[1 + j] o0).bar_total + n ∧
          ((Position.advance H)^[(n * (m.get 0).beats).toNat + 1 + j] q0).tick.type
            = ((Position.advance H)^[1 + j] o0).tick.type ∧
          ((Position.advance H)^[(n * (m.get 0).beats).toNat + 1 + j] q0).tick.volume
            = ((Position.advance H)^[1 + j] o0).tick.volume ∧
          ((Position.advance H)^[(n * (m.get 0).beats).toNat + 1 + j] q0).frame
            = ((Position.advance H)^[1 + j] o0).frame
              + ((n * (m.get 0).beats : Int) : K) * 240
                  / ((m.get 0).tempo * ((m.get 0).denom : K))
                  * (H.samplerate : K) / M ∧
          ((Position.advance H)^[(n * (m.get 0).beats).toNat + 1 + j] q0).tick.frame
            = to_nframes (((Position.advance H)^[1 + j] o0).frame
              + ((n * (m.get 0).beats : Int) : K) * 240
                  / ((m.get 0).tempo * ((m.get 0).denom : K))
                  * (H.samplerate : K) / M)) ∧
    (∃ p, (Position.new64 H2 m2 M2).add_preroll n = some p ∧
      ∀ fuel, ∃ q0 o0, p.locate64 H2 fuel 0 = some q0 ∧
        (Position.new64 H2 m2 M2).locate64 H2 fuel 0 = some o0 ∧
        (∀ k, k ≤ (n * (m2.get 0).beats).toNat →
          ((Position.advance64 H2)^[k] q0).bar_total < n) ∧
        ∀ j : ℕ,
          ((Position.advance64 H2)^[(n * (m2.get 0).beats).toNat + 1 + j] q0).bar_total
            = ((Position.advance64 H2)^[1 + j] o0).bar_total + n ∧
          ((Position.advance64 H2)^[(n * (m2.get 0).beats).toNat + 1 + j] q0).tick.type
            = ((Position.advance64 H2)^[1 + j] o0).tick.type ∧
          ((Position.advance64 H2)^[(n * (m2.get 0).beats).toNat + 1 + j] q0).tick.volume
            = ((Position.advance64 H2)^[1 + j] o0).tick.volume) :=
  ⟨preroll_exact H m M n hm hc hn, preroll_machine H2 m2 M2 n hm2 hc2 hn⟩

end PrerollClaim

/-- The amended preroll purity on the map `4 4/4 60`, `4 4/4 120` at 48000 Hz
with a preroll of 2 bars, in exact arithmetic and in machine arithmetic. -/
theorem preroll_purity_witness :
    (map_60_120 : TempoMap ℚ).valid ∧ ((map_60_120 : TempoMap ℚ).get 0).is_const ∧
    (1 : Int) ≤ 2 ∧
    (∃ p, (Position.new host48k (map_60_120 : TempoMap ℚ) 1).add_preroll 2 = some p ∧
      ∀ fuel, ∃ q0 o0, p.locate host48k fuel 0 = some q0 ∧
        (Position.new host48k (map_60_120 : TempoMap ℚ) 1).locate host48k fuel 0 = some o0 ∧
        (∀ k, k ≤ ((2 : Int) * ((map_60_120 : TempoMap ℚ).get 0).beats).toNat →
          ((Position.advance host48k)^[k] q0).bar_total < 2) ∧
        ∀ j : ℕ,
          ((Position.advance host48k)^[((2 : Int) * ((map_60_120 : TempoMap ℚ).get 0).beats).toNat + 1 + j] q0).bar_total
            = ((Position.advance host48k)^[1 + j] o0).bar_total + 2 ∧
          ((Position.advance host48k)^[((2 : Int) * ((map_60_120 : TempoMap ℚ).get 0).beats).toNat + 1 + j] q0).tick.type
            = ((Position.advance host48k)^[1 + j] o0).tick.type ∧
          ((Position.advance host48k)^[((2 : Int) * ((map_60_120 : TempoMap ℚ).get 0).beats).toNat + 1 + j] q0).tick.volume
            = ((Position.advance host48k)^[1 + j] o0).tick.volume ∧
          ((Position.advance host48k)^[((2 : Int) * ((map_60_120 : TempoMap ℚ).get 0).beats).toNat + 1 + j] q0).frame
            = ((Position.advance host48k)^[1 + j] o0).frame
              + (((2 : Int) * ((map_60_120 : TempoMap ℚ).get 0).beats : Int) : ℚ) * 240
                  / (((map_60_120 : TempoMap ℚ).get 0).tempo * ((((map_60_120 : TempoMap ℚ).get 0).denom : Int) : ℚ))
                  * (host48k.samplerate : ℚ) / 1 ∧
          ((Position.advance host48k)^[((2 : Int) * ((map_60_120 : TempoMap ℚ).get 0).beats).toNat + 1 + j] q0).tick.frame
            = to_nframes (((Position.advance host48k)^[1 + j] o0).frame
              + (((2 : Int) * ((map_60_120 : TempoMap ℚ).get 0).beats : Int) : ℚ) * 240
                  / (((map_60_120 : TempoMap ℚ).get 0).tempo * ((((map_60_120 : TempoMap ℚ).get 0).denom : Int) : ℚ))
                  * (host48k.samplerate : ℚ) / 1)) ∧
    (∃ p, (Position.new64 host48k (map_60_120 : TempoMap ℚ) 1).add_preroll 2 = some p ∧
      ∀ fuel, ∃ q0 o0, p.locate64 host48k fuel 0 = some q0 ∧
        (Position.new64 host48k (map_60_120 : TempoMap ℚ) 1).locate64 host48k fuel 0 = some o0 ∧
        (∀ k, k ≤ ((2 : Int) * ((map_60_120 : TempoMap ℚ).get 0).beats).toNat →
          ((Position.advance64 host48k)^[k] q0).bar_total < 2) ∧
        ∀ j : ℕ,
          ((Position.advance64 host48k)^[((2 : Int) * ((map_60_120 : TempoMap ℚ).get 0).beats).toNat + 1 + j] q0).bar_total
            = ((Position.advance64 host48k)^[1 + j] o0).bar_total + 2 ∧
          ((Position.advance64 host48k)^[((2 : Int) * ((map_60_120 : TempoMap ℚ).get 0).beats).toNat + 1 + j] q0).tick.type
            = ((Position.advance64 host48k)^[1 + j] o0).tick.type ∧
          ((Position.advance64 host48k)^[((2 : Int) * ((map_60_120 : TempoMap ℚ).get 0).beats).toNat + 1 + j] q0).tick.volume
            = ((Position.advance64 host48k)^[1 + j] o0).tick.volume) :=
  ⟨map_60_120_valid,
    ⟨by norm_num [TempoMap.get, map_60_120, const_entry],
      Or.inl (by simp [TempoMap.get, map_60_120, const_entry])⟩,
    by decide,
    preroll_purity host48k map_60_120 1 2 map_60_120_valid
      ⟨by norm_num [TempoMap.get, map_60_120, const_entry],
        Or.inl (by simp [TempoMap.get, map_60_120, const_entry])⟩
      (by decide) host48k map_60_120 1 map_60_120_valid
      ⟨by norm_num [TempoMap.get, map_60_120, const_entry],
        Or.inl (by simp [TempoMap.get, map_60_120, const_entry])⟩⟩

end Klick

namespace Klick

/-- The cursor of the map `* 4/4 108` with a preroll of `n` bars in front, in
machine arithmetic at 48000 Hz, after the `N = 4 * n` beats of the preroll: on
the first beat of the map itself, the frame the sum of `N` rounded additions of
the beat length `d`. -/
theorem preroll_run64_108 (n : Int) (hn : 1 ≤ n) (N : ℕ) (hN : (n * 4).toNat = N) (d : ℚ)
    (hd : frame_dist64 host48k 1 (preroll_entry (const_entry "" (-1) 108 4 4) n) 0 1 = d) :
    (Position.advance64 host48k)^[N + 1]
        (({ (Position.new64 host48k (map_inf_108 : TempoMap ℚ) 1) with
          tempomap := { entries := preroll_entry ((map_inf_108 : TempoMap ℚ).get 0) n
            :: (map_inf_108 : TempoMap ℚ).entries } } : Position ℚ)).reset
      = { (({ (Position.new64 host48k (map_inf_108 : TempoMap ℚ) 1) with
          tempomap := { entries := preroll_entry ((map_inf_108 : TempoMap ℚ).get 0) n
            :: (map_inf_108 : TempoMap ℚ).entries } } : Position ℚ)).reset with
          init := false, frame := acc64 d 0 N, entry := 1, bar_total := n } := by
  subst hN
  subst hd
  rw [Function.iterate_succ_apply, advance64_of_init _ _ rfl]
  have h := entry_run64_next host48k
    ({ (({ (Position.new64 host48k (map_inf_108 : TempoMap ℚ) 1) with
          tempomap := { entries := preroll_entry ((map_inf_108 : TempoMap ℚ).get 0) n
            :: (map_inf_108 : TempoMap ℚ).entries } } : Position ℚ)).reset with
        init := false } : Position ℚ) rfl rfl rfl rfl
    (by
      show (108 : ℚ) ≠ 0
      norm_num)
    (Or.inl rfl)
    (by
      show (1 : Int) ≤ 4
      decide)
    hn
    (by
      show 0 + 1 < 2
      decide)
  refine Eq.trans h ?_
  have e : (0 : Int) + n = n := zero_add n
  show ({ (({ (Position.new64 host48k (map_inf_108 : TempoMap ℚ) 1) with
          tempomap := { entries := preroll_entry ((map_inf_108 : TempoMap ℚ).get 0) n
            :: (map_inf_108 : TempoMap ℚ).entries } } : Position ℚ)).reset with
      init := false,
      frame := acc64 (frame_dist64 host48k 1
        (preroll_entry (const_entry "" (-1) 108 4 4) n) 0 1) 0 (n * 4).toNat,
      entry := 1, bar_total := 0 + n } : Position ℚ) = _
  rw [e]

/-- The step from the first to the second beat of `* 4/4 108` behind a preroll of
`n` bars, in machine arithmetic. -/
theorem preroll_step64_108 (n : Int) (x : ℚ) :
    Position.advance64 host48k
        ({ (({ (Position.new64 host48k (map_inf_108 : TempoMap ℚ) 1) with
          tempomap := { entries := preroll_entry ((map_inf_108 : TempoMap ℚ).get 0) n
            :: (map_inf_108 : TempoMap ℚ).entries } } : Position ℚ)).reset with
          init := false, frame := x, entry := 1, bar_total := n } : Position ℚ)
      = { (({ (Position.new64 host48k (map_inf_108 : TempoMap ℚ) 1) with
          tempomap := { entries := preroll_entry ((map_inf_108 : TempoMap ℚ).get 0) n
            :: (map_inf_108 : TempoMap ℚ).entries } } : Position ℚ)).reset with
          init := false, frame := rnd64 (x + (7330077518506667 / 274877906944)), entry := 1,
          bar_total := n, beat := 1 } := by
  rw [advance64_beat _ _ rfl (by
    show ¬ ((0 : Int) + 1 ≥ 4)
    decide)]
  rw [dist_to_next64_const host48k
    ({ (({ (Position.new64 host48k (map_inf_108 : TempoMap ℚ) 1) with
          tempomap := { entries := preroll_entry ((map_inf_108 : TempoMap ℚ).get 0) n
            :: (map_inf_108 : TempoMap ℚ).entries } } : Position ℚ)).reset with
          init := false, frame := x, entry := 1, bar_total := n } : Position ℚ) rfl rfl (by
    show (108 : ℚ) ≠ 0
    norm_num) (Or.inl rfl)]
  have hd : frame_dist64 host48k
      (({ (({ (Position.new64 host48k (map_inf_108 : TempoMap ℚ) 1) with
          tempomap := { entries := preroll_entry ((map_inf_108 : TempoMap ℚ).get 0) n
            :: (map_inf_108 : TempoMap ℚ).entries } } : Position ℚ)).reset with
          init := false, frame := x, entry := 1, bar_total := n } : Position ℚ)).multiplier
      ((({ (({ (Position.new64 host48k (map_inf_108 : TempoMap ℚ) 1) with
          tempomap := { entries := preroll_entry ((map_inf_108 : TempoMap ℚ).get 0) n
            :: (map_inf_108 : TempoMap ℚ).entries } } : Position ℚ)).reset with
          init := false, frame := x, entry := 1, bar_total := n } : Position ℚ)).tempomap.get
        (({ (({ (Position.new64 host48k (map_inf_108 : TempoMap ℚ) 1) with
          tempomap := { entries := preroll_entry ((map_inf_108 : TempoMap ℚ).get 0) n
            :: (map_inf_108 : TempoMap ℚ).entries } } : Position ℚ)).reset with
          init := false, frame := x, entry := 1, bar_total := n } : Position ℚ)).entry) 0 1
      = (7330077518506667 / 274877906944) := frame_dist64_108_0_1
  rw [hd]
  rfl

/-- The first two ticks of the map `* 4/4 108` at 48000 Hz, multiplier 1, in
machine arithmetic: frames 0 and 26666.666666666668. -/
theorem first_ticks64_inf_108 :
    ((Position.advance64 host48k)^[1] (Position.new64 host48k (map_inf_108 : TempoMap ℚ) 1).reset).frame = 0 ∧
    ((Position.advance64 host48k)^[2] (Position.new64 host48k (map_inf_108 : TempoMap ℚ) 1).reset).frame
      = (7330077518506667 / 274877906944) := by
  constructor
  · rw [Function.iterate_one, advance64_of_init _ _ rfl]
    rfl
  · obtain ⟨b, r, _, _, _, _, h⟩ := single_run64 host48k (const_entry "" (-1) 108 4 4) 1 rfl
      (by norm_num [const_entry]) (Or.inl rfl) (by decide) 1
    have h2 : (Position.advance64 host48k)^[2] (Position.new64 host48k (map_inf_108 : TempoMap ℚ) 1).reset
        = _ := h
    rw [h2]
    show acc64 (frame_dist64 host48k 1 (const_entry "" (-1) 108 4 4) 0 1) 0 1 = _
    rw [frame_dist64_108_0_1]
    exact acc64_108_1

/-- C13, as stated, fails in machine arithmetic on the valid map `* 4/4 108` at
48000 Hz, multiplier 1. With a preroll of 1 bar the preroll lasts 320000/3
frames, no whole number: the first tick after the preroll has frame 106666 and
the original first tick frame 0, the second 133333 and the original second
26666, so the tick frames are not the original ones shifted by the preroll
duration, nor by any one number of frames. With a preroll of 2 bars the frame of
the second tick after the preroll, added up beat by beat, is 239999.99999999997
and `tick().frame` is 239999, while the original frame 26666.666666666668 plus
the duration 640000/3 is above 240000 (and is 240000 when added in doubles), so
`tick().frame` is not the conversion of the original untruncated frame plus the
duration either. -/
theorem preroll_purity_counterexample :
    (map_inf_108 : TempoMap ℚ).valid ∧ ((map_inf_108 : TempoMap ℚ).get 0).is_const ∧
    (∃ p q0 o0, (Position.new64 host48k (map_inf_108 : TempoMap ℚ) 1).add_preroll 1 = some p ∧
      p.tempomap.valid ∧
      p.locate64 host48k 0 0 = some q0 ∧
      (Position.new64 host48k (map_inf_108 : TempoMap ℚ) 1).locate64 host48k 0 0 = some o0 ∧
      (((1 : Int) * ((map_inf_108 : TempoMap ℚ).get 0).beats : Int) : ℚ) * 240
          / (((map_inf_108 : TempoMap ℚ).get 0).tempo
            * ((((map_inf_108 : TempoMap ℚ).get 0).denom : Int) : ℚ))
          * (host48k.samplerate : ℚ) / 1 = 320000 / 3 ∧
      ((Position.advance64 host48k)^[5] q0).tick.frame = 106666 ∧
      ((Position.advance64 host48k)^[1] o0).tick.frame = 0 ∧
      ((Position.advance64 host48k)^[6] q0).tick.frame = 133333 ∧
      ((Position.advance64 host48k)^[2] o0).tick.frame = 26666 ∧
      ((((Position.advance64 host48k)^[5] q0).tick.frame : ℕ) : ℚ)
        ≠ ((((Position.advance64 host48k)^[1] o0).tick.frame : ℕ) : ℚ) + 320000 / 3 ∧
      ¬ ∃ s : ℕ,
        ((Position.advance64 host48k)^[5] q0).tick.frame
            = ((Position.advance64 host48k)^[1] o0).tick.frame + s ∧
        ((Position.advance64 host48k)^[6] q0).tick.frame
            = ((Position.advance64 host48k)^[2] o0).tick.frame + s) ∧
    (∃ p q0 o0, (Position.new64 host48k (map_inf_108 : TempoMap ℚ) 1).add_preroll 2 = some p ∧
      p.locate64 host48k 0 0 = some q0 ∧
      (Position.new64 host48k (map_inf_108 : TempoMap ℚ) 1).locate64 host48k 0 0 = some o0 ∧
      (((2 : Int) * ((map_inf_108 : TempoMap ℚ).get 0).beats : Int) : ℚ) * 240
          / (((map_inf_108 : TempoMap ℚ).get 0).tempo
            * ((((map_inf_108 : TempoMap ℚ).get 0).denom : Int) : ℚ))
          * (host48k.samplerate : ℚ) / 1 = 640000 / 3 ∧
      ((Position.advance64 host48k)^[10] q0).frame = (8246337208319999 / 34359738368) ∧
      ((Position.advance64 host48k)^[2] o0).frame = (7330077518506667 / 274877906944) ∧
      ((Position.advance64 host48k)^[10] q0).frame
        ≠ ((Position.advance64 host48k)^[2] o0).frame + 640000 / 3 ∧
      rnd64 (((Position.advance64 host48k)^[2] o0).frame + rnd64 (640000 / 3)) = 240000 ∧
      to_nframes (((Position.advance64 host48k)^[2] o0).frame + 640000 / 3) = 240000 ∧
      ((Position.advance64 host48k)^[10] q0).tick.frame = 239999 ∧
      ((Position.advance64 host48k)^[10] q0).tick.frame
        ≠ to_nframes (((Position.advance64 host48k)^[2] o0).frame + 640000 / 3)) := by
  have hc : ((map_inf_108 : TempoMap ℚ).get 0).is_const :=
    ⟨by norm_num [TempoMap.get, map_inf_108, const_entry],
      Or.inl (by simp [TempoMap.get, map_inf_108, const_entry])⟩
  obtain ⟨f1, f2⟩ := first_ticks64_inf_108
  have o1f : ((Position.advance64 host48k)^[1] (Position.new64 host48k (map_inf_108 : TempoMap ℚ) 1).reset).tick.frame = 0 := by
    rw [tick_frame, f1]
    exact to_nframes_eq _ 0 (by norm_num) (by norm_num) (by norm_num)
  have o2f : ((Position.advance64 host48k)^[2] (Position.new64 host48k (map_inf_108 : TempoMap ℚ) 1).reset).tick.frame = 26666 := by
    rw [tick_frame, f2]
    exact to_nframes_eq _ 26666 (by norm_num) (by norm_num) (by norm_num)
  have r1 : (Position.advance64 host48k)^[5] ((({ (Position.new64 host48k (map_inf_108 : TempoMap ℚ) 1) with
          tempomap := { entries := preroll_entry ((map_inf_108 : TempoMap ℚ).get 0) 1
            :: (map_inf_108 : TempoMap ℚ).entries } } : Position ℚ)).reset) = _ :=
    preroll_run64_108 1 (by decide) 4 (by decide) _ frame_dist64_preroll1_108
  have r2 : (Position.advance64 host48k)^[9] ((({ (Position.new64 host48k (map_inf_108 : TempoMap ℚ) 1) with
          tempomap := { entries := preroll_entry ((map_inf_108 : TempoMap ℚ).get 0) 2
            :: (map_inf_108 : TempoMap ℚ).entries } } : Position ℚ)).reset) = _ :=
    preroll_run64_108 2 (by decide) 8 (by decide) _ frame_dist64_preroll2_108
  have s1 : (Position.advance64 host48k)^[6] ((({ (Position.new64 host48k (map_inf_108 : TempoMap ℚ) 1) with
          tempomap := { entries := preroll_entry ((map_inf_108 : TempoMap ℚ).get 0) 1
            :: (map_inf_108 : TempoMap ℚ).entries } } : Position ℚ)).reset) = _ :=
    (Function.iterate_succ_apply' (Position.advance64 host48k) 5 _).trans
      ((congrArg (Position.advance64 host48k) r1).trans (preroll_step64_108 1 _))
  have s2 : (Position.advance64 host48k)^[10] ((({ (Position.new64 host48k (map_inf_108 : TempoMap ℚ) 1) with
          tempomap := { entries := preroll_entry ((map_inf_108 : TempoMap ℚ).get 0) 2
            :: (map_inf_108 : TempoMap ℚ).entries } } : Position ℚ)).reset) = _ :=
    (Function.iterate_succ_apply' (Position.advance64 host48k) 9 _).trans
      ((congrArg (Position.advance64 host48k) r2).trans (preroll_step64_108 2 _))
  have a5 : ((Position.advance64 host48k)^[5] ((({ (Position.new64 host48k (map_inf_108 : TempoMap ℚ) 1) with
          tempomap := { entries := preroll_entry ((map_inf_108 : TempoMap ℚ).get 0) 1
            :: (map_inf_108 : TempoMap ℚ).entries } } : Position ℚ)).reset)).frame
      = (7330077518506667 / 68719476736) := by
    rw [r1]
    exact acc64_108_4
  have a6 : ((Position.advance64 host48k)^[6] ((({ (Position.new64 host48k (map_inf_108 : TempoMap ℚ) 1) with
          tempomap := { entries := preroll_entry ((map_inf_108 : TempoMap ℚ).get 0) 1
            :: (map_inf_108 : TempoMap ℚ).entries } } : Position ℚ)).reset)).frame
      = (4581298449066667 / 34359738368) := by
    rw [s1]
    exact acc64_108_5
  have a10 : ((Position.advance64 host48k)^[10] ((({ (Position.new64 host48k (map_inf_108 : TempoMap ℚ) 1) with
          tempomap := { entries := preroll_entry ((map_inf_108 : TempoMap ℚ).get 0) 2
            :: (map_inf_108 : TempoMap ℚ).entries } } : Position ℚ)).reset)).frame
      = (8246337208319999 / 34359738368) := by
    rw [s2]
    exact acc64_108_9
  have t5 : ((Position.advance64 host48k)^[5] ((({ (Position.new64 host48k (map_inf_108 : TempoMap ℚ) 1) with
          tempomap := { entries := preroll_entry ((map_inf_108 : TempoMap ℚ).get 0) 1
            :: (map_inf_108 : TempoMap ℚ).entries } } : Position ℚ)).reset)).tick.frame = 106666 := by
    rw [tick_frame, a5]
    exact to_nframes_eq _ 106666 (by norm_num) (by norm_num) (by norm_num)
  have t6 : ((Position.advance64 host48k)^[6] ((({ (Position.new64 host48k (map_inf_108 : TempoMap ℚ) 1) with
          tempomap := { entries := preroll_entry ((map_inf_108 : TempoMap ℚ).get 0) 1
            :: (map_inf_108 : TempoMap ℚ).entries } } : Position ℚ)).reset)).tick.frame = 133333 := by
    rw [tick_frame, a6]
    exact to_nframes_eq _ 133333 (by norm_num) (by norm_num) (by norm_num)
  have t10 : ((Position.advance64 host48k)^[10] ((({ (Position.new64 host48k (map_inf_108 : TempoMap ℚ) 1) with
          tempomap := { entries := preroll_entry ((map_inf_108 : TempoMap ℚ).get 0) 2
            :: (map_inf_108 : TempoMap ℚ).entries } } : Position ℚ)).reset)).tick.frame = 239999 := by
    rw [tick_frame, a10]
    exact to_nframes_eq _ 239999 (by norm_num) (by norm_num) (by norm_num)
  have hsum : to_nframes (((7330077518506667 / 274877906944) : ℚ) + 640000 / 3) = 240000 :=
    to_nframes_eq _ 240000 (by norm_num) (by norm_num) (by norm_num)
  have hdur : rnd64 (640000 / 3) = (7330077518506667 / 34359738368) :=
      (rnd_eval 53 _ (640000 / 3) (7330077518506667 / 34359738368) (17) 7330077518506667
        (by norm_num) (by norm_num) (by norm_num) (by norm_num) (by norm_num) (by norm_num))
  have hadd : rnd64 (((7330077518506667 / 274877906944) : ℚ) + (7330077518506667 / 34359738368)) = 240000 :=
      (rnd_eval 53 _ (65970697666560003 / 274877906944) 240000 (17) 8246337208320000
        (by norm_num) (by norm_num) (by norm_num) (by norm_num) (by norm_num) (by norm_num))
  have hvp : ({ entries := preroll_entry ((map_inf_108 : TempoMap ℚ).get 0) 1
      :: (map_inf_108 : TempoMap ℚ).entries } : TempoMap ℚ).valid := by
    refine ⟨by simp, ?_, ?_, by
      simp only [map_inf_108, const_entry, preroll_entry, present_labels, List.map_cons,
        List.map_nil]
      decide⟩
    · intro e he
      simp only [map_inf_108, List.mem_cons, List.mem_singleton, List.not_mem_nil, or_false]
        at he
      rcases he with rfl | rfl
      · exact ⟨by norm_num [preroll_entry, TempoMap.get, const_entry],
          by norm_num [preroll_entry, TempoMap.get, const_entry],
          Or.inl (by norm_num [preroll_entry]),
          Or.inl ⟨by norm_num [preroll_entry, TempoMap.get, const_entry], Or.inl rfl⟩,
          Or.inl (by simp [preroll_entry, TempoMap.get, const_entry]),
          by norm_num [preroll_entry], by norm_num [preroll_entry]⟩
      · exact const_entry_valid _ _ _ _ _ (by norm_num) (by norm_num) (by norm_num)
          (by norm_num)
    · intro i hi
      have hi0 : i = 0 := by
        simp [TempoMap.size, map_inf_108] at hi
        omega
      subst hi0
      simp [TempoMap.get, preroll_entry]
  refine ⟨map_inf_108_valid, hc, ⟨(({ (Position.new64 host48k (map_inf_108 : TempoMap ℚ) 1) with
          tempomap := { entries := preroll_entry ((map_inf_108 : TempoMap ℚ).get 0) 1
            :: (map_inf_108 : TempoMap ℚ).entries } } : Position ℚ)),
    ((({ (Position.new64 host48k (map_inf_108 : TempoMap ℚ) 1) with
          tempomap := { entries := preroll_entry ((map_inf_108 : TempoMap ℚ).get 0) 1
            :: (map_inf_108 : TempoMap ℚ).entries } } : Position ℚ)).reset),
    (Position.new64 host48k (map_inf_108 : TempoMap ℚ) 1).reset,
    add_preroll_bars (Position.new64 host48k (map_inf_108 : TempoMap ℚ) 1) 1 (by decide)
      (by decide) map_inf_108_valid.2.2.2,
    hvp, locate64_zero _ _ _, locate64_zero _ _ _, ?_, t5, o1f, t6, o2f, ?_, ?_⟩,
    ⟨(({ (Position.new64 host48k (map_inf_108 : TempoMap ℚ) 1) with
          tempomap := { entries := preroll_entry ((map_inf_108 : TempoMap ℚ).get 0) 2
            :: (map_inf_108 : TempoMap ℚ).entries } } : Position ℚ)),
    ((({ (Position.new64 host48k (map_inf_108 : TempoMap ℚ) 1) with
          tempomap := { entries := preroll_entry ((map_inf_108 : TempoMap ℚ).get 0) 2
            :: (map_inf_108 : TempoMap ℚ).entries } } : Position ℚ)).reset),
    (Position.new64 host48k (map_inf_108 : TempoMap ℚ) 1).reset,
    add_preroll_bars (Position.new64 host48k (map_inf_108 : TempoMap ℚ) 1) 2 (by decide)
      (by decide) map_inf_108_valid.2.2.2,
    locate64_zero _ _ _, locate64_zero _ _ _, ?_, a10, f2, ?_, ?_, ?_, t10, ?_⟩⟩
  · norm_num [TempoMap.get, map_inf_108, const_entry, host48k]
  · rw [t5, o1f]
    norm_num
  · rintro ⟨s, h1, h2⟩
    rw [t5, o1f] at h1
    rw [t6, o2f] at h2
    omega
  · norm_num [TempoMap.get, map_inf_108, const_entry, host48k]
  · rw [a10, f2]
    norm_num
  · rw [f2, hdur]
    exact hadd
  · rw [f2]
    exact hsum
  · rw [t10, f2, hsum]
    decide

end Klick

namespace Klick
section Additivity

variable {K : Type} [LinearOrderedField K] [FloorRing K]

/-- The distances of consecutive beats sum to the distance over all of them. -/
theorem frame_dist_sum (H : Host K) (M : K) (e : Entry K) (hN : e.bars * e.beats ≠ 0)
    (a : Int) (ha : 0 ≤ a) (k : ℕ) :
    Finset.sum (Finset.range k) (fun i => frame_dist H M e (a + (i : Int)) (a + (i : Int) + 1))
      = frame_dist H M e a (a + (k : Int)) := by
  induction k with
  | zero => simp [frame_dist_self]
  | succ n ih =>
    rw [Finset.sum_range_succ, ih,
      frame_dist_add H M e hN a (a + (n : Int)) (a + (n : Int) + 1) ha (by omega) (by omega)]
    congr 1
    push_cast
    ring

/-- While `init` is clear the frame after `k` steps of `advance` is the frame
before plus the sum of the `dist_to_next()` read before each step. -/
theorem iterate_advance_frame_sum (H : Host K) (p : Position K) (k : ℕ)
    (hi : ∀ i, i < k → ((Position.advance H)^[i] p).init = false) :
    ((Position.advance H)^[k] p).frame
      = p.frame
        + Finset.sum (Finset.range k) (fun i => ((Position.advance H)^[i] p).dist_to_next H) := by
  induction k with
  | zero => simp
  | succ n ih =>
    rw [Function.iterate_succ_apply', advance_frame H _ (hi n (by omega)),
      ih (fun i h => hi i (by omega)), Finset.sum_range_succ]
    ring

/-- The cursor after `i` steps inside one entry: still in the entry, `i` beats
further. -/
theorem iterate_advance_within (H : Host K) (p : Position K) (hi : p.init = false)
    (he : p.end_ = false) (hp : p.in_range) (i : ℕ)
    (hb : (p.tempomap.get p.entry).bars = -1
      ∨ p.beat_index + (i : Int)
          < (p.tempomap.get p.entry).bars * (p.tempomap.get p.entry).beats) :
    ((Position.advance H)^[i] p).init = false ∧ ((Position.advance H)^[i] p).end_ = false ∧
      ((Position.advance H)^[i] p).in_range ∧
      ((Position.advance H)^[i] p).entry = p.entry ∧
      ((Position.advance H)^[i] p).beat_index = p.beat_index + (i : Int) := by
  induction i with
  | zero => exact ⟨hi, he, hp, rfl, by simp⟩
  | succ n ih =>
    obtain ⟨h1, h2, h3, h4, h5⟩ := ih (by
      rcases hb with h | h
      · exact Or.inl h
      · right
        push_cast at h
        omega)
    have hg : ((Position.advance H)^[n] p).tempomap.get ((Position.advance H)^[n] p).entry
        = p.tempomap.get p.entry := by
      rw [iterate_advance_tempomap, h4]
    obtain ⟨w1, w2, w3, w4, _⟩ := advance_within H ((Position.advance H)^[n] p) h1 h3 (by
      rw [hg, h5]
      rcases hb with h | h
      · exact Or.inl h
      · right
        push_cast at h
        omega)
    rw [Function.iterate_succ_apply']
    refine ⟨advance_init H _, by rw [w2, h2], w4, by rw [w1, h4], ?_⟩
    rw [w3, h5]
    push_cast
    ring

/-- C21 (amended). Additivity of `frame_dist` in exact arithmetic (no operation
rounds): for every entry `e` (whichever branch it takes: constant, linear ramp,
per-beat) and beat indices `0 ≤ a ≤ b ≤ c ≤ bars*beats` (no upper bound when the
entry is played ad infinitum),
`frame_dist(e, a, b) + frame_dist(e, b, c) = frame_dist(e, a, c)` and
`frame_dist(e, a, a) = 0`; the distances of the consecutive beats from `a` to
`c` sum to `frame_dist(e, a, c)`; and for a cursor on beat `a` of the entry,
`init` and `end` clear, the values of `dist_to_next()` read before each of the
next `c - a` calls of `advance()` sum to `frame_dist(e, a, c)`, and the frame
after these calls is the frame before plus `frame_dist(e, a, c)`. In machine
arithmetic `frame_dist(e, a, a) = 0` still holds, for every entry `e2`. -/
theorem frame_dist_additive (H : Host K) (M : K) (e : Entry K) (a b c : Int)
    (ha : 0 ≤ a) (hab : a ≤ b) (hbc : b ≤ c)
    (hc : c ≤ e.bars * e.beats ∨ (e.bars = -1 ∧ 1 ≤ e.beats))
    (H2 : Host ℚ) (M2 : ℚ) (e2 : Entry ℚ) :
    frame_dist H M e a b + frame_dist H M e b c = frame_dist H M e a c ∧
    frame_dist H M e a a = 0 ∧
    Finset.sum (Finset.range (c - a).toNat)
        (fun i => frame_dist H M e (a + (i : Int)) (a + (i : Int) + 1))
      = frame_dist H M e a c ∧
    (∀ p : Position K, p.multiplier = M → p.tempomap.get p.entry = e → p.init = false →
      p.end_ = false → p.in_range → p.beat_index = a →
      Finset.sum (Finset.range (c - a).toNat)
          (fun i => ((Position.advance H)^[i] p).dist_to_next H)
        = frame_dist H M e a c ∧
      ((Position.advance H)^[(c - a).toNat] p).frame = p.frame + frame_dist H M e a c) ∧
    frame_dist64 H2 M2 e2 a a = 0 := by
  by_cases hac : a = c
  · have hb : b = a := by omega
    subst hac
    subst hb
    simp [frame_dist_self, frame_dist64_self]
  have hN : e.bars * e.beats ≠ 0 := by
    rcases hc with h | ⟨h1, h2⟩
    · omega
    · rw [h1]
      omega
  have hk : a + (((c - a).toNat : ℕ) : Int) = c := by omega
  have hsum := frame_dist_sum H M e hN a ha (c - a).toNat
  rw [hk] at hsum
  refine ⟨frame_dist_add H M e hN a b c ha hab hbc, frame_dist_self H M e a, hsum, ?_,
    frame_dist64_self H2 M2 e2 a⟩
  intro p hM hE hi he hp hbi
  have hd : ∀ i, i < (c - a).toNat →
      ((Position.advance H)^[i] p).init = false ∧
      ((Position.advance H)^[i] p).dist_to_next H
        = frame_dist H M e (a + (i : Int)) (a + (i : Int) + 1) := by
    intro i hlt
    obtain ⟨h1, h2, _, h4, h5⟩ := iterate_advance_within H p hi he hp i (by
      rw [hE, hbi]
      rcases hc with h | ⟨h, _⟩
      · right
        omega
      · exact Or.inl h)
    refine ⟨h1, ?_⟩
    rw [dist_to_next_eq H _ h1 h2, iterate_advance_tempomap, iterate_advance_multiplier, h4, h5,
      hE, hM, hbi]
  have hs : Finset.sum (Finset.range (c - a).toNat)
      (fun i => ((Position.advance H)^[i] p).dist_to_next H) = frame_dist H M e a c := by
    rw [← hsum]
    apply Finset.sum_congr rfl
    intro i hi'
    exact (hd i (Finset.mem_range.mp hi')).2
  refine ⟨hs, ?_⟩
  rw [iterate_advance_frame_sum H p _ (fun i h => (hd i h).1), hs]

end Additivity

/-- Additivity of `frame_dist` on the ramp `1 4/4 60-120` at 48000 Hz over the
reals, for the beats 1, 2, 4; in machine arithmetic the distance from beat 1 to
beat 1 of `* 4/4 108` is 0. -/
theorem frame_dist_additive_witness :
    (0 : Int) ≤ 1 ∧ (1 : Int) ≤ 2 ∧ (2 : Int) ≤ 4 ∧
    ((4 : Int) ≤ (ramp_bar : Entry ℝ).bars * (ramp_bar : Entry ℝ).beats
      ∨ ((ramp_bar : Entry ℝ).bars = -1 ∧ 1 ≤ (ramp_bar : Entry ℝ).beats)) ∧
    (frame_dist ({ samplerate := 48000, log := Real.log } : Host ℝ) 1 ramp_bar 1 2
        + frame_dist ({ samplerate := 48000, log := Real.log } : Host ℝ) 1 ramp_bar 2 4
      = frame_dist ({ samplerate := 48000, log := Real.log } : Host ℝ) 1 ramp_bar 1 4 ∧
    frame_dist ({ samplerate := 48000, log := Real.log } : Host ℝ) 1 ramp_bar 1 1 = 0 ∧
    Finset.sum (Finset.range ((4 : Int) - 1).toNat)
        (fun i => frame_dist ({ samplerate := 48000, log := Real.log } : Host ℝ) 1 ramp_bar
          (1 + (i : Int)) (1 + (i : Int) + 1))
      = frame_dist ({ samplerate := 48000, log := Real.log } : Host ℝ) 1 ramp_bar 1 4 ∧
    (∀ p : Position ℝ, p.multiplier = 1 → p.tempomap.get p.entry = ramp_bar → p.init = false →
      p.end_ = false → p.in_range → p.beat_index = 1 →
      Finset.sum (Finset.range ((4 : Int) - 1).toNat)
          (fun i => ((Position.advance ({ samplerate := 48000, log := Real.log } : Host ℝ))^[i]
            p).dist_to_next ({ samplerate := 48000, log := Real.log } : Host ℝ))
        = frame_dist ({ samplerate := 48000, log := Real.log } : Host ℝ) 1 ramp_bar 1 4 ∧
      ((Position.advance ({ samplerate := 48000, log := Real.log } : Host ℝ))^[((4 : Int)
          - 1).toNat] p).frame
        = p.frame + frame_dist ({ samplerate := 48000, log := Real.log } : Host ℝ) 1 ramp_bar 1
            4) ∧
    frame_dist64 host48k 1 (const_entry "" (-1) 108 4 4) 1 1 = 0) :=
  ⟨by decide, by decide, by decide, Or.inl (by norm_num [ramp_bar]),
    frame_dist_additive ({ samplerate := 48000, log := Real.log } : Host ℝ) 1 ramp_bar 1 2 4
      (by decide) (by decide) (by decide) (Or.inl (by norm_num [ramp_bar]))
      host48k 1 (const_entry "" (-1) 108 4 4)⟩

/-- C21, as stated, fails in machine arithmetic on the entry `* 4/4 108` at
48000 Hz, multiplier 1. For the beats 0, 1, 8: `frame_dist(e, 0, 1)` is
26666.666666666668 and `frame_dist(e, 1, 8)` is 186666.66666666666; their sum,
rounded as the addition rounds it, is 213333.3333333333, and
`frame_dist(e, 0, 8)` is 213333.33333333334 (the unrounded sum differs from it
too). Beat by beat: every beat is 26666.666666666668 frames long, the first
tick has frame 0, and after nine more calls of `advance()` the frame is
239999.99999999997 and `tick().frame` 239999, while `frame_dist(e, 0, 9)` is
240000. -/
theorem frame_dist_additive_counterexample :
    (0 : Int) ≤ 0 ∧ (0 : Int) ≤ 1 ∧ (1 : Int) ≤ 8 ∧ (8 : Int) ≤ 9 ∧
    ((9 : Int) ≤ ((const_entry "" (-1) 108 4 4) : Entry ℚ).bars * ((const_entry "" (-1) 108 4 4) : Entry ℚ).beats
      ∨ (((const_entry "" (-1) 108 4 4) : Entry ℚ).bars = -1 ∧ 1 ≤ ((const_entry "" (-1) 108 4 4) : Entry ℚ).beats)) ∧
    frame_dist64 host48k 1 (const_entry "" (-1) 108 4 4) 0 1 = (7330077518506667 / 274877906944) ∧
    frame_dist64 host48k 1 (const_entry "" (-1) 108 4 4) 1 8 = (6413817828693333 / 34359738368) ∧
    frame_dist64 host48k 1 (const_entry "" (-1) 108 4 4) 0 8 = (7330077518506667 / 34359738368) ∧
    rnd64 (frame_dist64 host48k 1 (const_entry "" (-1) 108 4 4) 0 1 + frame_dist64 host48k 1 (const_entry "" (-1) 108 4 4) 1 8)
      = (3665038759253333 / 17179869184) ∧
    rnd64 (frame_dist64 host48k 1 (const_entry "" (-1) 108 4 4) 0 1 + frame_dist64 host48k 1 (const_entry "" (-1) 108 4 4) 1 8)
      ≠ frame_dist64 host48k 1 (const_entry "" (-1) 108 4 4) 0 8 ∧
    frame_dist64 host48k 1 (const_entry "" (-1) 108 4 4) 0 1 + frame_dist64 host48k 1 (const_entry "" (-1) 108 4 4) 1 8
      ≠ frame_dist64 host48k 1 (const_entry "" (-1) 108 4 4) 0 8 ∧
    (∀ i : Int, frame_dist64 host48k 1 (const_entry "" (-1) 108 4 4) i (i + 1) = (7330077518506667 / 274877906944)) ∧
    (map_inf_108 : TempoMap ℚ).get 0 = (const_entry "" (-1) 108 4 4) ∧
    ((Position.advance64 host48k)^[1] (Position.new64 host48k (map_inf_108 : TempoMap ℚ) 1).reset).frame = 0 ∧
    ((Position.advance64 host48k)^[1] (Position.new64 host48k (map_inf_108 : TempoMap ℚ) 1).reset).init = false ∧
    ((Position.advance64 host48k)^[1] (Position.new64 host48k (map_inf_108 : TempoMap ℚ) 1).reset).beat_index = 0 ∧
    ((Position.advance64 host48k)^[10] (Position.new64 host48k (map_inf_108 : TempoMap ℚ) 1).reset).beat_index = 9 ∧
    ((Position.advance64 host48k)^[10] (Position.new64 host48k (map_inf_108 : TempoMap ℚ) 1).reset).frame
      = (8246337208319999 / 34359738368) ∧
    frame_dist64 host48k 1 (const_entry "" (-1) 108 4 4) 0 9 = 240000 ∧
    ((Position.advance64 host48k)^[10] (Position.new64 host48k (map_inf_108 : TempoMap ℚ) 1).reset).frame
      ≠ ((Position.advance64 host48k)^[1] (Position.new64 host48k (map_inf_108 : TempoMap ℚ) 1).reset).frame
        + frame_dist64 host48k 1 (const_entry "" (-1) 108 4 4) 0 9 ∧
    ((Position.advance64 host48k)^[10] (Position.new64 host48k (map_inf_108 : TempoMap ℚ) 1).reset).tick.frame = 239999 ∧
    to_nframes (((Position.advance64 host48k)^[1] (Position.new64 host48k (map_inf_108 : TempoMap ℚ) 1).reset).frame
      + frame_dist64 host48k 1 (const_entry "" (-1) 108 4 4) 0 9) = 240000 := by
  have hsh : ∀ i : Int, frame_dist64 host48k 1 (const_entry "" (-1) 108 4 4) i (i + 1) = (7330077518506667 / 274877906944) := by
    intro i
    have h := frame_dist64_shift host48k 1 (const_entry "" (-1) 108 4 4) 0 1 i (by norm_num [const_entry])
      (Or.inl rfl)
    rw [zero_add, add_comm 1 i] at h
    rw [h]
    exact frame_dist64_108_0_1
  have hadd : rnd64 (((7330077518506667 / 274877906944) : ℚ) + (6413817828693333 / 34359738368)) = (3665038759253333 / 17179869184) :=
      (rnd_eval 53 _ (58640620148053331 / 274877906944) (3665038759253333 / 17179869184) (17) 7330077518506666
        (by norm_num) (by norm_num) (by norm_num) (by norm_num) (by norm_num) (by norm_num))
  have f1 : (Position.advance64 host48k)^[1] (Position.new64 host48k (map_inf_108 : TempoMap ℚ) 1).reset
      = { (Position.new64 host48k (map_inf_108 : TempoMap ℚ) 1).reset with init := false } := by
    rw [Function.iterate_one, advance64_of_init _ _ rfl]
  obtain ⟨b, r, hr0, hr1, hb0, hbr, hrun⟩ := single_run64 host48k (const_entry "" (-1) 108 4 4) 1 rfl
    (by norm_num [const_entry]) (Or.inl rfl) (by decide) 9
  have hbeats : ((const_entry "" (-1) 108 4 4) : Entry ℚ).beats = 4 := rfl
  rw [hbeats] at hr1 hbr
  have f10 : (Position.advance64 host48k)^[10] (Position.new64 host48k (map_inf_108 : TempoMap ℚ) 1).reset
      = { (Position.new64 host48k { entries := [(const_entry "" (-1) 108 4 4)] } 1) with
          frame := acc64 (frame_dist64 host48k 1 (const_entry "" (-1) 108 4 4) 0 1) 0 9, bar := b, beat := r,
          bar_total := b, init := false } := hrun
  have a10 : ((Position.advance64 host48k)^[10] (Position.new64 host48k (map_inf_108 : TempoMap ℚ) 1).reset).frame
      = (8246337208319999 / 34359738368) := by
    rw [f10]
    show acc64 (frame_dist64 host48k 1 (const_entry "" (-1) 108 4 4) 0 1) 0 9 = _
    rw [frame_dist64_108_0_1]
    exact acc64_108_9
  have b10 : ((Position.advance64 host48k)^[10] (Position.new64 host48k (map_inf_108 : TempoMap ℚ) 1).reset).beat_index = 9 := by
    rw [f10]
    show b * 4 + r = 9
    exact_mod_cast hbr
  refine ⟨by decide, by decide, by decide, by decide, Or.inr ⟨rfl, by decide⟩,
    frame_dist64_108_0_1, frame_dist64_108_1_8, frame_dist64_108_0_8, ?_, ?_, ?_, hsh, rfl, ?_, ?_,
    ?_, b10, a10, frame_dist64_108_0_9, ?_, ?_, ?_⟩
  · rw [frame_dist64_108_0_1, frame_dist64_108_1_8]
    exact hadd
  · rw [frame_dist64_108_0_1, frame_dist64_108_1_8, frame_dist64_108_0_8, hadd]
    norm_num
  · rw [frame_dist64_108_0_1, frame_dist64_108_1_8, frame_dist64_108_0_8]
    norm_num
  · rw [f1]
    rfl
  · rw [f1]
  · rw [f1]
    rfl
  · rw [a10, f1, frame_dist64_108_0_9]
    show (((8246337208319999 / 34359738368) : ℚ)) ≠ 0 + 240000
    norm_num
  · rw [tick_frame, a10]
    exact to_nframes_eq _ 239999 (by norm_num) (by norm_num) (by norm_num)
  · rw [f1, frame_dist64_108_0_9]
    show to_nframes ((0 : ℚ) + 240000) = 240000
    exact to_nframes_eq _ 240000 (by norm_num) (by norm_num) (by norm_num)

end Klick
